import Mathlib

set_option maxRecDepth 40000
set_option linter.dupNamespace false

/-!
Verification of the bitcask storage engine (aixiasang/bitcask).

A shallow embedding of the engine's core: the record codec
(record.go), the WAL segment file (wal.go), the in-memory BTree index
(index/btree.go), the key comparator (utils/comparator.go), the engine
operations (bitcask.go) and the batch transaction protocol (batch.go).
Byte slices are modelled as `List Nat`; a Go nil slice is distinguished
from an empty slice by `Option` at the points where the source branches
on nil-ness.  Machine integers (uint32) are `Nat` with explicit `% 2^32`
where Go truncates.  Disk and in-process errors that come from the
operating system are outside the model: file writes succeed; all
error paths that the source itself computes (bounds checks, decode
failures, missing file ids, transaction-id mismatches) are modelled
exactly with `Except`.
-/

namespace Bitcask

/-! ## Bytes and big-endian u32 (encoding/binary BigEndian) -/

/-- Big-endian 4-byte encoding of a uint32, as Go binary.Write with
BigEndian does for `uint32(n)` (values are truncated mod 2^32). -/
def be32 (n : Nat) : List Nat :=
  [n / 2 ^ 24 % 256, n / 2 ^ 16 % 256, n / 2 ^ 8 % 256, n % 256]

/-- Big-endian read of a uint32 from the first 4 bytes of a list, as
Go binary.BigEndian.Uint32.  All call sites in the source are guarded
so that at least 4 bytes are present. -/
def readU32 : List Nat → Nat
  | a :: b :: c :: d :: _ => ((a * 256 + b) * 256 + c) * 256 + d
  | _ => 0

theorem be32_length (n : Nat) : (be32 n).length = 4 := rfl

theorem readU32_be32_append (n : Nat) (rest : List Nat) (h : n < 2 ^ 32) :
    readU32 (be32 n ++ rest) = n := by
  simp only [be32, readU32, List.cons_append]
  omega

/-! ## CRC-32 (hash/crc32 ChecksumIEEE: reflected, poly 0xEDB88320) -/

/-- One shift-xor round of the reflected CRC-32 update. -/
def crcRound (c : Nat) : Nat :=
  if c % 2 = 1 then Nat.xor (c / 2) 0xEDB88320 else c / 2

/-- Feed one byte into the running CRC (8 rounds). -/
def crcByte (c b : Nat) : Nat :=
  crcRound (crcRound (crcRound (crcRound (crcRound (crcRound (crcRound (crcRound
    (Nat.xor c (b % 256)))))))))

/-- Go hash/crc32 ChecksumIEEE over a byte list. -/
def crc32 (l : List Nat) : Nat :=
  Nat.xor (l.foldl crcByte 0xFFFFFFFF) 0xFFFFFFFF

theorem crcRound_lt (c : Nat) (h : c < 2 ^ 32) : crcRound c < 2 ^ 32 := by
  unfold crcRound
  split
  · exact Nat.xor_lt_two_pow (by omega) (by norm_num)
  · omega

theorem crcByte_lt (c b : Nat) (h : c < 2 ^ 32) : crcByte c b < 2 ^ 32 := by
  unfold crcByte
  have h0 : Nat.xor c (b % 256) < 2 ^ 32 :=
    Nat.xor_lt_two_pow h (lt_of_lt_of_le (Nat.mod_lt _ (by norm_num)) (by norm_num))
  exact crcRound_lt _ (crcRound_lt _ (crcRound_lt _ (crcRound_lt _ (crcRound_lt _
    (crcRound_lt _ (crcRound_lt _ (crcRound_lt _ h0)))))))

theorem foldl_crcByte_lt (l : List Nat) (c : Nat) (h : c < 2 ^ 32) :
    l.foldl crcByte c < 2 ^ 32 := by
  induction l generalizing c with
  | nil => exact h
  | cons b t ih => exact ih _ (crcByte_lt c b h)

theorem crc32_lt (l : List Nat) : crc32 l < 2 ^ 32 :=
  Nat.xor_lt_two_pow (foldl_crcByte_lt l _ (by norm_num)) (by norm_num)

/-! ## Record codec (record/record.go) -/

/-- Record type tags, as the Go `RecordType` iota constants. -/
def typePut : Nat := 0
def typeDelete : Nat := 1
def typeBegin : Nat := 2
def typeTxnPut : Nat := 3
def typeTxnDelete : Nat := 4
def typeTxnCommit : Nat := 5

/-- A record as stored in a WAL segment.  Go's RecordType is a uint8
cast from a raw byte, so the tag is kept as a Nat. -/
structure Record where
  recordType : Nat
  key : List Nat
  value : List Nat
deriving DecidableEq, Repr

/-- record.NewRecord: a nil value yields a tombstone (Delete-typed)
record, any non-nil value a Put-typed record. -/
def newRecord (key : List Nat) (value : Option (List Nat)) : Record :=
  match value with
  | none => ⟨typeDelete, key, []⟩
  | some v => ⟨typePut, key, v⟩

/-- record.NewTxnRecord: nil value yields TxnDelete, otherwise TxnPut. -/
def newTxnRecord (key : List Nat) (value : Option (List Nat)) : Record :=
  match value with
  | none => ⟨typeTxnDelete, key, []⟩
  | some v => ⟨typeTxnPut, key, v⟩

/-- record.NewTxnCommit. -/
def newTxnCommit (key : List Nat) : Record := ⟨typeTxnCommit, key, []⟩

/-- record.NewTxnBegin. -/
def newTxnBegin (key : List Nat) : Record := ⟨typeBegin, key, []⟩

/-- The header-plus-payload part of the encoding: 1 type byte, 4-byte
big-endian key length, 4-byte big-endian value length, key, value. -/
def Record.body (r : Record) : List Nat :=
  r.recordType % 256 :: (be32 r.key.length ++ be32 r.value.length ++ r.key ++ r.value)

/-- Record.Encode: body followed by the 4-byte CRC over the body. -/
def Record.encode (r : Record) : List Nat :=
  r.body ++ be32 (crc32 r.body)

theorem Record.body_length (r : Record) :
    r.body.length = 9 + r.key.length + r.value.length := by
  simp [Record.body, be32]; omega

theorem Record.encode_length (r : Record) :
    r.encode.length = 9 + r.key.length + r.value.length + 4 := by
  simp [Record.encode, Record.body_length, be32]

/-- utils.EncodeTxnId: prefix a key with the 4-byte big-endian txn id. -/
def encodeTxnId (txnId : Nat) (key : List Nat) : List Nat :=
  be32 txnId ++ key

/-- Key-size cap enforced by DecodeRecord (10 MiB). -/
def maxKeyLen : Nat := 10 * 1024 * 1024

/-- Value-size cap enforced by DecodeRecord (100 MiB). -/
def maxValueLen : Nat := 100 * 1024 * 1024

inductive DecodeErr where
  | tooShort      -- record data too short (< 9 bytes)
  | tooLarge      -- key or value length over the caps
  | incomplete    -- record data incomplete (shorter than the announced total)
  | crcMismatch   -- stored CRC differs from the recomputed one
  | txnKeyPanic   -- DecodeTxnId on a key shorter than 4 bytes (Go panics)
deriving DecidableEq, Repr

/-- record.DecodeRecord.  The txn-typed key split at the end mirrors
utils.DecodeTxnId, which slices the first 4 bytes off the key; Go
panics when the key is shorter, modelled as the txnKeyPanic error. -/
def decodeRecord (data : List Nat) : Except DecodeErr Record :=
  if data.length < 9 then .error .tooShort else
  let recordType := data.headD 0
  let keyLength := readU32 (data.drop 1)
  let valueLength := readU32 (data.drop 5)
  if maxKeyLen < keyLength ∨ maxValueLen < valueLength then .error .tooLarge else
  if data.length < 9 + keyLength + valueLength + 4 then .error .incomplete else
  let key := (data.drop 9).take keyLength
  let value := (data.drop (9 + keyLength)).take valueLength
  let storedCrc := readU32 (data.drop (9 + keyLength + valueLength))
  let actualCrc := crc32 (data.take (9 + keyLength + valueLength))
  if storedCrc ≠ actualCrc then .error .crcMismatch else
  if recordType = typeTxnPut ∨ recordType = typeTxnDelete then
    if key.length < 4 then .error .txnKeyPanic
    else .ok ⟨recordType, key.drop 4, value⟩
  else .ok ⟨recordType, key, value⟩

/-- Spelled-out shape of the encoding, convenient for parsing proofs. -/
theorem Record.encode_eq (r : Record) :
    r.encode = r.recordType % 256 ::
      (be32 r.key.length ++ (be32 r.value.length ++ (r.key ++ (r.value ++
        be32 (crc32 r.body))))) := by
  simp [Record.encode, Record.body, List.append_assoc]

theorem Record.encode_drop_one (r : Record) :
    r.encode.drop 1 = be32 r.key.length ++ (be32 r.value.length ++ (r.key ++ (r.value ++
      be32 (crc32 r.body)))) := by
  rw [Record.encode_eq]; rfl

theorem Record.encode_drop_five (r : Record) :
    r.encode.drop 5 = be32 r.value.length ++ (r.key ++ (r.value ++ be32 (crc32 r.body))) := by
  have h : r.encode.drop 5 = (r.encode.drop 1).drop 4 := by
    rw [List.drop_drop]
  rw [h, Record.encode_drop_one, List.drop_append_of_le_length (by simp [be32])]
  simp [be32]

theorem Record.encode_drop_nine (r : Record) :
    r.encode.drop 9 = r.key ++ (r.value ++ be32 (crc32 r.body)) := by
  have h : r.encode.drop 9 = (r.encode.drop 5).drop 4 := by
    rw [List.drop_drop]
  rw [h, Record.encode_drop_five, List.drop_append_of_le_length (by simp [be32])]
  simp [be32]

theorem Record.encode_take_body (r : Record) :
    r.encode.take (9 + r.key.length + r.value.length) = r.body := by
  have h := r.body_length
  rw [Record.encode, List.take_append_of_le_length (by omega)]
  exact List.take_of_length_le (by omega)

/-- Round-trip behaviour of the codec on exactly the bytes Encode
produced, for keys and values within the caps: non-txn-typed records
decode unchanged, TxnPut/TxnDelete records come back with the first 4
key bytes stripped (utils.DecodeTxnId), and panic on a shorter key. -/
theorem decodeRecord_encode (r : Record)
    (hk : r.key.length ≤ maxKeyLen) (hv : r.value.length ≤ maxValueLen) :
    decodeRecord r.encode =
      if r.recordType % 256 = typeTxnPut ∨ r.recordType % 256 = typeTxnDelete then
        (if r.key.length < 4 then .error .txnKeyPanic
         else .ok ⟨r.recordType % 256, r.key.drop 4, r.value⟩)
      else .ok ⟨r.recordType % 256, r.key, r.value⟩ := by
  have hklt : r.key.length < 2 ^ 32 := by
    have : maxKeyLen < 2 ^ 32 := by norm_num [maxKeyLen]
    omega
  have hvlt : r.value.length < 2 ^ 32 := by
    have : maxValueLen < 2 ^ 32 := by norm_num [maxValueLen]
    omega
  have hlen := r.encode_length
  have hhead : r.encode.headD 0 = r.recordType % 256 := by
    rw [Record.encode_eq]; rfl
  have hkl : readU32 (r.encode.drop 1) = r.key.length := by
    rw [Record.encode_drop_one, readU32_be32_append _ _ hklt]
  have hvl : readU32 (r.encode.drop 5) = r.value.length := by
    rw [Record.encode_drop_five, readU32_be32_append _ _ hvlt]
  have hkey : (r.encode.drop 9).take r.key.length = r.key := by
    rw [Record.encode_drop_nine, List.take_append_of_le_length le_rfl,
      List.take_of_length_le le_rfl]
  have hdropkv : r.encode.drop (9 + r.key.length) = r.value ++ be32 (crc32 r.body) := by
    have h : r.encode.drop (9 + r.key.length) = (r.encode.drop 9).drop r.key.length := by
      rw [List.drop_drop, Nat.add_comm]
    rw [h, Record.encode_drop_nine, List.drop_append_of_le_length le_rfl, List.drop_length]
    rfl
  have hval : (r.encode.drop (9 + r.key.length)).take r.value.length = r.value := by
    rw [hdropkv, List.take_append_of_le_length le_rfl, List.take_of_length_le le_rfl]
  have hcrc : readU32 (r.encode.drop (9 + r.key.length + r.value.length)) = crc32 r.body := by
    have h : r.encode.drop (9 + r.key.length + r.value.length) =
        (r.encode.drop (9 + r.key.length)).drop r.value.length := by
      rw [List.drop_drop]
    rw [h, hdropkv, List.drop_append_of_le_length le_rfl, List.drop_length,
      List.nil_append]
    have : readU32 (be32 (crc32 r.body)) = readU32 (be32 (crc32 r.body) ++ []) := by
      simp
    rw [this, readU32_be32_append _ _ (crc32_lt _)]
  have hbody : crc32 (r.encode.take (9 + r.key.length + r.value.length)) = crc32 r.body := by
    rw [Record.encode_take_body]
  unfold decodeRecord
  rw [if_neg (by omega)]
  simp only [hhead, hkl, hvl, hkey, hval, hcrc, hbody]
  rw [if_neg (by omega), if_neg (by omega), if_neg (by simp)]

/-! ## WAL segment file (wal/wal.go) -/

/-- record.Pos: the location of a record inside a segment. -/
structure Pos where
  fileId : Nat
  offset : Nat
  length : Nat
deriving DecidableEq, Repr

/-- A WAL segment.  `content` is the bytes of the on-disk file; writes
go to the end of the file (the file is opened with O_APPEND).  `offset`
is the separate in-memory write cursor `w.offset` that the source
maintains and reports as Size() and as the offset of new records. -/
structure Wal where
  fileId : Nat
  content : List Nat
  offset : Nat
deriving DecidableEq, Repr

/-- Wal.write: encode, append at end-of-file, advance the cursor, and
return the position (fileId, pre-write cursor, encoded length). -/
def Wal.write (w : Wal) (r : Record) : Wal × Pos :=
  let encoded := r.encode
  (⟨w.fileId, w.content ++ encoded, w.offset + encoded.length⟩,
   ⟨w.fileId, w.offset, encoded.length⟩)

/-- Wal.Size returns the in-memory cursor, not the physical file size. -/
def Wal.size (w : Wal) : Nat := w.offset

/-- Wal.UpdateOffset: reset the cursor to the physical file size. -/
def Wal.updateOffset (w : Wal) : Wal := { w with offset := w.content.length }

inductive ReadErr where
  | outOfRange              -- read position out of file range
  | decodeFailed (e : DecodeErr)  -- failed to decode record
deriving DecidableEq, Repr

/-- Wal.ReadPos: bounds-check against the physical file size, read the
exact byte range, decode. -/
def Wal.readPos (w : Wal) (pos : Pos) : Except ReadErr Record :=
  let fileSize := w.content.length
  if fileSize ≤ pos.offset ∨ fileSize < pos.offset + pos.length then .error .outOfRange
  else
    match decodeRecord ((w.content.drop pos.offset).take pos.length) with
    | .error e => .error (.decodeFailed e)
    | .ok rec => .ok rec

/-! ## Key comparator (utils/comparator.go) -/

/-- Go bytes.Compare: lexicographic byte comparison, a proper prefix
compares less. -/
def bytesCompare : List Nat → List Nat → Ordering
  | [], [] => .eq
  | [], _ :: _ => .lt
  | _ :: _, [] => .gt
  | a :: as, b :: bs =>
    if a < b then .lt else if b < a then .gt else bytesCompare as bs

/-- KeyComparator.Less: shorter is less; equal lengths compare
lexicographically. -/
def kcLess (a b : List Nat) : Bool :=
  if a.length ≠ b.length then a.length < b.length
  else bytesCompare a b = Ordering.lt

/-- KeyComparator.Greater. -/
def kcGreater (a b : List Nat) : Bool :=
  if a.length ≠ b.length then b.length < a.length
  else bytesCompare a b = Ordering.gt

/-- KeyComparator.Equal (length check plus bytes.Equal). -/
def kcEqual (a b : List Nat) : Bool :=
  decide (a.length = b.length) && a = b

/-- KeyComparator.LessOrEqual. -/
def kcLessOrEqual (a b : List Nat) : Bool := kcLess a b || kcEqual a b

/-- KeyComparator.GreaterOrEqual. -/
def kcGreaterOrEqual (a b : List Nat) : Bool := kcGreater a b || kcEqual a b

/-- KeyComparator.InRange: start ≤ key ≤ end, both inclusive. -/
def kcInRange (key start stop : List Nat) : Bool :=
  kcGreaterOrEqual key start && kcLessOrEqual key stop

/-- index.item.Less: the BTree's order, the same shorter-first rule
restated in index/btree.go. -/
def itemLess (a b : List Nat) : Bool :=
  if a.length ≠ b.length then a.length < b.length
  else bytesCompare a b = Ordering.lt

theorem itemLess_eq_kcLess : itemLess = kcLess := rfl

theorem bytesCompare_eq_iff (a b : List Nat) : bytesCompare a b = .eq ↔ a = b := by
  induction a generalizing b with
  | nil => cases b <;> simp [bytesCompare]
  | cons x xs ih =>
    cases b with
    | nil => simp [bytesCompare]
    | cons y ys =>
      by_cases h1 : x < y
      · simp [bytesCompare, h1]; omega
      · by_cases h2 : y < x
        · simp [bytesCompare, h1, h2]; omega
        · have hxy : x = y := by omega
          simp [bytesCompare, h1, h2, hxy, ih]

theorem bytesCompare_self (a : List Nat) : bytesCompare a a = .eq :=
  (bytesCompare_eq_iff a a).2 rfl

theorem bytesCompare_cons_head_lt {x y : Nat} (h : x < y) (as bs : List Nat) :
    bytesCompare (x :: as) (y :: bs) = .lt := by
  simp [bytesCompare, h]

theorem bytesCompare_cons_head_gt {x y : Nat} (h : y < x) (as bs : List Nat) :
    bytesCompare (x :: as) (y :: bs) = .gt := by
  simp [bytesCompare, h, (show ¬ x < y by omega)]

theorem bytesCompare_cons_same (x : Nat) (as bs : List Nat) :
    bytesCompare (x :: as) (x :: bs) = bytesCompare as bs := by
  simp [bytesCompare]

theorem bytesCompare_gt_iff_lt (a b : List Nat) :
    bytesCompare a b = .gt ↔ bytesCompare b a = .lt := by
  induction a generalizing b with
  | nil => cases b <;> simp [bytesCompare]
  | cons x xs ih =>
    cases b with
    | nil => simp [bytesCompare]
    | cons y ys =>
      rcases Nat.lt_trichotomy x y with h | h | h
      · rw [bytesCompare_cons_head_lt h, bytesCompare_cons_head_gt h]
        simp
      · subst h
        rw [bytesCompare_cons_same, bytesCompare_cons_same]
        exact ih ys
      · rw [bytesCompare_cons_head_gt h, bytesCompare_cons_head_lt h]
        simp

theorem bytesCompare_lt_trans {a b c : List Nat}
    (h1 : bytesCompare a b = .lt) (h2 : bytesCompare b c = .lt) :
    bytesCompare a c = .lt := by
  induction a generalizing b c with
  | nil =>
    cases b with
    | nil => exact absurd h1 (by simp [bytesCompare])
    | cons y ys => cases c with
      | nil => exact absurd h2 (by simp [bytesCompare])
      | cons z zs => simp [bytesCompare]
  | cons x xs ih =>
    cases b with
    | nil => exact absurd h1 (by simp [bytesCompare])
    | cons y ys =>
      cases c with
      | nil => exact absurd h2 (by simp [bytesCompare])
      | cons z zs =>
        rcases Nat.lt_trichotomy x y with hxy | hxy | hxy
        · rcases Nat.lt_trichotomy y z with hyz | hyz | hyz
          · exact bytesCompare_cons_head_lt (by omega) _ _
          · subst hyz
            exact bytesCompare_cons_head_lt hxy _ _
          · rw [bytesCompare_cons_head_gt hyz] at h2
            exact absurd h2 (by simp)
        · subst hxy
          rw [bytesCompare_cons_same] at h1
          rcases Nat.lt_trichotomy x z with hyz | hyz | hyz
          · exact bytesCompare_cons_head_lt hyz _ _
          · subst hyz
            rw [bytesCompare_cons_same] at h2 ⊢
            exact ih h1 h2
          · rw [bytesCompare_cons_head_gt hyz] at h2
            exact absurd h2 (by simp)
        · rw [bytesCompare_cons_head_gt hxy] at h1
          exact absurd h1 (by simp)

theorem itemLess_iff {a b : List Nat} :
    itemLess a b = true ↔
      a.length < b.length ∨ (a.length = b.length ∧ bytesCompare a b = .lt) := by
  unfold itemLess
  by_cases h : a.length = b.length <;> simp [h]

theorem itemLess_irrefl (a : List Nat) : itemLess a a = false := by
  rw [Bool.eq_false_iff]
  intro h
  rcases itemLess_iff.1 h with h2 | ⟨_, h2⟩
  · omega
  · rw [bytesCompare_self] at h2
    simp at h2

theorem itemLess_trans {a b c : List Nat}
    (h1 : itemLess a b = true) (h2 : itemLess b c = true) : itemLess a c = true := by
  rcases itemLess_iff.1 h1 with ha | ⟨ha, ha2⟩ <;>
    rcases itemLess_iff.1 h2 with hb | ⟨hb, hb2⟩
  · exact itemLess_iff.2 (Or.inl (by omega))
  · exact itemLess_iff.2 (Or.inl (by omega))
  · exact itemLess_iff.2 (Or.inl (by omega))
  · exact itemLess_iff.2 (Or.inr ⟨by omega, bytesCompare_lt_trans ha2 hb2⟩)

theorem itemLess_asymm {a b : List Nat} (h : itemLess a b = true) :
    itemLess b a = false := by
  rw [Bool.eq_false_iff]
  intro hba
  have := itemLess_trans h hba
  rw [itemLess_irrefl] at this
  exact Bool.false_ne_true this

theorem itemLess_total {a b : List Nat}
    (h1 : itemLess a b = false) (h2 : itemLess b a = false) : a = b := by
  rw [Bool.eq_false_iff] at h1 h2
  by_cases hlen : a.length = b.length
  · rcases ho : bytesCompare a b with _ | _ | _
    · exact absurd (itemLess_iff.2 (Or.inr ⟨hlen, ho⟩)) h1
    · exact (bytesCompare_eq_iff a b).1 ho
    · exact absurd
        (itemLess_iff.2 (Or.inr ⟨hlen.symm, (bytesCompare_gt_iff_lt a b).1 ho⟩)) h2
  · rcases Nat.lt_or_ge a.length b.length with hl | hl
    · exact absurd (itemLess_iff.2 (Or.inl hl)) h1
    · exact absurd (itemLess_iff.2 (Or.inl (by omega))) h2

/-! ## In-memory BTree index (index/btree.go)

The Google BTree keyed by item.Less is modelled as a list of
(key, pos) entries kept sorted strictly ascending in the item order;
ReplaceOrInsert, Get, Delete and Ascend become ordered-list insertion,
search, removal and left-to-right traversal. -/

/-- Index entries: value side of the map in the BTree.  The operations
below are stated generically in the stored value type so that the same
ordered-map model also serves as the specification-level map from live
keys to live values used in the correctness statements. -/
abbrev Index := List (List Nat × Pos)

/-- BTreeIndex.Put (tree.ReplaceOrInsert). -/
def memPut {A : Type} (k : List Nat) (p : A) : List (List Nat × A) → List (List Nat × A)
  | [] => [(k, p)]
  | (k2, p2) :: t =>
    if itemLess k k2 then (k, p) :: (k2, p2) :: t
    else if itemLess k2 k then (k2, p2) :: memPut k p t
    else (k, p) :: t

/-- BTreeIndex.Get (tree.Get): order-based search; absent keys give
none (the Go method returns a nil position and a nil error). -/
def memGet {A : Type} (k : List Nat) : List (List Nat × A) → Option A
  | [] => none
  | (k2, p2) :: t =>
    if itemLess k k2 then none
    else if itemLess k2 k then memGet k t
    else some p2

/-- BTreeIndex.Delete (tree.Delete). -/
def memDelete {A : Type} (k : List Nat) : List (List Nat × A) → List (List Nat × A)
  | [] => []
  | (k2, p2) :: t =>
    if itemLess k k2 then (k2, p2) :: t
    else if itemLess k2 k then (k2, p2) :: memDelete k t
    else t

/-- Strictly-ascending key order, the Sorted invariant of the tree. -/
def IndexSorted {A : Type} (m : List (List Nat × A)) : Prop :=
  m.Pairwise (fun a b => itemLess a.1 b.1 = true)

theorem memPut_sorted {A : Type} {m : List (List Nat × A)} (k : List Nat) (p : A) (h : IndexSorted m) :
    IndexSorted (memPut k p m) := by
  induction m with
  | nil => simp [memPut, IndexSorted]
  | cons e t ih =>
    obtain ⟨k2, p2⟩ := e
    rw [IndexSorted, List.pairwise_cons] at h
    obtain ⟨hhead, htail⟩ := h
    by_cases h1 : itemLess k k2 = true
    · rw [memPut, if_pos h1]
      refine List.Pairwise.cons ?_ (List.Pairwise.cons hhead htail)
      intro e he
      rcases List.mem_cons.1 he with rfl | he2
      · exact h1
      · exact itemLess_trans h1 (hhead e he2)
    · by_cases h2 : itemLess k2 k = true
      · rw [memPut, if_neg (by simp [h1]), if_pos h2]
        refine List.Pairwise.cons ?_ (ih htail)
        intro e he
        have hmem : e.1 = k ∨ e ∈ t := by
          clear ih hhead htail
          induction t with
          | nil => simp [memPut] at he; simp [he]
          | cons f s ihh =>
            obtain ⟨kf, pf⟩ := f
            rw [memPut] at he
            split at he
            · rcases List.mem_cons.1 he with rfl | hh
              · exact Or.inl rfl
              · exact Or.inr hh
            · split at he
              · rcases List.mem_cons.1 he with rfl | hh
                · exact Or.inr (List.mem_cons_self _ _)
                · rcases ihh hh with hh2 | hh2
                  · exact Or.inl hh2
                  · exact Or.inr (List.mem_cons_of_mem _ hh2)
              · rcases List.mem_cons.1 he with rfl | hh
                · exact Or.inl rfl
                · exact Or.inr (List.mem_cons_of_mem _ hh)
        rcases hmem with hk | hmem2
        · rw [hk]; exact h2
        · exact hhead e hmem2
      · have : k = k2 := itemLess_total (by simpa using h1) (by simpa using h2)
        subst this
        rw [memPut, if_neg (by simp [h1]), if_neg (by simp [h2])]
        exact List.Pairwise.cons (fun e he => hhead e he) htail

theorem memGet_memPut_self {A : Type} (k : List Nat) (p : A) (m : List (List Nat × A)) :
    memGet k (memPut k p m) = some p := by
  induction m with
  | nil => simp [memPut, memGet, itemLess_irrefl]
  | cons e t ih =>
    obtain ⟨k2, p2⟩ := e
    by_cases h1 : itemLess k k2 = true
    · rw [memPut, if_pos h1, memGet, if_neg (by simp [itemLess_irrefl]),
        if_neg (by simp [itemLess_irrefl])]
    · by_cases h2 : itemLess k2 k = true
      · rw [memPut, if_neg (by simp [h1]), if_pos h2, memGet,
          if_neg (by simp [h1]), if_pos h2]
        exact ih
      · rw [memPut, if_neg (by simp [h1]), if_neg (by simp [h2]), memGet,
          if_neg (by simp [itemLess_irrefl]), if_neg (by simp [itemLess_irrefl])]

theorem memGet_memPut_ne {A : Type} {k k2 : List Nat} (hne : k2 ≠ k) (p : A) (m : List (List Nat × A)) :
    memGet k2 (memPut k p m) = memGet k2 m := by
  induction m with
  | nil =>
    rcases h1 : itemLess k2 k with _ | _
    · rcases h2 : itemLess k k2 with _ | _
      · exact absurd (itemLess_total h1 h2) hne
      · simp [memPut, memGet, h1, h2]
    · simp [memPut, memGet, h1]
  | cons e t ih =>
    obtain ⟨k3, p3⟩ := e
    by_cases h1 : itemLess k k3 = true
    · rw [memPut, if_pos h1]
      by_cases h2 : itemLess k2 k = true
      · rw [memGet, if_pos h2, memGet, if_pos (itemLess_trans h2 h1)]
      · by_cases h3 : itemLess k k2 = true
        · rw [memGet, if_neg (by simp [h2]), if_pos h3]
        · exact absurd (itemLess_total (by simp [h3]) (by simp [h2])).symm hne
    · by_cases h2 : itemLess k3 k = true
      · rw [memPut, if_neg (by simp [h1]), if_pos h2, memGet, memGet]
        by_cases h3 : itemLess k2 k3 = true
        · rw [if_pos h3, if_pos h3]
        · rw [if_neg (show ¬itemLess k2 k3 = true by simp [h3]),
            if_neg (show ¬itemLess k2 k3 = true by simp [h3])]
          by_cases h4 : itemLess k3 k2 = true
          · rw [if_pos h4, if_pos h4, ih]
          · rw [if_neg (show ¬itemLess k3 k2 = true by simp [h4]),
              if_neg (show ¬itemLess k3 k2 = true by simp [h4])]
      · have hk : k = k3 := itemLess_total (by simp [h1]) (by simp [h2])
        subst hk
        rw [memPut, if_neg (by simp [h1]), if_neg (by simp [h2]), memGet, memGet]
        by_cases h3 : itemLess k2 k = true
        · rw [if_pos h3, if_pos h3]
        · rw [if_neg (show ¬itemLess k2 k = true by simp [h3]),
            if_neg (show ¬itemLess k2 k = true by simp [h3])]
          by_cases h4 : itemLess k k2 = true
          · rw [if_pos h4, if_pos h4]
          · exact absurd (itemLess_total (by simp [h4]) (by simp [h3])).symm hne

theorem memGet_of_all_greater {A : Type} {k : List Nat} {m : List (List Nat × A)}
    (h : ∀ e ∈ m, itemLess k e.1 = true) : memGet k m = none := by
  cases m with
  | nil => rfl
  | cons e t =>
    rw [memGet, if_pos (h e (List.mem_cons_self _ _))]

theorem memDelete_sublist {A : Type} (k : List Nat) (m : List (List Nat × A)) : (memDelete k m).Sublist m := by
  induction m with
  | nil => simp [memDelete]
  | cons e t ih =>
    obtain ⟨k2, p2⟩ := e
    rw [memDelete]
    split
    · exact List.Sublist.refl _
    · split
      · exact List.Sublist.cons₂ _ ih
      · exact List.sublist_cons_self _ _

theorem memDelete_sorted {A : Type} {k : List Nat} {m : List (List Nat × A)} (h : IndexSorted m) :
    IndexSorted (memDelete k m) :=
  List.Pairwise.sublist (memDelete_sublist k m) h

theorem memGet_memDelete_self {A : Type} {k : List Nat} {m : List (List Nat × A)} (h : IndexSorted m) :
    memGet k (memDelete k m) = none := by
  induction m with
  | nil => rfl
  | cons e t ih =>
    obtain ⟨k2, p2⟩ := e
    rw [IndexSorted, List.pairwise_cons] at h
    obtain ⟨hhead, htail⟩ := h
    by_cases h1 : itemLess k k2 = true
    · rw [memDelete, if_pos h1, memGet, if_pos h1]
    · by_cases h2 : itemLess k2 k = true
      · rw [memDelete, if_neg (by simp [h1]), if_pos h2, memGet,
          if_neg (by simp [h1]), if_pos h2]
        exact ih htail
      · have hk : k = k2 := itemLess_total (by simp [h1]) (by simp [h2])
        subst hk
        rw [memDelete, if_neg (by simp [h1]), if_neg (by simp [h1])]
        exact memGet_of_all_greater (fun e he => hhead e he)

theorem memGet_memDelete_ne {A : Type} {k k2 : List Nat} (hne : k2 ≠ k) {m : List (List Nat × A)}
    (h : IndexSorted m) : memGet k2 (memDelete k m) = memGet k2 m := by
  induction m with
  | nil => rfl
  | cons e t ih =>
    obtain ⟨k3, p3⟩ := e
    rw [IndexSorted, List.pairwise_cons] at h
    obtain ⟨hhead, htail⟩ := h
    by_cases h1 : itemLess k k3 = true
    · rw [memDelete, if_pos h1]
    · by_cases h2 : itemLess k3 k = true
      · rw [memDelete, if_neg (by simp [h1]), if_pos h2, memGet, memGet]
        by_cases h3 : itemLess k2 k3 = true
        · rw [if_pos h3, if_pos h3]
        · rw [if_neg (show ¬itemLess k2 k3 = true by simp [h3]),
            if_neg (show ¬itemLess k2 k3 = true by simp [h3])]
          by_cases h4 : itemLess k3 k2 = true
          · rw [if_pos h4, if_pos h4, ih htail]
          · rw [if_neg (show ¬itemLess k3 k2 = true by simp [h4]),
              if_neg (show ¬itemLess k3 k2 = true by simp [h4])]
      · have hk : k = k3 := itemLess_total (by simp [h1]) (by simp [h2])
        subst hk
        rw [memDelete, if_neg (by simp [h1]), if_neg (by simp [h1]), memGet]
        by_cases h3 : itemLess k2 k = true
        · rw [if_pos h3]
          exact memGet_of_all_greater (fun e he => itemLess_trans h3 (hhead e he))
        · rw [if_neg (show ¬itemLess k2 k = true by simp [h3])]
          by_cases h4 : itemLess k k2 = true
          · rw [if_pos h4]
          · exact absurd (itemLess_total (by simp [h4]) (by simp [h3])).symm hne

theorem memGet_eq_some_of_mem {A : Type} {k : List Nat} {p : A} {m : List (List Nat × A)}
    (h : IndexSorted m) (hmem : (k, p) ∈ m) : memGet k m = some p := by
  induction m with
  | nil => simp at hmem
  | cons e t ih =>
    obtain ⟨k2, p2⟩ := e
    rw [IndexSorted, List.pairwise_cons] at h
    obtain ⟨hhead, htail⟩ := h
    rcases List.mem_cons.1 hmem with heq | hmem2
    · obtain ⟨rfl, rfl⟩ := Prod.mk.injEq .. ▸ heq
      rw [memGet, if_neg (by simp [itemLess_irrefl]), if_neg (by simp [itemLess_irrefl])]
    · have hlt : itemLess k2 k = true := hhead _ hmem2
      rw [memGet, if_neg (by simp [itemLess_asymm hlt]), if_pos hlt]
      exact ih htail hmem2

theorem mem_of_memGet_eq_some {A : Type} {k : List Nat} {p : A} {m : List (List Nat × A)}
    (h : memGet k m = some p) : (k, p) ∈ m := by
  induction m with
  | nil => simp [memGet] at h
  | cons e t ih =>
    obtain ⟨k2, p2⟩ := e
    rw [memGet] at h
    split at h
    · simp at h
    · split at h
      · exact List.mem_cons_of_mem _ (ih h)
      · rename_i h1 h2
        have hk : k = k2 := itemLess_total (by simpa using h1) (by simpa using h2)
        simp only [Option.some.injEq] at h
        subst hk
        subst h
        exact List.mem_cons_self _ _

/-! ## Engine (bitcask.go)

The engine state keeps the fields of the Go `Bitcask` struct that carry
semantics: configuration, active WAL, sealed WAL map (an association
list mirrors the Go map, with later insertions shadowing), in-memory
index, current file id, the accumulated file-id list, and the
transaction id.  Keys passed to the operations model non-nil Go
slices (a nil key is rejected by Put with an error and changes
nothing). -/

/-- config.Config, restricted to the fields the engine semantics
reads: the rotation threshold, the batch limit and the LoadHint flag. -/
structure Config where
  maxFileSize : Nat
  batchSize : Nat
  loadHint : Bool
deriving DecidableEq, Repr

structure Bitcask where
  conf : Config
  activeWal : Wal
  oldWal : List (Nat × Wal)
  memTable : Index
  fileId : Nat
  fileIds : List Nat
  txnId : Nat
deriving DecidableEq, Repr

/-- Lookup in the sealed-WAL map (`bc.oldWal[fid]`). -/
def assocFind (fid : Nat) : List (Nat × Wal) → Option Wal
  | [] => none
  | (i, w) :: t => if i = fid then some w else assocFind fid t

/-- The segment-resolution pattern used by get, Scan and Merge: the
active WAL when the file id matches `bc.fileId`, otherwise the sealed
map. -/
def Bitcask.walFor (bc : Bitcask) (fid : Nat) : Option Wal :=
  if fid = bc.fileId then some bc.activeWal else assocFind fid bc.oldWal

/-- Bitcask.mustRotate: seal the active WAL into the old map, record
its id in fileIds, bump the file id and open a fresh active WAL. -/
def Bitcask.mustRotate (bc : Bitcask) : Bitcask :=
  { bc with
    oldWal := (bc.fileId, bc.activeWal) :: bc.oldWal,
    fileIds := bc.fileIds ++ [bc.fileId],
    fileId := bc.fileId + 1,
    activeWal := ⟨bc.fileId + 1, [], 0⟩ }

/-- Bitcask.tryRotate: rotate when the active WAL's size (its write
cursor) has reached MaxFileSize. -/
def Bitcask.tryRotate (bc : Bitcask) : Bitcask :=
  if bc.activeWal.size < bc.conf.maxFileSize then bc else bc.mustRotate

/-- Bitcask.Put: try-rotate, append a record built by record.NewRecord
(nil value: tombstone), and point the index at the new location. -/
def Bitcask.put (bc : Bitcask) (key : List Nat) (value : Option (List Nat)) : Bitcask :=
  let bc1 := bc.tryRotate
  let wp := bc1.activeWal.write (newRecord key value)
  { bc1 with activeWal := wp.1, memTable := memPut key wp.2 bc1.memTable }

inductive GetErr where
  | keyNotFound               -- ErrKeyNotFound
  | keyHasDeleted             -- ErrKeyHasDeleted (tombstone hit)
  | fileNotFound (fid : Nat)  -- no WAL with the entry's file id
  | readFailed (e : ReadErr)  -- error propagated from Wal.ReadPos
deriving DecidableEq, Repr

/-- Bitcask.get (lower-case): index lookup, segment resolution, point
read, tombstone check.  Every failure is a distinct error. -/
def Bitcask.get (bc : Bitcask) (key : List Nat) : Except GetErr (List Nat) :=
  match memGet key bc.memTable with
  | none => .error .keyNotFound
  | some pos =>
    match bc.walFor pos.fileId with
    | none => .error (.fileNotFound pos.fileId)
    | some w =>
      match w.readPos pos with
      | .error e => .error (.readFailed e)
      | .ok rec =>
        if rec.recordType = typeDelete then .error .keyHasDeleted
        else .ok rec.value

/-- Bitcask.Get (public): the source returns (nil, false) inside the
error branch regardless of which error occurred — the two named
control-flow errors and every other failure all collapse. -/
def Bitcask.Get (bc : Bitcask) (key : List Nat) : Option (List Nat) × Bool :=
  match bc.get key with
  | .error _ => (none, false)
  | .ok v => (some v, true)

/-- Bitcask.Delete: index lookup first; absent key is a no-op;
otherwise try-rotate, append a tombstone (Write with nil value) and
remove the index entry. -/
def Bitcask.delete (bc : Bitcask) (key : List Nat) : Bitcask :=
  match memGet key bc.memTable with
  | none => bc
  | some _ =>
    let bc1 := bc.tryRotate
    let wp := bc1.activeWal.write (newRecord key none)
    { bc1 with activeWal := wp.1, memTable := memDelete key bc1.memTable }

/-- NewBitcask on an empty data directory: no hint, no segments, a
fresh wal-0.log as the active WAL, txnId 0. -/
def freshBitcask (conf : Config) : Bitcask :=
  ⟨conf, ⟨0, [], 0⟩, [], [], 0, [], 0⟩

/-- The user-facing operations quantified over in the history-based
claims. -/
inductive Op where
  | put (key : List Nat) (value : Option (List Nat))
  | del (key : List Nat)

def applyOp (bc : Bitcask) : Op → Bitcask
  | .put k v => bc.put k v
  | .del k => bc.delete k

def runOps (conf : Config) (ops : List Op) : Bitcask :=
  ops.foldl applyOp (freshBitcask conf)

/-- The specification view of a history: the value of the latest
put(k, v) in the sequence, unless a later delete(k) intervenes. -/
def specGet (ops : List Op) (k : List Nat) : Option (List Nat) :=
  ops.foldl
    (fun acc op =>
      match op with
      | .put k2 v => if k2 = k then v else acc
      | .del k2 => if k2 = k then none else acc)
    none

/-- The specification view of the whole live map: an ordered key/value
map driven by the same history. -/
def specStep (m : List (List Nat × List Nat)) : Op → List (List Nat × List Nat)
  | .put k v =>
    match v with
    | some w => memPut k w m
    | none => memDelete k m
  | .del k => memDelete k m

def specIndex (ops : List Op) : List (List Nat × List Nat) :=
  ops.foldl specStep []

/-! ## Stability of written records under later engine steps -/

/-- Every resolvable segment keeps its id resolvable and its content
only ever grows at the end. -/
def walExtends (b1 b2 : Bitcask) : Prop :=
  ∀ fid w, b1.walFor fid = some w →
    ∃ w2, b2.walFor fid = some w2 ∧ ∃ ext, w2.content = w.content ++ ext

theorem walExtends_refl (b : Bitcask) : walExtends b b :=
  fun _ w hw => ⟨w, hw, [], by simp⟩

theorem walExtends_trans {b1 b2 b3 : Bitcask}
    (h12 : walExtends b1 b2) (h23 : walExtends b2 b3) : walExtends b1 b3 := by
  intro fid w hw
  obtain ⟨w2, hw2, ext2, he2⟩ := h12 fid w hw
  obtain ⟨w3, hw3, ext3, he3⟩ := h23 fid w2 hw2
  exact ⟨w3, hw3, ext2 ++ ext3, by rw [he3, he2, List.append_assoc]⟩

/-- The sealed map only holds ids below the current file id. -/
def OldIdsLt (bc : Bitcask) : Prop := ∀ p ∈ bc.oldWal, p.1 < bc.fileId

/-- The active WAL carries the engine's file id, and its write cursor
agrees with its physical size. -/
def ActiveWf (bc : Bitcask) : Prop :=
  bc.activeWal.fileId = bc.fileId ∧ bc.activeWal.offset = bc.activeWal.content.length

theorem assocFind_some_mem {fid : Nat} {w : Wal} {l : List (Nat × Wal)}
    (h : assocFind fid l = some w) : (fid, w) ∈ l := by
  induction l with
  | nil => simp [assocFind] at h
  | cons e t ih =>
    obtain ⟨i, w2⟩ := e
    rw [assocFind] at h
    split at h
    · rename_i heq
      simp only [Option.some.injEq] at h
      subst heq
      subst h
      exact List.mem_cons_self _ _
    · exact List.mem_cons_of_mem _ (ih h)

theorem mustRotate_walExtends {bc : Bitcask} (h : OldIdsLt bc) :
    walExtends bc bc.mustRotate := by
  intro fid w hw
  rw [Bitcask.walFor] at hw
  by_cases hfid : fid = bc.fileId
  · subst hfid
    rw [if_pos rfl] at hw
    have hww : w = bc.activeWal := (Option.some.inj hw).symm
    subst hww
    refine ⟨bc.activeWal, ?_, [], by simp⟩
    rw [Bitcask.mustRotate, Bitcask.walFor]
    simp only [if_neg (by omega : ¬ bc.fileId = bc.fileId + 1)]
    rw [assocFind, if_pos rfl]
  · rw [if_neg hfid] at hw
    have hlt : fid < bc.fileId := h _ (assocFind_some_mem hw)
    refine ⟨w, ?_, [], by simp⟩
    rw [Bitcask.mustRotate, Bitcask.walFor]
    simp only [if_neg (by omega : ¬ fid = bc.fileId + 1)]
    rw [assocFind, if_neg (by omega : ¬ bc.fileId = fid)]
    exact hw

theorem tryRotate_walExtends {bc : Bitcask} (h : OldIdsLt bc) :
    walExtends bc bc.tryRotate := by
  rw [Bitcask.tryRotate]
  split
  · exact walExtends_refl bc
  · exact mustRotate_walExtends h

theorem mustRotate_oldIdsLt {bc : Bitcask} (h : OldIdsLt bc) :
    OldIdsLt bc.mustRotate := by
  intro p hp
  rw [Bitcask.mustRotate] at hp
  simp only at hp
  rcases List.mem_cons.1 hp with rfl | hp2
  · simp [Bitcask.mustRotate]
  · have := h _ hp2
    simp only [Bitcask.mustRotate]
    omega

theorem tryRotate_oldIdsLt {bc : Bitcask} (h : OldIdsLt bc) :
    OldIdsLt bc.tryRotate := by
  rw [Bitcask.tryRotate]
  split
  · exact h
  · exact mustRotate_oldIdsLt h

theorem mustRotate_activeWf (bc : Bitcask) : ActiveWf bc.mustRotate := by
  constructor <;> rfl

theorem tryRotate_activeWf {bc : Bitcask} (h : ActiveWf bc) :
    ActiveWf bc.tryRotate := by
  rw [Bitcask.tryRotate]
  split
  · exact h
  · exact mustRotate_activeWf bc

/-- A location that holds the exact encoding of a record, inside a
segment that the engine can resolve. -/
def PosVal (bc : Bitcask) (pos : Pos) (r : Record) : Prop :=
  ∃ w, bc.walFor pos.fileId = some w ∧
    pos.offset + pos.length ≤ w.content.length ∧
    (w.content.drop pos.offset).take pos.length = r.encode

theorem slice_append_stable {c ext : List Nat} {off len : Nat}
    (h : off + len ≤ c.length) :
    ((c ++ ext).drop off).take len = (c.drop off).take len := by
  rw [List.drop_append_of_le_length (by omega),
    List.take_append_of_le_length (by simp; omega)]

theorem PosVal_mono {b1 b2 : Bitcask} {pos : Pos} {r : Record}
    (hext : walExtends b1 b2) (h : PosVal b1 pos r) : PosVal b2 pos r := by
  obtain ⟨w, hw, hb, hs⟩ := h
  obtain ⟨w2, hw2, ext, he⟩ := hext _ _ hw
  exact ⟨w2, hw2, by rw [he]; simp; omega, by rw [he, slice_append_stable hb, hs]⟩

theorem readPos_of_slice {w : Wal} {pos : Pos} {r : Record}
    (hb : pos.offset + pos.length ≤ w.content.length)
    (hs : (w.content.drop pos.offset).take pos.length = r.encode) :
    w.readPos pos = match decodeRecord r.encode with
      | .error e => .error (.decodeFailed e)
      | .ok rec => .ok rec := by
  have hslen : ((w.content.drop pos.offset).take pos.length).length = pos.length := by
    simp
    omega
  have hlen : pos.length = r.encode.length := by rw [← hs, hslen]
  have hpos : 0 < r.encode.length := by
    rw [r.encode_length]; omega
  rw [Wal.readPos, if_neg (by omega), hs]

/-- The location returned by a write on a cursor-consistent WAL holds
exactly the record that was appended (for any simultaneous index
update, which segment resolution ignores). -/
theorem write_posVal {bc : Bitcask} (hwf : ActiveWf bc) (r : Record) (mt : Index) :
    PosVal
      { bc with activeWal := (bc.activeWal.write r).1, memTable := mt }
      (bc.activeWal.write r).2 r := by
  obtain ⟨hid, hoff⟩ := hwf
  refine ⟨(bc.activeWal.write r).1, ?_, ?_, ?_⟩
  · rw [Bitcask.walFor]
    simp [Wal.write, hid]
  · simp [Wal.write, hoff]
  · simp [Wal.write, hoff, List.drop_append_of_le_length]

/-- Appending to the active WAL (with any index update) only extends
segment contents. -/
theorem write_walExtends (bc : Bitcask) (r : Record) (mt : Index) :
    walExtends bc { bc with activeWal := (bc.activeWal.write r).1, memTable := mt } := by
  intro fid w hw
  rw [Bitcask.walFor] at hw
  by_cases hfid : fid = bc.fileId
  · rw [if_pos hfid] at hw
    have hww : w = bc.activeWal := (Option.some.inj hw).symm
    subst hww
    refine ⟨(bc.activeWal.write r).1, ?_, r.encode, by simp [Wal.write]⟩
    rw [Bitcask.walFor, if_pos hfid]
  · rw [if_neg hfid] at hw
    exact ⟨w, by rw [Bitcask.walFor, if_neg hfid]; exact hw, [], by simp⟩

theorem write_oldIdsLt {bc : Bitcask} (h : OldIdsLt bc) (r : Record) (mt : Index) :
    OldIdsLt { bc with activeWal := (bc.activeWal.write r).1, memTable := mt } := h

theorem write_activeWf {bc : Bitcask} (h : ActiveWf bc) (r : Record) (mt : Index) :
    ActiveWf { bc with activeWal := (bc.activeWal.write r).1, memTable := mt } := by
  obtain ⟨hid, hoff⟩ := h
  exact ⟨hid, by simp [Wal.write, hoff]⟩

/-! ## Parallel reasoning between the index and the specification map -/

/-- The per-entry relation of the main invariant: an index entry and a
specification (key, value) pair agree on the key, respect the codec
caps, and the entry's location stores the encoded Put record of that
pair. -/
def EntryOk (bc : Bitcask) (e : List Nat × Pos) (s : List Nat × List Nat) : Prop :=
  e.1 = s.1 ∧ s.1.length ≤ maxKeyLen ∧ s.2.length ≤ maxValueLen ∧
    PosVal bc e.2 ⟨typePut, s.1, s.2⟩

theorem EntryOk_mono {b1 b2 : Bitcask} (hext : walExtends b1 b2) {e s}
    (h : EntryOk b1 e s) : EntryOk b2 e s :=
  ⟨h.1, h.2.1, h.2.2.1, PosVal_mono hext h.2.2.2⟩

theorem forall2_memGet {A B : Type} {R : (List Nat × A) → (List Nat × B) → Prop}
    (hkeys : ∀ a b, R a b → a.1 = b.1)
    {m : List (List Nat × A)} {sp : List (List Nat × B)}
    (h : List.Forall₂ R m sp) (k : List Nat) :
    (memGet k m = none ∧ memGet k sp = none) ∨
      ∃ p v, memGet k m = some p ∧ memGet k sp = some v ∧ R (k, p) (k, v) := by
  induction h with
  | nil => exact Or.inl ⟨rfl, rfl⟩
  | @cons a b m2 sp2 hR hF ih =>
    obtain ⟨k2, p2⟩ := a
    obtain ⟨k3, v2⟩ := b
    have hkk : k2 = k3 := hkeys _ _ hR
    subst hkk
    by_cases h1 : itemLess k k2 = true
    · rw [memGet, if_pos h1, memGet, if_pos h1]
      exact Or.inl ⟨rfl, rfl⟩
    · by_cases h2 : itemLess k2 k = true
      · rw [memGet, if_neg (by simp [h1]), if_pos h2,
          memGet, if_neg (by simp [h1]), if_pos h2]
        exact ih
      · have hk : k = k2 := itemLess_total (by simp [h1]) (by simp [h2])
        subst hk
        rw [memGet, if_neg (by simp [h1]), if_neg (by simp [h2]),
          memGet, if_neg (by simp [h1]), if_neg (by simp [h2])]
        exact Or.inr ⟨p2, v2, rfl, rfl, hR⟩

theorem forall2_memPut {A B : Type} {R : (List Nat × A) → (List Nat × B) → Prop}
    (hkeys : ∀ a b, R a b → a.1 = b.1)
    {m : List (List Nat × A)} {sp : List (List Nat × B)}
    (h : List.Forall₂ R m sp) {k : List Nat} {p : A} {v : B}
    (hnew : R (k, p) (k, v)) :
    List.Forall₂ R (memPut k p m) (memPut k v sp) := by
  induction h with
  | nil => exact List.Forall₂.cons hnew List.Forall₂.nil
  | @cons a b m2 sp2 hR hF ih =>
    obtain ⟨k2, p2⟩ := a
    obtain ⟨k3, v2⟩ := b
    have hkk : k2 = k3 := hkeys _ _ hR
    subst hkk
    by_cases h1 : itemLess k k2 = true
    · rw [memPut, if_pos h1, memPut, if_pos h1]
      exact List.Forall₂.cons hnew (List.Forall₂.cons hR hF)
    · by_cases h2 : itemLess k2 k = true
      · rw [memPut, if_neg (by simp [h1]), if_pos h2,
          memPut, if_neg (by simp [h1]), if_pos h2]
        exact List.Forall₂.cons hR ih
      · rw [memPut, if_neg (by simp [h1]), if_neg (by simp [h2]),
          memPut, if_neg (by simp [h1]), if_neg (by simp [h2])]
        exact List.Forall₂.cons hnew hF

theorem forall2_memDelete {A B : Type} {R : (List Nat × A) → (List Nat × B) → Prop}
    (hkeys : ∀ a b, R a b → a.1 = b.1)
    {m : List (List Nat × A)} {sp : List (List Nat × B)}
    (h : List.Forall₂ R m sp) (k : List Nat) :
    List.Forall₂ R (memDelete k m) (memDelete k sp) := by
  induction h with
  | nil => exact List.Forall₂.nil
  | @cons a b m2 sp2 hR hF ih =>
    obtain ⟨k2, p2⟩ := a
    obtain ⟨k3, v2⟩ := b
    have hkk : k2 = k3 := hkeys _ _ hR
    subst hkk
    by_cases h1 : itemLess k k2 = true
    · rw [memDelete, if_pos h1, memDelete, if_pos h1]
      exact List.Forall₂.cons hR hF
    · by_cases h2 : itemLess k2 k = true
      · rw [memDelete, if_neg (by simp [h1]), if_pos h2,
          memDelete, if_neg (by simp [h1]), if_pos h2]
        exact List.Forall₂.cons hR ih
      · rw [memDelete, if_neg (by simp [h1]), if_neg (by simp [h2]),
          memDelete, if_neg (by simp [h1]), if_neg (by simp [h2])]
        exact hF

theorem memDelete_of_memGet_none {A : Type} {k : List Nat}
    {m : List (List Nat × A)} (h : memGet k m = none) : memDelete k m = m := by
  induction m with
  | nil => rfl
  | cons e t ih =>
    obtain ⟨k2, p2⟩ := e
    rw [memGet] at h
    by_cases h1 : itemLess k k2 = true
    · rw [memDelete, if_pos h1]
    · by_cases h2 : itemLess k2 k = true
      · rw [if_neg (show ¬itemLess k k2 = true by simp [h1]), if_pos h2] at h
        rw [memDelete, if_neg (show ¬itemLess k k2 = true by simp [h1]), if_pos h2,
          ih h]
      · rw [if_neg (show ¬itemLess k k2 = true by simp [h1]),
          if_neg (show ¬itemLess k2 k = true by simp [h2])] at h
        simp at h

/-! ## The engine invariant over user histories -/

def EngineInv (ops : List Op) (bc : Bitcask) : Prop :=
  OldIdsLt bc ∧ ActiveWf bc ∧
    List.Forall₂ (EntryOk bc) bc.memTable (specIndex ops)

/-- The side conditions of the history claims: keys within the codec's
key cap and put values non-nil and within the value cap. -/
def OpOk : Op → Prop
  | .put k v => k.length ≤ maxKeyLen ∧ ∃ w, v = some w ∧ w.length ≤ maxValueLen
  | .del _ => True

theorem runOps_append (conf : Config) (ops : List Op) (op : Op) :
    runOps conf (ops ++ [op]) = applyOp (runOps conf ops) op := by
  simp [runOps, List.foldl_append]

theorem specIndex_append (ops : List Op) (op : Op) :
    specIndex (ops ++ [op]) = specStep (specIndex ops) op := by
  simp [specIndex, List.foldl_append]

theorem specIndex_sorted (ops : List Op) : IndexSorted (specIndex ops) := by
  induction ops using List.reverseRecOn with
  | nil => exact List.Pairwise.nil
  | append_singleton ops op ih =>
    rw [specIndex_append]
    match op with
    | .put k (some w) => exact memPut_sorted k w ih
    | .put k none => exact memDelete_sorted ih
    | .del k => exact memDelete_sorted ih

theorem tryRotate_memTable (bc : Bitcask) : bc.tryRotate.memTable = bc.memTable := by
  rw [Bitcask.tryRotate]
  split <;> rfl

theorem runOps_inv (conf : Config) (ops : List Op)
    (hok : ∀ op ∈ ops, OpOk op) : EngineInv ops (runOps conf ops) := by
  induction ops using List.reverseRecOn with
  | nil =>
    exact ⟨fun p hp => absurd hp (List.not_mem_nil p), ⟨rfl, rfl⟩, List.Forall₂.nil⟩
  | append_singleton ops op ih =>
    obtain ⟨hold, hwf, hrel⟩ := ih (fun o ho => hok o (List.mem_append_left _ ho))
    have hopok : OpOk op := hok op (List.mem_append_right _ (List.mem_cons_self _ _))
    rw [runOps_append]
    match op with
    | .put k v =>
      obtain ⟨hk, w, rfl, hw⟩ := hopok
      have hbc : applyOp (runOps conf ops) (Op.put k (some w)) =
          (runOps conf ops).put k (some w) := rfl
      rw [hbc]
      have hext : walExtends (runOps conf ops) ((runOps conf ops).put k (some w)) :=
        walExtends_trans (tryRotate_walExtends hold)
          (write_walExtends (runOps conf ops).tryRotate (newRecord k (some w)) _)
      refine ⟨?_, ?_, ?_⟩
      · exact write_oldIdsLt (tryRotate_oldIdsLt hold) (newRecord k (some w)) _
      · exact write_activeWf (tryRotate_activeWf hwf) (newRecord k (some w)) _
      · rw [specIndex_append]
        have hrelT : List.Forall₂ (EntryOk (runOps conf ops))
            (runOps conf ops).tryRotate.memTable (specIndex ops) := by
          rw [tryRotate_memTable]
          exact hrel
        have hrel2 : List.Forall₂ (EntryOk ((runOps conf ops).put k (some w)))
            (runOps conf ops).tryRotate.memTable (specIndex ops) :=
          List.Forall₂.imp (fun a b h => EntryOk_mono hext h) hrelT
        have hpv : PosVal ((runOps conf ops).put k (some w))
            ((runOps conf ops).tryRotate.activeWal.write (newRecord k (some w))).2
            ⟨typePut, k, w⟩ :=
          write_posVal (tryRotate_activeWf hwf) (newRecord k (some w)) _
        exact forall2_memPut (fun a b h => h.1) hrel2 ⟨rfl, hk, hw, hpv⟩
    | .del k =>
      have hbc : applyOp (runOps conf ops) (Op.del k) =
          (runOps conf ops).delete k := rfl
      rw [hbc]
      rcases forall2_memGet (fun a b h => h.1) hrel k with ⟨hm, hsp⟩ | ⟨p, v, hm, hsp, hR⟩
      · have hdel : (runOps conf ops).delete k = runOps conf ops := by
          rw [Bitcask.delete, hm]
        have hspd : specIndex (ops ++ [Op.del k]) = specIndex ops := by
          rw [specIndex_append]
          exact memDelete_of_memGet_none hsp
        rw [hdel, EngineInv, hspd]
        exact ⟨hold, hwf, hrel⟩
      · have hdel : (runOps conf ops).delete k =
            { (runOps conf ops).tryRotate with
              activeWal :=
                ((runOps conf ops).tryRotate.activeWal.write (newRecord k none)).1,
              memTable := memDelete k (runOps conf ops).tryRotate.memTable } := by
          rw [Bitcask.delete, hm]
        have hext : walExtends (runOps conf ops) ((runOps conf ops).delete k) := by
          rw [hdel]
          exact walExtends_trans (tryRotate_walExtends hold)
            (write_walExtends (runOps conf ops).tryRotate (newRecord k none) _)
        refine ⟨?_, ?_, ?_⟩
        · rw [hdel]
          exact write_oldIdsLt (tryRotate_oldIdsLt hold) (newRecord k none) _
        · rw [hdel]
          exact write_activeWf (tryRotate_activeWf hwf) (newRecord k none) _
        · rw [specIndex_append]
          have hrelT : List.Forall₂ (EntryOk (runOps conf ops))
              (runOps conf ops).tryRotate.memTable (specIndex ops) := by
            rw [tryRotate_memTable]
            exact hrel
          have hrel2 : List.Forall₂ (EntryOk ((runOps conf ops).delete k))
              (runOps conf ops).tryRotate.memTable (specIndex ops) :=
            List.Forall₂.imp (fun a b h => EntryOk_mono hext h) hrelT
          have hmem : ((runOps conf ops).delete k).memTable =
              memDelete k (runOps conf ops).tryRotate.memTable := by
            rw [hdel]
          rw [hmem]
          exact forall2_memDelete (fun a b h => h.1) hrel2 k

theorem specGet_foldl (k : List Nat) (ops : List Op) :
    ∀ (m : List (List Nat × List Nat)), IndexSorted m →
      ops.foldl
        (fun acc op =>
          match op with
          | .put k2 v => if k2 = k then v else acc
          | .del k2 => if k2 = k then none else acc)
        (memGet k m) = memGet k (ops.foldl specStep m) := by
  induction ops with
  | nil => intro m _; rfl
  | cons op t ih =>
    intro m hs
    rw [List.foldl_cons, List.foldl_cons]
    have hstep :
        (match op with
          | Op.put k2 v => if k2 = k then v else memGet k m
          | Op.del k2 => if k2 = k then none else memGet k m)
          = memGet k (specStep m op) := by
      match op with
      | .put k2 (some w) =>
        show (if k2 = k then some w else memGet k m) = memGet k (memPut k2 w m)
        by_cases hkk : k2 = k
        · subst hkk
          rw [if_pos rfl, memGet_memPut_self]
        · rw [if_neg hkk, memGet_memPut_ne (fun h => hkk h.symm)]
      | .put k2 none =>
        show (if k2 = k then none else memGet k m) = memGet k (memDelete k2 m)
        by_cases hkk : k2 = k
        · subst hkk
          rw [if_pos rfl, memGet_memDelete_self hs]
        · rw [if_neg hkk, memGet_memDelete_ne (fun h => hkk h.symm) hs]
      | .del k2 =>
        show (if k2 = k then none else memGet k m) = memGet k (memDelete k2 m)
        by_cases hkk : k2 = k
        · subst hkk
          rw [if_pos rfl, memGet_memDelete_self hs]
        · rw [if_neg hkk, memGet_memDelete_ne (fun h => hkk h.symm) hs]
    rw [hstep]
    refine ih (specStep m op) ?_
    match op with
    | .put k2 (some w) => exact memPut_sorted k2 w hs
    | .put k2 none => exact memDelete_sorted hs
    | .del k2 => exact memDelete_sorted hs

theorem specGet_eq_memGet (ops : List Op) (k : List Nat) :
    specGet ops k = memGet k (specIndex ops) := by
  have := specGet_foldl k ops [] List.Pairwise.nil
  simpa [specGet, specIndex] using this

/-! ## Claim C1 -/

/-- Claim C1 counterexample: the claim quantifies over every put,
including a nil value.  After put(k, nil) on a fresh store the claim
demands get(k) = (nil, true) — the latest put's value with found set —
but Put(k, nil) appends a tombstone record (record.NewRecord maps nil
to RecordTypeDelete) while still inserting an index entry, so get hits
the tombstone and returns (nil, false). -/
theorem c1_counterexample :
    (runOps ⟨1024, 200, true⟩ [Op.put [0] none]).Get [0] = (none, false) ∧
      (none, false) ≠ ((none : Option (List Nat)), true) := by
  constructor
  · rfl
  · simp

/-- Claim C1 (amended): for histories whose puts carry non-nil values
within the codec caps (keys ≤ 10 MiB, values ≤ 100 MiB), get(k) after
the sequence returns (v, true) where v is the value of the latest
put(k, v), unless a later delete(k) intervenes or k was never put, in
which case it returns (nil, false).  A put with a nil value instead
writes a tombstone and makes the key unreadable (see the
counterexample). -/
theorem c1_amended (conf : Config) (ops : List Op) (k : List Nat)
    (hok : ∀ op ∈ ops, OpOk op) :
    (runOps conf ops).Get k =
      match specGet ops k with
      | some v => (some v, true)
      | none => (none, false) := by
  obtain ⟨hold, hwf, hrel⟩ := runOps_inv conf ops hok
  rw [specGet_eq_memGet]
  rcases forall2_memGet (fun a b h => h.1) hrel k with ⟨hm, hsp⟩ | ⟨p, v, hm, hsp, hR⟩
  · rw [hsp]
    have hget : (runOps conf ops).get k = .error .keyNotFound := by
      rw [Bitcask.get, hm]
    rw [Bitcask.Get, hget]
  · obtain ⟨heq, hkcap, hvcap, hpv⟩ := hR
    obtain ⟨w, hw, hb, hs⟩ := hpv
    have hw2 : (runOps conf ops).walFor p.fileId = some w := hw
    have hb2 : p.offset + p.length ≤ w.content.length := hb
    have hs2 : (w.content.drop p.offset).take p.length =
        Record.encode ⟨typePut, k, v⟩ := hs
    rw [hsp]
    have hdec : decodeRecord (Record.encode ⟨typePut, k, v⟩) = .ok ⟨typePut, k, v⟩ := by
      rw [decodeRecord_encode _ hkcap hvcap]
      norm_num [typePut, typeTxnPut, typeTxnDelete]
    have hread : w.readPos p = .ok ⟨typePut, k, v⟩ := by
      rw [readPos_of_slice hb2 hs2, hdec]
    have hget : (runOps conf ops).get k = .ok v := by
      simp only [Bitcask.get, hm, hw2, hread]
      norm_num [typePut, typeDelete]
    rw [Bitcask.Get, hget]

/-- Claim C1 witness: a concrete non-nil history on which the amended
statement evaluates. -/
theorem c1_amended_witness :
    (∀ op ∈ [Op.put [1] (some [2])], OpOk op) ∧
      (runOps ⟨1024, 200, true⟩ [Op.put [1] (some [2])]).Get [1] =
        match specGet [Op.put [1] (some [2])] [1] with
        | some v => (some v, true)
        | none => (none, false) := by
  have h : ∀ op ∈ [Op.put [1] (some [2])], OpOk op := by
    intro op hop
    rw [List.mem_singleton] at hop
    subst hop
    exact ⟨by decide, [2], rfl, by decide⟩
  exact ⟨h, c1_amended _ _ _ h⟩

/-! ## Claim C5 -/

/-- A concrete engine state whose index references file id 5 while no
segment with that id exists (the shape a stale hint entry produces,
since LoadHint seeds the index without checking the referenced
segments). -/
def c5Engine : Bitcask :=
  ⟨⟨1024, 200, true⟩, ⟨0, [], 0⟩, [], [([1], ⟨5, 0, 14⟩)], 0, [], 0⟩

/-- Claim C5 counterexample: a missing segment file for the entry's
file id is neither NotFound nor Tombstoned, yet the public Get reports
it as (nil, false) instead of propagating the error — the source's
error branch returns (nil, false) for every error alike, and Get's
signature ([]byte, bool) has no error channel at all. -/
theorem c5_counterexample :
    c5Engine.get [1] = .error (.fileNotFound 5) ∧
      c5Engine.Get [1] = (none, false) := by
  exact ⟨rfl, rfl⟩

/-- Claim C5 (amended): the internal get distinguishes NotFound and
Tombstoned from the other failures (missing segment, out-of-range
read, decode error) as distinct error values, but the public Get
collapses every error — not only NotFound and Tombstoned — to
(nil, false); no error propagates from Get.  Successful lookups return
(value, true). -/
theorem c5_amended (bc : Bitcask) (k : List Nat) :
    (∀ e, bc.get k = .error e → bc.Get k = (none, false)) ∧
      (∀ v, bc.get k = .ok v → bc.Get k = (some v, true)) := by
  constructor
  · intro e he
    rw [Bitcask.Get, he]
  · intro v hv
    rw [Bitcask.Get, hv]

/-- Claim C5 witness: the amended statement applied to the dangling
file-id state. -/
theorem c5_amended_witness : c5Engine.Get [1] = (none, false) :=
  (c5_amended c5Engine [1]).1 (.fileNotFound 5) rfl

/-! ## Claim C8 -/

/-- Claim C8 counterexample: decode is not an inverse of encode on
txn-typed records.  Encoding the TxnPut record with key 00 00 00 01 61
and decoding the result strips the 4-byte txn-id prefix
(utils.DecodeTxnId), yielding a record with key 61 — not the record
that was encoded. -/
theorem c8_counterexample :
    decodeRecord (Record.encode ⟨typeTxnPut, [0, 0, 0, 1, 97], [98]⟩) =
      .ok ⟨typeTxnPut, [97], [98]⟩ ∧
      (⟨typeTxnPut, [97], [98]⟩ : Record) ≠ ⟨typeTxnPut, [0, 0, 0, 1, 97], [98]⟩ := by
  exact ⟨by rfl, by decide⟩

/-- Claim C8 (amended): within the size caps, encoding then decoding
yields the identical record for the four non-txn-payload types (Put,
Delete, TxnBegin, TxnCommit); for TxnPut and TxnDelete (with their
mandatory 4-byte txn-id key prefix) decode returns the record with the
prefix stripped from the key.  Reading back the location returned by a
WAL append (on a cursor-consistent segment) yields exactly the decode
of the appended record's encoding. -/
theorem c8_amended (r : Record) (hk : r.key.length ≤ maxKeyLen)
    (hv : r.value.length ≤ maxValueLen) (ht : r.recordType ≤ 5)
    (w : Wal) (hwf : w.offset = w.content.length) :
    (¬(r.recordType = typeTxnPut ∨ r.recordType = typeTxnDelete) →
        decodeRecord r.encode = .ok r) ∧
      ((r.recordType = typeTxnPut ∨ r.recordType = typeTxnDelete) →
        4 ≤ r.key.length →
        decodeRecord r.encode = .ok ⟨r.recordType, r.key.drop 4, r.value⟩) ∧
      (∀ r2, decodeRecord r.encode = .ok r2 →
        (w.write r).1.readPos (w.write r).2 = .ok r2) := by
  have hmod : r.recordType % 256 = r.recordType :=
    Nat.mod_eq_of_lt (by norm_num [typePut, typeTxnPut, typeTxnDelete] at ht ⊢; omega)
  have hdec := decodeRecord_encode r hk hv
  rw [hmod] at hdec
  refine ⟨?_, ?_, ?_⟩
  · intro hno
    rw [hdec, if_neg hno]
  · intro hyes h4
    rw [hdec, if_pos hyes, if_neg (by omega)]
  · intro r2 h2
    have hb : (w.write r).2.offset + (w.write r).2.length ≤
        (w.write r).1.content.length := by
      simp [Wal.write, hwf]
    have hs : (((w.write r).1.content.drop (w.write r).2.offset).take
        (w.write r).2.length) = r.encode := by
      simp [Wal.write, hwf, List.drop_append_of_le_length]
    rw [readPos_of_slice hb hs, h2]

/-- Claim C8 witness: concrete round-trips through the codec and a WAL
append for a Put record. -/
theorem c8_amended_witness :
    decodeRecord (Record.encode ⟨typePut, [1], [2]⟩) = .ok ⟨typePut, [1], [2]⟩ ∧
      ((⟨0, [], 0⟩ : Wal).write ⟨typePut, [1], [2]⟩).1.readPos
        ((⟨0, [], 0⟩ : Wal).write ⟨typePut, [1], [2]⟩).2 = .ok ⟨typePut, [1], [2]⟩ := by
  have h := c8_amended ⟨typePut, [1], [2]⟩ (by decide) (by decide) (by decide)
    ⟨0, [], 0⟩ rfl
  have hdec : decodeRecord (Record.encode ⟨typePut, [1], [2]⟩) =
      .ok ⟨typePut, [1], [2]⟩ := h.1 (by decide)
  exact ⟨hdec, h.2.2 _ hdec⟩

/-! ## Segment replay (Wal.ReadAll)

Wal.ReadAll reads the whole file into a buffer and walks it record by
record with its own header parser (it does not call DecodeRecord).  A
CRC mismatch is only logged — the record is still handed to the apply
function and the walk continues.  Implausible sizes and truncated
records break the walk, keeping the prefix.  The apply function is the
transaction-aware updatedFunc. -/

inductive ReplayErr where
  | txnMismatch (got expected : Nat)  -- 事务ID不匹配
  | txnKeyPanic                       -- DecodeTxnId on a key shorter than 4 bytes
deriving DecidableEq, Repr

structure ReplayState where
  mem : Index
  txnId : Nat
  batch : List (Nat × List (Record × Pos))
  txnFlag : Bool
  curTxnId : Nat
deriving DecidableEq, Repr

/-- batchData[txnId] = append(batchData[txnId], e). -/
def batchAppend (tid : Nat) (e : Record × Pos) :
    List (Nat × List (Record × Pos)) → List (Nat × List (Record × Pos))
  | [] => [(tid, [e])]
  | (i, l) :: t => if i = tid then (i, l ++ [e]) :: t else (i, l) :: batchAppend tid e t

/-- batchData[txnId] (a missing key reads as the empty list). -/
def batchGet (tid : Nat) : List (Nat × List (Record × Pos)) → List (Record × Pos)
  | [] => []
  | (i, l) :: t => if i = tid then l else batchGet tid t

/-- delete(batchData, txnId). -/
def batchRemove (tid : Nat) (l : List (Nat × List (Record × Pos))) :
    List (Nat × List (Record × Pos)) :=
  l.filter (fun e => e.1 ≠ tid)

/-- The commit loop: apply the buffered TxnPut/TxnDelete entries in
order to the index. -/
def applyTxnOps (mem : Index) : List (Record × Pos) → Index
  | [] => mem
  | (rec, pos) :: t =>
    if rec.recordType = typeTxnPut then applyTxnOps (memPut rec.key pos mem) t
    else if rec.recordType = typeTxnDelete then applyTxnOps (memDelete rec.key mem) t
    else applyTxnOps mem t

/-- updatedFunc of Wal.ReadAll: the per-record transition of replay.
A Begin record (re)opens a transaction; inside a transaction TxnPut
and TxnDelete are buffered (with stripped keys) and TxnCommit applies
the buffer and records the txn id, while standalone Put/Delete records
are silently ignored; outside a transaction Put and Delete update the
index directly and txn-typed payload records are ignored. -/
def applyRecord (st : ReplayState) (rec : Record) (pos : Pos) :
    Except ReplayErr ReplayState :=
  if rec.recordType = typeBegin then
    if rec.key.length < 4 then .error .txnKeyPanic
    else .ok { st with txnFlag := true, curTxnId := readU32 rec.key }
  else if st.txnFlag then
    if rec.recordType = typeTxnPut then
      if rec.key.length < 4 then .error .txnKeyPanic
      else
        let tid := readU32 rec.key
        if tid ≠ st.curTxnId then .error (.txnMismatch tid st.curTxnId)
        else
          let entry : Record × Pos := (⟨rec.recordType, rec.key.drop 4, rec.value⟩, pos)
          .ok { st with batch := batchAppend tid entry st.batch }
    else if rec.recordType = typeTxnDelete then
      if rec.key.length < 4 then .error .txnKeyPanic
      else
        let tid := readU32 rec.key
        if tid ≠ st.curTxnId then .error (.txnMismatch tid st.curTxnId)
        else
          let entry : Record × Pos := (⟨rec.recordType, rec.key.drop 4, rec.value⟩, pos)
          .ok { st with batch := batchAppend tid entry st.batch }
    else if rec.recordType = typeTxnCommit then
      if rec.key.length < 4 then .error .txnKeyPanic
      else
        let tid := readU32 rec.key
        if tid ≠ st.curTxnId then .error (.txnMismatch tid st.curTxnId)
        else .ok
          { mem := applyTxnOps st.mem (batchGet tid st.batch),
            txnId := st.curTxnId,
            batch := batchRemove tid st.batch,
            txnFlag := false,
            curTxnId := 0 }
    else .ok st
  else
    if rec.recordType = typeDelete then .ok { st with mem := memDelete rec.key st.mem }
    else if rec.recordType = typePut then .ok { st with mem := memPut rec.key pos st.mem }
    else .ok st

/-- The byte walk of Wal.ReadAll.  The stored CRC is compared against
the recomputed one purely for the log line, so the comparison has no
effect on the result and is omitted here; everything that does affect
control flow (header bound, size caps, total-length bound) is kept. -/
def readAllLoop (fid : Nat) (buffer : List Nat) (n : Nat) (offset : Nat)
    (st : ReplayState) : Except ReplayErr (ReplayState × Nat) :=
  if h9 : offset + 9 > n then .ok (st, offset)
  else if hcap : maxKeyLen < readU32 (buffer.drop (offset + 1)) ∨
      maxValueLen < readU32 (buffer.drop (offset + 5)) then .ok (st, offset)
  else if hlen : offset + (9 + readU32 (buffer.drop (offset + 1)) +
      readU32 (buffer.drop (offset + 5)) + 4) > n then .ok (st, offset)
  else
    match applyRecord st
      ⟨(buffer.drop offset).headD 0,
        (buffer.drop (offset + 9)).take (readU32 (buffer.drop (offset + 1))),
        (buffer.drop (offset + 9 + readU32 (buffer.drop (offset + 1)))).take
          (readU32 (buffer.drop (offset + 5)))⟩
      ⟨fid, offset, 9 + readU32 (buffer.drop (offset + 1)) +
        readU32 (buffer.drop (offset + 5)) + 4⟩ with
    | .error e => .error e
    | .ok st2 => readAllLoop fid buffer n
        (offset + (9 + readU32 (buffer.drop (offset + 1)) +
          readU32 (buffer.drop (offset + 5)) + 4)) st2
  termination_by n - offset
  decreasing_by omega

/-- Wal.ReadAll: walk the whole file from offset 0, then set the WAL's
cursor to the consumed length. -/
def Wal.readAll (w : Wal) (mem : Index) (txnId : Nat) :
    Except ReplayErr (ReplayState × Wal) :=
  match readAllLoop w.fileId w.content w.content.length 0 ⟨mem, txnId, [], false, 0⟩ with
  | .error e => .error e
  | .ok (st, off) => .ok (st, { w with offset := off })

/-- Record-level replay: fold applyRecord over a list of records with
their positions. -/
def replayRecs (st : ReplayState) : List (Record × Pos) → Except ReplayErr ReplayState
  | [] => .ok st
  | (r, pos) :: t =>
    match applyRecord st r pos with
    | .error e => .error e
    | .ok st2 => replayRecs st2 t

/-- A sequence of records laid out with explicit (possibly wrong) CRC
fields: each item is a record body followed by its 4 trailer bytes. -/
def encItems : List (Record × List Nat) → List Nat
  | [] => []
  | (r, c) :: t => (r.body ++ c) ++ encItems t

/-- The positions the replay walk assigns to such a layout, starting
at a base offset. -/
def itemsWithPos (fid base : Nat) : List (Record × List Nat) → List (Record × Pos)
  | [] => []
  | (r, c) :: t =>
    (r, ⟨fid, base, 9 + r.key.length + r.value.length + 4⟩) ::
      itemsWithPos fid (base + (9 + r.key.length + r.value.length + 4)) t

/-- A record the walk parses back exactly: sizes within the caps and a
type tag that fits in the type byte. -/
def RecCaps (r : Record) : Prop :=
  r.key.length ≤ maxKeyLen ∧ r.value.length ≤ maxValueLen ∧ r.recordType < 256

/-- A trailing byte sequence on which the walk stops: too short for a
header, an implausible announced size, or a truncated record. -/
def tailStops (tail : List Nat) : Prop :=
  tail.length < 9 ∨
    maxKeyLen < readU32 (tail.drop 1) ∨ maxValueLen < readU32 (tail.drop 5) ∨
    tail.length < 9 + readU32 (tail.drop 1) + readU32 (tail.drop 5) + 4

theorem drop_add (l : List Nat) (a b : Nat) : l.drop (a + b) = (l.drop a).drop b := by
  rw [List.drop_drop, Nat.add_comm]

theorem body_append_headD (r : Record) (rest : List Nat) :
    (r.body ++ rest).headD 0 = r.recordType % 256 := rfl

theorem body_append_drop_one (r : Record) (rest : List Nat) :
    (r.body ++ rest).drop 1 =
      be32 r.key.length ++ (be32 r.value.length ++ (r.key ++ (r.value ++ rest))) := by
  simp [Record.body, List.append_assoc]

theorem body_append_drop_five (r : Record) (rest : List Nat) :
    (r.body ++ rest).drop 5 = be32 r.value.length ++ (r.key ++ (r.value ++ rest)) := by
  have h : (r.body ++ rest).drop 5 = ((r.body ++ rest).drop 1).drop 4 := by
    rw [List.drop_drop]
  rw [h, body_append_drop_one, List.drop_append_of_le_length (by simp [be32])]
  simp [be32]

theorem body_append_drop_nine (r : Record) (rest : List Nat) :
    (r.body ++ rest).drop 9 = r.key ++ (r.value ++ rest) := by
  have h : (r.body ++ rest).drop 9 = ((r.body ++ rest).drop 5).drop 4 := by
    rw [List.drop_drop]
  rw [h, body_append_drop_five, List.drop_append_of_le_length (by simp [be32])]
  simp [be32]

theorem body_append_drop_9k (r : Record) (rest : List Nat) :
    (r.body ++ rest).drop (9 + r.key.length) = r.value ++ rest := by
  rw [drop_add, body_append_drop_nine, List.drop_append_of_le_length le_rfl,
    List.drop_length]
  rfl

theorem body_append_keyLen (r : Record) (rest : List Nat)
    (hk : r.key.length ≤ maxKeyLen) :
    readU32 ((r.body ++ rest).drop 1) = r.key.length := by
  rw [body_append_drop_one, readU32_be32_append]
  have : maxKeyLen < 2 ^ 32 := by norm_num [maxKeyLen]
  omega

theorem body_append_valueLen (r : Record) (rest : List Nat)
    (hv : r.value.length ≤ maxValueLen) :
    readU32 ((r.body ++ rest).drop 5) = r.value.length := by
  rw [body_append_drop_five, readU32_be32_append]
  have : maxValueLen < 2 ^ 32 := by norm_num [maxValueLen]
  omega

theorem body_append_key (r : Record) (rest : List Nat) :
    ((r.body ++ rest).drop 9).take r.key.length = r.key := by
  rw [body_append_drop_nine, List.take_append_of_le_length le_rfl,
    List.take_of_length_le le_rfl]

theorem body_append_value (r : Record) (rest : List Nat) :
    ((r.body ++ rest).drop (9 + r.key.length)).take r.value.length = r.value := by
  rw [body_append_drop_9k, List.take_append_of_le_length le_rfl,
    List.take_of_length_le le_rfl]

/-- The walk stops, keeping its state, when the remaining bytes are a
stopping tail. -/
theorem readAllLoop_stops (fid : Nat) (buffer : List Nat) (offset : Nat)
    (st : ReplayState) (hoffset : offset ≤ buffer.length)
    (htail : tailStops (buffer.drop offset)) :
    readAllLoop fid buffer buffer.length offset st = .ok (st, offset) := by
  have hdlen : (buffer.drop offset).length = buffer.length - offset := by simp
  have hd1 : (buffer.drop offset).drop 1 = buffer.drop (offset + 1) :=
    (drop_add buffer offset 1).symm
  have hd5 : (buffer.drop offset).drop 5 = buffer.drop (offset + 5) :=
    (drop_add buffer offset 5).symm
  rw [tailStops, hdlen, hd1, hd5] at htail
  rw [readAllLoop]
  by_cases h9 : offset + 9 > buffer.length
  · rw [dif_pos h9]
  · rw [dif_neg h9]
    by_cases hcap : maxKeyLen < readU32 (buffer.drop (offset + 1)) ∨
        maxValueLen < readU32 (buffer.drop (offset + 5))
    · rw [dif_pos hcap]
    · rw [dif_neg hcap]
      have hlen : offset + (9 + readU32 (buffer.drop (offset + 1)) +
          readU32 (buffer.drop (offset + 5)) + 4) > buffer.length := by
        rcases htail with h | h | h | h
        · omega
        · exact absurd (Or.inl h) hcap
        · exact absurd (Or.inr h) hcap
        · omega
      rw [dif_pos hlen]

/-- The walk consumes one well-laid-out record (with an arbitrary CRC
trailer) and hands it, with its position, to updatedFunc. -/
theorem readAllLoop_step (fid : Nat) (buffer : List Nat) (offset : Nat)
    (st : ReplayState) (r : Record) (c rest : List Nat)
    (hbuf : buffer.drop offset = (r.body ++ c) ++ rest)
    (hoffset : offset ≤ buffer.length)
    (hcaps : RecCaps r) (hc : c.length = 4) :
    readAllLoop fid buffer buffer.length offset st =
      match applyRecord st r ⟨fid, offset, 9 + r.key.length + r.value.length + 4⟩ with
      | .error e => .error e
      | .ok st2 => readAllLoop fid buffer buffer.length
          (offset + (9 + r.key.length + r.value.length + 4)) st2 := by
  obtain ⟨hkc, hvc, htc⟩ := hcaps
  have hbuf2 : buffer.drop offset = r.body ++ (c ++ rest) := by
    rw [hbuf, List.append_assoc]
  have hdlen : (buffer.drop offset).length = buffer.length - offset := by simp
  have htotal : (buffer.drop offset).length =
      (9 + r.key.length + r.value.length) + (4 + rest.length) := by
    rw [hbuf2]
    simp [Record.body_length, hc]
  have hkl : readU32 (buffer.drop (offset + 1)) = r.key.length := by
    rw [drop_add buffer offset 1, hbuf2]
    exact body_append_keyLen r _ hkc
  have hvl : readU32 (buffer.drop (offset + 5)) = r.value.length := by
    rw [drop_add buffer offset 5, hbuf2]
    exact body_append_valueLen r _ hvc
  have hhead : (buffer.drop offset).headD 0 = r.recordType := by
    rw [hbuf2, body_append_headD, Nat.mod_eq_of_lt htc]
  have hkey : (buffer.drop (offset + 9)).take r.key.length = r.key := by
    rw [drop_add buffer offset 9, hbuf2]
    exact body_append_key r _
  have hval : (buffer.drop (offset + 9 + r.key.length)).take r.value.length = r.value := by
    rw [show offset + 9 + r.key.length = offset + (9 + r.key.length) by omega,
      drop_add buffer offset (9 + r.key.length), hbuf2]
    exact body_append_value r _
  rw [readAllLoop, dif_neg (by omega), dif_neg (by rw [hkl, hvl]; omega),
    dif_neg (by rw [hkl, hvl]; omega)]
  rw [hkl, hvl, hhead, hkey, hval]

/-- Alignment of the byte walk with record-level replay: on a buffer
that lays out records (each with an arbitrary 4-byte CRC trailer)
followed by a stopping tail, the walk is exactly the record-level
replay of those records at their positions, and it stops at the start
of the tail. -/
theorem readAllLoop_aligned (fid : Nat) (items : List (Record × List Nat))
    (tail : List Nat) (buffer : List Nat) (offset : Nat) (st : ReplayState)
    (hbuf : buffer.drop offset = encItems items ++ tail)
    (hoffset : offset ≤ buffer.length)
    (hcaps : ∀ e ∈ items, RecCaps e.1 ∧ e.2.length = 4)
    (htail : tailStops tail) :
    readAllLoop fid buffer buffer.length offset st =
      match replayRecs st (itemsWithPos fid offset items) with
      | .error e => .error e
      | .ok st2 => .ok (st2, offset + (encItems items).length) := by
  induction items generalizing offset st with
  | nil =>
    rw [encItems] at hbuf
    rw [List.nil_append] at hbuf
    rw [readAllLoop_stops fid buffer offset st hoffset (hbuf ▸ htail)]
    simp [itemsWithPos, replayRecs, encItems]
  | cons e t ih =>
    obtain ⟨r, c⟩ := e
    obtain ⟨hrc, hclen⟩ := hcaps _ (List.mem_cons_self _ _)
    have hbuf2 : buffer.drop offset = (r.body ++ c) ++ (encItems t ++ tail) := by
      rw [hbuf, encItems, List.append_assoc]
    have hbodyc : (r.body ++ c).length = 9 + r.key.length + r.value.length + 4 := by
      simp [Record.body_length, hclen]
    have hrest : buffer.drop (offset + (9 + r.key.length + r.value.length + 4)) =
        encItems t ++ tail := by
      rw [drop_add, hbuf2, ← hbodyc, List.drop_left]
    have hoff2 : offset + (9 + r.key.length + r.value.length + 4) ≤ buffer.length := by
      have h1 : (buffer.drop offset).length = buffer.length - offset := by simp
      have h2 : ((r.body ++ c) ++ (encItems t ++ tail)).length =
          (9 + r.key.length + r.value.length + 4) + (encItems t ++ tail).length := by
        simp [Record.body_length, hclen]
        omega
      rw [hbuf2, h2] at h1
      omega
    have hlenitems : (encItems ((r, c) :: t)).length =
        (9 + r.key.length + r.value.length + 4) + (encItems t).length := by
      rw [encItems]
      simp [Record.body_length, hclen]
      omega
    rw [readAllLoop_step fid buffer offset st r c (encItems t ++ tail) hbuf2
      hoffset hrc hclen]
    rw [itemsWithPos, replayRecs]
    cases happ : applyRecord st r ⟨fid, offset, 9 + r.key.length + r.value.length + 4⟩ with
    | error e => rfl
    | ok st2 =>
      show readAllLoop fid buffer buffer.length
          (offset + (9 + r.key.length + r.value.length + 4)) st2 =
        match replayRecs st2 (itemsWithPos fid
            (offset + (9 + r.key.length + r.value.length + 4)) t) with
        | .error e => Except.error e
        | .ok st3 => Except.ok (st3, offset + (encItems ((r, c) :: t)).length)
      rw [ih _ st2 hrest hoff2 (fun e he => hcaps e (List.mem_cons_of_mem _ he))]
      cases replayRecs st2 (itemsWithPos fid
          (offset + (9 + r.key.length + r.value.length + 4)) t) with
      | error e => rfl
      | ok st3 =>
        show Except.ok (st3, offset + (9 + r.key.length + r.value.length + 4) +
            (encItems t).length) =
          Except.ok (st3, offset + (encItems ((r, c) :: t)).length)
        rw [hlenitems]
        congr 2
        omega

/-! ## Claim C7 -/

/-- A two-record segment whose first record carries a wrong CRC
trailer (bytes 9 9 9 9): Put key 01 value 02 (corrupted trailer),
then an intact Put key 03 value 04. -/
def c7Bytes : List Nat :=
  (Record.body ⟨typePut, [1], [2]⟩ ++ [9, 9, 9, 9]) ++ Record.encode ⟨typePut, [3], [4]⟩

/-- Claim C7 counterexample: the first record's stored CRC does not
match the recomputed one, yet replay does not terminate there — the
CRC-failing record itself is applied to the index and so is the record
after it, and the walk consumes the entire file.  The claim's
"neither the failing record nor any record after it is applied" fails
on both counts. -/
theorem c7_counterexample :
    readU32 (c7Bytes.drop 11) ≠ crc32 (c7Bytes.take 11) ∧
      readAllLoop 0 c7Bytes c7Bytes.length 0 ⟨[], 0, [], false, 0⟩ =
        .ok (⟨[([1], ⟨0, 0, 15⟩), ([3], ⟨0, 15, 15⟩)], 0, [], false, 0⟩, 30) := by
  refine ⟨by decide, ?_⟩
  have hcaps : ∀ e ∈ [((⟨typePut, [1], [2]⟩ : Record), [9, 9, 9, 9]),
      ((⟨typePut, [3], [4]⟩ : Record), be32 (crc32 (Record.body ⟨typePut, [3], [4]⟩)))],
      RecCaps e.1 ∧ e.2.length = 4 := by
    intro e he
    rw [List.mem_cons, List.mem_singleton] at he
    rcases he with rfl | rfl
    · exact ⟨⟨by decide, by decide, by decide⟩, rfl⟩
    · exact ⟨⟨by decide, by decide, by decide⟩, rfl⟩
  have h := readAllLoop_aligned 0
    [((⟨typePut, [1], [2]⟩ : Record), [9, 9, 9, 9]),
      ((⟨typePut, [3], [4]⟩ : Record), be32 (crc32 (Record.body ⟨typePut, [3], [4]⟩)))]
    [] c7Bytes 0 ⟨[], 0, [], false, 0⟩ (by decide) (by decide) hcaps
    (by rw [tailStops]; left; decide)
  rw [h]
  rfl

/-- Claim C7 (amended): replay is CRC-independent: over any layout of
records whose 4-byte CRC trailers hold arbitrary bytes, followed by a
stopping tail (truncated or implausibly-sized data), the walk applies
exactly the laid-out records in order — a CRC mismatch is logged but
neither terminates the file's replay nor skips the record — and it is
the stopping tail that terminates replay gracefully, keeping the
prefix. -/
theorem c7_amended (fid : Nat) (items : List (Record × List Nat)) (tail : List Nat)
    (st0 : ReplayState)
    (hcaps : ∀ e ∈ items, RecCaps e.1 ∧ e.2.length = 4)
    (htail : tailStops tail) :
    readAllLoop fid (encItems items ++ tail) (encItems items ++ tail).length 0 st0 =
      match replayRecs st0 (itemsWithPos fid 0 items) with
      | .error e => .error e
      | .ok st2 => .ok (st2, (encItems items).length) := by
  have h := readAllLoop_aligned fid items tail (encItems items ++ tail) 0 st0
    (by simp) (by simp) hcaps htail
  simpa using h

/-- Claim C7 witness: one record with a deliberately wrong CRC trailer
followed by a one-byte truncated tail. -/
theorem c7_amended_witness :
    tailStops [7] ∧
      readAllLoop 0 (encItems [(⟨typePut, [1], [2]⟩, [9, 9, 9, 9])] ++ [7])
          (encItems [(⟨typePut, [1], [2]⟩, [9, 9, 9, 9])] ++ [7]).length 0
          ⟨[], 0, [], false, 0⟩ =
        match replayRecs ⟨[], 0, [], false, 0⟩
            (itemsWithPos 0 0 [(⟨typePut, [1], [2]⟩, [9, 9, 9, 9])]) with
        | .error e => .error e
        | .ok st2 => .ok (st2, (encItems [(⟨typePut, [1], [2]⟩, [9, 9, 9, 9])]).length) := by
  have hcaps : ∀ e ∈ [((⟨typePut, [1], [2]⟩ : Record), [9, 9, 9, 9])],
      RecCaps e.1 ∧ e.2.length = 4 := by
    intro e he
    rw [List.mem_singleton] at he
    subst he
    exact ⟨⟨by decide, by decide, by decide⟩, rfl⟩
  have htail : tailStops [7] := by
    rw [tailStops]
    left
    decide
  exact ⟨htail, c7_amended 0 _ [7] ⟨[], 0, [], false, 0⟩ hcaps htail⟩

/-! ## Claim C2: atomicity of batch transactions under replay -/

/-- A segment region holding properly encoded records in sequence. -/
def encRecs : List Record → List Nat
  | [] => []
  | r :: t => r.encode ++ encRecs t

/-- Records paired with their correct CRC trailers. -/
def properItems (rs : List Record) : List (Record × List Nat) :=
  rs.map (fun r => (r, be32 (crc32 r.body)))

theorem encItems_properItems (rs : List Record) :
    encItems (properItems rs) = encRecs rs := by
  induction rs with
  | nil => rfl
  | cons r t ih =>
    rw [properItems, List.map_cons, encItems, encRecs]
    rw [show (r.body ++ be32 (crc32 r.body)) = r.encode from rfl]
    rw [← ih]
    rfl

theorem encRecs_append (a b : List Record) :
    encRecs (a ++ b) = encRecs a ++ encRecs b := by
  induction a with
  | nil => rfl
  | cons r t ih => rw [List.cons_append, encRecs, encRecs, ih, List.append_assoc]

theorem properItems_append (a b : List Record) :
    properItems (a ++ b) = properItems a ++ properItems b := by
  simp [properItems]

theorem replayRecs_append (a b : List (Record × Pos)) (st : ReplayState) :
    replayRecs st (a ++ b) =
      match replayRecs st a with
      | .error e => .error e
      | .ok st2 => replayRecs st2 b := by
  induction a generalizing st with
  | nil => rfl
  | cons e t ih =>
    obtain ⟨r, pos⟩ := e
    rw [List.cons_append, replayRecs, replayRecs]
    cases applyRecord st r pos with
    | error err => rfl
    | ok st2 => exact ih st2

theorem itemsWithPos_append (fid base : Nat) (a b : List (Record × List Nat))
    (hc : ∀ e ∈ a, e.2.length = 4) :
    itemsWithPos fid base (a ++ b) =
      itemsWithPos fid base a ++ itemsWithPos fid (base + (encItems a).length) b := by
  induction a generalizing base with
  | nil => simp [itemsWithPos, encItems]
  | cons e t ih =>
    obtain ⟨r, c⟩ := e
    have hclen : c.length = 4 := hc _ (List.mem_cons_self _ _)
    rw [List.cons_append, itemsWithPos, itemsWithPos,
      ih _ (fun e he => hc e (List.mem_cons_of_mem _ he)), List.cons_append]
    congr 3
    rw [encItems]
    simp [Record.body_length, hclen]
    omega

/-- The index after replaying standalone records. -/
def plainReplay (mem : Index) : List (Record × Pos) → Index
  | [] => mem
  | (r, pos) :: t =>
    if r.recordType = typeDelete then plainReplay (memDelete r.key mem) t
    else if r.recordType = typePut then plainReplay (memPut r.key pos mem) t
    else plainReplay mem t

/-- Outside a transaction, standalone Put/Delete records replay
without error, touching only the index. -/
theorem replayRecs_plain (items : List (Record × Pos))
    (hplain : ∀ e ∈ items, e.1.recordType = typePut ∨ e.1.recordType = typeDelete)
    (st : ReplayState) (hflag : st.txnFlag = false) :
    replayRecs st items = .ok { st with mem := plainReplay st.mem items } := by
  induction items generalizing st with
  | nil => rfl
  | cons e t ih =>
    obtain ⟨r, pos⟩ := e
    rcases hplain _ (List.mem_cons_self _ _) with h | h
    · have happ : applyRecord st r pos = .ok { st with mem := memPut r.key pos st.mem } := by
        rw [applyRecord, if_neg (by rw [h]; decide), if_neg (by rw [hflag]; decide),
          if_neg (by rw [h]; decide), if_pos (by rw [h])]
      rw [replayRecs, happ, plainReplay, if_neg (by rw [h]; decide), if_pos (by rw [h])]
      exact ih (fun e he => hplain e (List.mem_cons_of_mem _ he)) _ hflag
    · have happ : applyRecord st r pos = .ok { st with mem := memDelete r.key st.mem } := by
        rw [applyRecord, if_neg (by rw [h]; decide), if_neg (by rw [hflag]; decide),
          if_pos (by rw [h])]
      rw [replayRecs, happ, plainReplay, if_pos (by rw [h])]
      exact ih (fun e he => hplain e (List.mem_cons_of_mem _ he)) _ hflag

/-- What updatedFunc stores in the transaction buffer: the record with
its txn-id prefix stripped, and its position. -/
def stripEntry (e : Record × Pos) : Record × Pos :=
  (⟨e.1.recordType, e.1.key.drop 4, e.1.value⟩, e.2)

/-- Inside an open transaction with a matching id, TxnPut/TxnDelete
records are only buffered: the index is untouched. -/
theorem replayRecs_txnOps (tid : Nat) (items : List (Record × Pos))
    (hops : ∀ e ∈ items,
      (e.1.recordType = typeTxnPut ∨ e.1.recordType = typeTxnDelete) ∧
        4 ≤ e.1.key.length ∧ readU32 e.1.key = tid)
    (st : ReplayState) (hflag : st.txnFlag = true) (hcur : st.curTxnId = tid) :
    replayRecs st items =
      .ok { st with
        batch := items.foldl (fun b e => batchAppend tid (stripEntry e) b) st.batch } := by
  induction items generalizing st with
  | nil => rfl
  | cons e t ih =>
    obtain ⟨r, pos⟩ := e
    obtain ⟨hty, hlen, hid⟩ := hops _ (List.mem_cons_self _ _)
    have hlen2 : 4 ≤ r.key.length := hlen
    rcases hty with h | h
    · have happ : applyRecord st r pos =
          .ok { st with batch := batchAppend tid (stripEntry (r, pos)) st.batch } := by
        rw [applyRecord, if_neg (by rw [h]; decide), if_pos (by rw [hflag]),
          if_pos (by rw [h]), if_neg (by omega), if_neg (by rw [hid, hcur]; simp), hid]
        exact rfl
      rw [replayRecs, happ, List.foldl_cons]
      exact ih (fun e he => hops e (List.mem_cons_of_mem _ he)) _ hflag hcur
    · have happ : applyRecord st r pos =
          .ok { st with batch := batchAppend tid (stripEntry (r, pos)) st.batch } := by
        rw [applyRecord, if_neg (by rw [h]; decide), if_pos (by rw [hflag]),
          if_neg (by rw [h]; decide), if_pos (by rw [h]), if_neg (by omega),
          if_neg (by rw [hid, hcur]; simp), hid]
        exact rfl
      rw [replayRecs, happ, List.foldl_cons]
      exact ih (fun e he => hops e (List.mem_cons_of_mem _ he)) _ hflag hcur

/-- updatedFunc on a TxnBegin record: open the transaction and latch
its id. -/
theorem applyRecord_begin (st : ReplayState) (tid : Nat) (kb : List Nat) (pos : Pos)
    (htid : tid < 2 ^ 32) :
    applyRecord st (newTxnBegin (encodeTxnId tid kb)) pos =
      .ok { st with txnFlag := true, curTxnId := tid } := by
  rw [applyRecord, if_pos (show (newTxnBegin (encodeTxnId tid kb)).recordType = typeBegin
      from rfl),
    if_neg (by simp [newTxnBegin, encodeTxnId, be32])]
  rw [show (newTxnBegin (encodeTxnId tid kb)).key = encodeTxnId tid kb from rfl,
    encodeTxnId, readU32_be32_append _ _ htid]

/-- updatedFunc on a TxnCommit record with the open transaction's id:
apply the buffered operations, record the id, close the transaction. -/
theorem applyRecord_commit (st : ReplayState) (tid : Nat) (kb : List Nat) (pos : Pos)
    (htid : tid < 2 ^ 32) (hflag : st.txnFlag = true) (hcur : st.curTxnId = tid) :
    applyRecord st (newTxnCommit (encodeTxnId tid kb)) pos =
      .ok ⟨applyTxnOps st.mem (batchGet tid st.batch), tid,
        batchRemove tid st.batch, false, 0⟩ := by
  have hkey : (newTxnCommit (encodeTxnId tid kb)).key = encodeTxnId tid kb := rfl
  have hread : readU32 (newTxnCommit (encodeTxnId tid kb)).key = tid := by
    rw [hkey, encodeTxnId, readU32_be32_append _ _ htid]
  rw [applyRecord,
    if_neg (by simp [newTxnCommit, typeTxnCommit, typeBegin]), if_pos (by rw [hflag]),
    if_neg (by simp [newTxnCommit, typeTxnCommit, typeTxnPut]),
    if_neg (by simp [newTxnCommit, typeTxnCommit, typeTxnDelete]),
    if_pos (show (newTxnCommit (encodeTxnId tid kb)).recordType = typeTxnCommit from rfl),
    if_neg (by rw [hkey]; simp [encodeTxnId, be32]),
    if_neg (by rw [hread, hcur]; simp), hread, hcur]

theorem batchGet_batchAppend (tid : Nat) (e : Record × Pos)
    (b : List (Nat × List (Record × Pos))) :
    batchGet tid (batchAppend tid e b) = batchGet tid b ++ [e] := by
  induction b with
  | nil => simp [batchAppend, batchGet]
  | cons f t ih =>
    obtain ⟨i, l⟩ := f
    by_cases hi : i = tid
    · rw [batchAppend, if_pos hi, batchGet, if_pos hi, batchGet, if_pos hi]
    · rw [batchAppend, if_neg hi, batchGet, if_neg hi, batchGet, if_neg hi, ih]

theorem batchGet_foldl (tid : Nat) (items : List (Record × Pos))
    (b : List (Nat × List (Record × Pos))) :
    batchGet tid (items.foldl (fun b e => batchAppend tid (stripEntry e) b) b) =
      batchGet tid b ++ items.map stripEntry := by
  induction items generalizing b with
  | nil => simp
  | cons e t ih =>
    rw [List.foldl_cons, ih, batchGet_batchAppend, List.map_cons, List.append_assoc,
      List.singleton_append]

theorem readU32_eq_of_front {p q l : List Nat} (h : p ++ q = l) (hp : 4 ≤ p.length) :
    readU32 p = readU32 l := by
  match p, hp with
  | a :: b :: c :: d :: rest, _ =>
    subst h
    rfl

/-- A strict prefix of a within-caps encoded record is a stopping
tail: either its header is incomplete or its announced total length
exceeds what is present. -/
theorem tailStops_of_proper_prefix (r : Record) (hr : RecCaps r) {p q : List Nat}
    (hpq : p ++ q = r.encode) (hlt : p.length < r.encode.length) : tailStops p := by
  obtain ⟨hkc, hvc, _⟩ := hr
  by_cases h9 : p.length < 9
  · exact Or.inl h9
  · have hd1 : p.drop 1 ++ q = r.encode.drop 1 := by
      rw [← hpq, List.drop_append_of_le_length (by omega)]
    have hd5 : p.drop 5 ++ q = r.encode.drop 5 := by
      rw [← hpq, List.drop_append_of_le_length (by omega)]
    have hk : readU32 (p.drop 1) = r.key.length := by
      rw [readU32_eq_of_front hd1 (by simp; omega), Record.encode_drop_one,
        readU32_be32_append]
      have : maxKeyLen < 2 ^ 32 := by norm_num [maxKeyLen]
      omega
    have hv : readU32 (p.drop 5) = r.value.length := by
      rw [readU32_eq_of_front hd5 (by simp; omega), Record.encode_drop_five,
        readU32_be32_append]
      have : maxValueLen < 2 ^ 32 := by norm_num [maxValueLen]
      omega
    right; right; right
    rw [hk, hv]
    have := r.encode_length
    omega

/-- Any cut strictly inside a sequence of encoded records splits into
whole leading records plus a strict prefix of the record the cut
lands in. -/
theorem encRecs_take_decompose (rs : List Record) (c : Nat)
    (hc : c < (encRecs rs).length) :
    ∃ rs1 r rs2 p, rs = rs1 ++ r :: rs2 ∧
      (encRecs rs).take c = encRecs rs1 ++ p ∧
      ∃ q, p ++ q = r.encode ∧ p.length < r.encode.length := by
  induction rs generalizing c with
  | nil => simp [encRecs] at hc
  | cons r t ih =>
    by_cases hcr : c < r.encode.length
    · refine ⟨[], r, t, r.encode.take c, by simp, ?_, r.encode.drop c, ?_, ?_⟩
      · show List.take c (r.encode ++ encRecs t) = [] ++ List.take c r.encode
        rw [List.take_append_of_le_length (by omega)]
        exact (List.nil_append _).symm
      · exact List.take_append_drop c r.encode
      · simp
        omega
    · have hlen : (encRecs (r :: t)).length = r.encode.length + (encRecs t).length := by
        rw [encRecs]
        simp
      obtain ⟨rs1, r2, rs2, p, hsplit, htake, q, hq, hqlt⟩ :=
        ih (c - r.encode.length) (by omega)
      refine ⟨r :: rs1, r2, rs2, p, by rw [List.cons_append, hsplit], ?_, q, hq, hqlt⟩
      rw [encRecs, List.take_append_eq_append_take,
        List.take_of_length_le (by omega), htake, encRecs, List.append_assoc]

/-! ### The batch commit block (batch.go Commit) -/

/-- The bytes of the Go string literal used as the TxnBegin key. -/
def txnBeginKeyBytes : List Nat := [116, 120, 110, 95, 98, 101, 103, 105, 110]

/-- The bytes of the Go string literal used as the TxnCommit key. -/
def txnCommitKeyBytes : List Nat := [116, 120, 110, 95, 99, 111, 109, 109, 105, 116]

/-- The record Commit writes for one buffered operation: putTxn for a
non-nil value, deleteTxn (a TxnDelete via WriteTxn with nil) for nil. -/
def opRecord (tid : Nat) (e : List Nat × Option (List Nat)) : Record :=
  newTxnRecord (encodeTxnId tid e.1) e.2

/-- The record sequence a successful Commit appends: TxnBegin, one
txn record per buffered operation in order, TxnCommit. -/
def txnBlockRecs (tid : Nat) (ops : List (List Nat × Option (List Nat))) : List Record :=
  newTxnBegin (encodeTxnId tid txnBeginKeyBytes) ::
    (ops.map (opRecord tid) ++ [newTxnCommit (encodeTxnId tid txnCommitKeyBytes)])

/-- Caps for a buffered operation (the prefixed key must fit in the
key cap). -/
def OpEntryCaps (e : List Nat × Option (List Nat)) : Prop :=
  4 + e.1.length ≤ maxKeyLen ∧ ∀ v, e.2 = some v → v.length ≤ maxValueLen

/-- A standalone (non-transactional) record type. -/
def PlainRec (r : Record) : Prop :=
  r.recordType = typePut ∨ r.recordType = typeDelete

theorem mem_itemsWithPos {fid base : Nat} {items : List (Record × List Nat)}
    {e : Record × Pos} (h : e ∈ itemsWithPos fid base items) : ∃ c, (e.1, c) ∈ items := by
  induction items generalizing base with
  | nil => simp [itemsWithPos] at h
  | cons f t ih =>
    obtain ⟨r, c⟩ := f
    rw [itemsWithPos] at h
    rcases List.mem_cons.1 h with rfl | h2
    · exact ⟨c, List.mem_cons_self _ _⟩
    · obtain ⟨c2, hc2⟩ := ih h2
      exact ⟨c2, List.mem_cons_of_mem _ hc2⟩

theorem mem_properItems {rs : List Record} {r : Record} {c : List Nat}
    (h : (r, c) ∈ properItems rs) : r ∈ rs := by
  rw [properItems] at h
  obtain ⟨x, hx, heq⟩ := List.mem_map.1 h
  obtain ⟨rfl, -⟩ := Prod.mk.injEq .. ▸ heq
  exact hx

theorem properItems_crcLen (rs : List Record) :
    ∀ e ∈ properItems rs, e.2.length = 4 := by
  intro e he
  rw [properItems] at he
  obtain ⟨x, hx, heq⟩ := List.mem_map.1 he
  rw [← heq]
  exact be32_length _

theorem beginKey_length (tid : Nat) : (encodeTxnId tid txnBeginKeyBytes).length = 13 := by
  simp [encodeTxnId, be32, txnBeginKeyBytes]

/-- Replaying prior standalone records, then a TxnBegin and any run of
this transaction's TxnPut/TxnDelete records without the TxnCommit:
the index is exactly the standalone replay — none of the
transaction's operations reach it; they sit in the buffer. -/
theorem replay_block_noCommit (fid : Nat) (W R : List Record)
    (hW : ∀ r ∈ W, PlainRec r) (tid : Nat) (htid : tid < 2 ^ 32)
    (hR : ∀ r ∈ R, (r.recordType = typeTxnPut ∨ r.recordType = typeTxnDelete) ∧
      4 ≤ r.key.length ∧ readU32 r.key = tid)
    (mem0 : Index) (tx0 : Nat) :
    replayRecs ⟨mem0, tx0, [], false, 0⟩
        (itemsWithPos fid 0
          (properItems (W ++ newTxnBegin (encodeTxnId tid txnBeginKeyBytes) :: R))) =
      .ok ⟨plainReplay mem0 (itemsWithPos fid 0 (properItems W)), tx0,
        (itemsWithPos fid ((encItems (properItems W)).length + 26)
            (properItems R)).foldl (fun b e => batchAppend tid (stripEntry e) b) [],
        true, tid⟩ := by
  rw [properItems_append,
    itemsWithPos_append fid 0 _ _ (properItems_crcLen W), replayRecs_append]
  have hplainW : ∀ e ∈ itemsWithPos fid 0 (properItems W), PlainRec e.1 := by
    intro e he
    obtain ⟨c, hc⟩ := mem_itemsWithPos he
    exact hW _ (mem_properItems hc)
  rw [replayRecs_plain _ hplainW _ rfl]
  show replayRecs ⟨plainReplay mem0 (itemsWithPos fid 0 (properItems W)), tx0, [],
    false, 0⟩ _ = _
  rw [show properItems (newTxnBegin (encodeTxnId tid txnBeginKeyBytes) :: R) =
    (newTxnBegin (encodeTxnId tid txnBeginKeyBytes),
      be32 (crc32 (newTxnBegin (encodeTxnId tid txnBeginKeyBytes)).body)) ::
      properItems R from rfl]
  rw [itemsWithPos, replayRecs, applyRecord_begin _ tid _ _ htid]
  have hstep : 9 + (newTxnBegin (encodeTxnId tid txnBeginKeyBytes)).key.length +
      (newTxnBegin (encodeTxnId tid txnBeginKeyBytes)).value.length + 4 = 26 := by
    rw [show (newTxnBegin (encodeTxnId tid txnBeginKeyBytes)).key =
      encodeTxnId tid txnBeginKeyBytes from rfl, beginKey_length]
    rfl
  rw [hstep]
  have hopsR : ∀ e ∈ itemsWithPos fid (0 + (encItems (properItems W)).length + 26)
      (properItems R),
      (e.1.recordType = typeTxnPut ∨ e.1.recordType = typeTxnDelete) ∧
        4 ≤ e.1.key.length ∧ readU32 e.1.key = tid := by
    intro e he
    obtain ⟨c, hc⟩ := mem_itemsWithPos he
    exact hR _ (mem_properItems hc)
  show replayRecs ⟨plainReplay mem0 (itemsWithPos fid 0 (properItems W)), tx0, [],
      true, tid⟩
      (itemsWithPos fid (0 + (encItems (properItems W)).length + 26) (properItems R)) = _
  rw [replayRecs_txnOps tid _ hopsR _ rfl rfl]
  rw [show (0 : Nat) + (encItems (properItems W)).length + 26 =
    (encItems (properItems W)).length + 26 by omega]

theorem commitKey_length (tid : Nat) : (encodeTxnId tid txnCommitKeyBytes).length = 14 := by
  simp [encodeTxnId, be32, txnCommitKeyBytes]

theorem beginRec_caps (tid : Nat) :
    RecCaps (newTxnBegin (encodeTxnId tid txnBeginKeyBytes)) := by
  refine ⟨?_, ?_, ?_⟩
  · rw [show (newTxnBegin (encodeTxnId tid txnBeginKeyBytes)).key =
      encodeTxnId tid txnBeginKeyBytes from rfl, beginKey_length]
    norm_num [maxKeyLen]
  · show ([] : List Nat).length ≤ maxValueLen
    norm_num [maxValueLen]
  · show typeBegin < 256
    decide

theorem commitRec_caps (tid : Nat) :
    RecCaps (newTxnCommit (encodeTxnId tid txnCommitKeyBytes)) := by
  refine ⟨?_, ?_, ?_⟩
  · rw [show (newTxnCommit (encodeTxnId tid txnCommitKeyBytes)).key =
      encodeTxnId tid txnCommitKeyBytes from rfl, commitKey_length]
    norm_num [maxKeyLen]
  · show ([] : List Nat).length ≤ maxValueLen
    norm_num [maxValueLen]
  · show typeTxnCommit < 256
    decide

theorem opRecord_txnShape (tid : Nat) (htid : tid < 2 ^ 32)
    (e : List Nat × Option (List Nat)) :
    ((opRecord tid e).recordType = typeTxnPut ∨
        (opRecord tid e).recordType = typeTxnDelete) ∧
      4 ≤ (opRecord tid e).key.length ∧ readU32 (opRecord tid e).key = tid := by
  rcases hv : e.2 with _ | v
  · have heq : opRecord tid e = ⟨typeTxnDelete, encodeTxnId tid e.1, []⟩ := by
      rw [opRecord, hv]
      rfl
    rw [heq]
    refine ⟨Or.inr rfl, ?_, ?_⟩
    · show 4 ≤ (encodeTxnId tid e.1).length
      rw [encodeTxnId, List.length_append, be32_length]
      omega
    · show readU32 (encodeTxnId tid e.1) = tid
      rw [encodeTxnId, readU32_be32_append _ _ htid]
  · have heq : opRecord tid e = ⟨typeTxnPut, encodeTxnId tid e.1, v⟩ := by
      rw [opRecord, hv]
      rfl
    rw [heq]
    refine ⟨Or.inl rfl, ?_, ?_⟩
    · show 4 ≤ (encodeTxnId tid e.1).length
      rw [encodeTxnId, List.length_append, be32_length]
      omega
    · show readU32 (encodeTxnId tid e.1) = tid
      rw [encodeTxnId, readU32_be32_append _ _ htid]

theorem opRecord_caps (tid : Nat) (e : List Nat × Option (List Nat))
    (he : OpEntryCaps e) : RecCaps (opRecord tid e) := by
  obtain ⟨hk, hv2⟩ := he
  rcases hval : e.2 with _ | v
  · have heq : opRecord tid e = ⟨typeTxnDelete, encodeTxnId tid e.1, []⟩ := by
      rw [opRecord, hval]
      rfl
    rw [heq]
    refine ⟨?_, ?_, ?_⟩
    · show (encodeTxnId tid e.1).length ≤ maxKeyLen
      rw [encodeTxnId, List.length_append, be32_length]
      omega
    · show ([] : List Nat).length ≤ maxValueLen
      norm_num [maxValueLen]
    · show typeTxnDelete < 256
      decide
  · have heq : opRecord tid e = ⟨typeTxnPut, encodeTxnId tid e.1, v⟩ := by
      rw [opRecord, hval]
      rfl
    rw [heq]
    refine ⟨?_, ?_, ?_⟩
    · show (encodeTxnId tid e.1).length ≤ maxKeyLen
      rw [encodeTxnId, List.length_append, be32_length]
      omega
    · exact hv2 v hval
    · show typeTxnPut < 256
      decide

theorem replay_commit_single (fid base tid : Nat) (htid : tid < 2 ^ 32) (kb : List Nat)
    (st : ReplayState) (hflag : st.txnFlag = true) (hcur : st.curTxnId = tid) :
    replayRecs st
        (itemsWithPos fid base (properItems [newTxnCommit (encodeTxnId tid kb)])) =
      .ok ⟨applyTxnOps st.mem (batchGet tid st.batch), tid,
        batchRemove tid st.batch, false, 0⟩ := by
  show (match applyRecord st (newTxnCommit (encodeTxnId tid kb))
      ⟨fid, base, 9 + (newTxnCommit (encodeTxnId tid kb)).key.length +
        (newTxnCommit (encodeTxnId tid kb)).value.length + 4⟩ with
    | Except.error e => Except.error e
    | Except.ok st2 => replayRecs st2 []) = _
  rw [applyRecord_commit st tid kb _ htid hflag hcur]
  rfl

/-- Claim C2: replay atomicity of the batch commit protocol.  Over a
segment holding standalone records W followed by the record sequence a
batch Commit appends (TxnBegin, the buffered TxnPut/TxnDelete records,
TxnCommit): (1) for every byte-level crash point after the TxnBegin
record and strictly before the end of the TxnCommit record, replaying
the truncated segment leaves the index exactly as W alone leaves it —
none of the transaction's operations is applied; (2) replaying the
complete segment applies all of the transaction's operations (the
commit loop applyTxnOps over the buffered, prefix-stripped records)
and records the transaction id. -/
theorem c2_atomicity (fid : Nat) (W : List Record)
    (hW : ∀ r ∈ W, RecCaps r ∧ PlainRec r)
    (tid : Nat) (htid : tid < 2 ^ 32)
    (ops : List (List Nat × Option (List Nat))) (hops : ∀ e ∈ ops, OpEntryCaps e)
    (mem0 : Index) (tx0 : Nat) :
    (∀ cut, (encRecs W).length + 26 ≤ cut →
      cut < (encRecs (W ++ txnBlockRecs tid ops)).length →
      ∃ st2 off, readAllLoop fid ((encRecs (W ++ txnBlockRecs tid ops)).take cut)
          ((encRecs (W ++ txnBlockRecs tid ops)).take cut).length 0
          ⟨mem0, tx0, [], false, 0⟩ = .ok (st2, off) ∧
        st2.mem = plainReplay mem0 (itemsWithPos fid 0 (properItems W))) ∧
    (∃ st2, readAllLoop fid (encRecs (W ++ txnBlockRecs tid ops))
        (encRecs (W ++ txnBlockRecs tid ops)).length 0 ⟨mem0, tx0, [], false, 0⟩ =
        .ok (st2, (encRecs (W ++ txnBlockRecs tid ops)).length) ∧
      st2.mem = applyTxnOps (plainReplay mem0 (itemsWithPos fid 0 (properItems W)))
        ((itemsWithPos fid ((encRecs W).length + 26)
          (properItems (ops.map (opRecord tid)))).map stripEntry) ∧
      st2.txnId = tid) := by
  have hbeginlen : (newTxnBegin (encodeTxnId tid txnBeginKeyBytes)).encode.length = 26 := by
    rw [Record.encode_length, show (newTxnBegin (encodeTxnId tid txnBeginKeyBytes)).key =
      encodeTxnId tid txnBeginKeyBytes from rfl, beginKey_length]
    rfl
  have hOpsR : ∀ r ∈ ops.map (opRecord tid),
      (r.recordType = typeTxnPut ∨ r.recordType = typeTxnDelete) ∧
        4 ≤ r.key.length ∧ readU32 r.key = tid := by
    intro r hr
    obtain ⟨e, he, rfl⟩ := List.mem_map.1 hr
    exact opRecord_txnShape tid htid e
  have hOpsCaps : ∀ r ∈ ops.map (opRecord tid), RecCaps r := by
    intro r hr
    obtain ⟨e, he, rfl⟩ := List.mem_map.1 hr
    exact opRecord_caps tid e (hops e he)
  have hAllCaps : ∀ r ∈ W ++ txnBlockRecs tid ops, RecCaps r := by
    intro r hr
    rcases List.mem_append.1 hr with h | h
    · exact (hW r h).1
    · rw [txnBlockRecs] at h
      rcases List.mem_cons.1 h with rfl | h2
      · exact beginRec_caps tid
      · rcases List.mem_append.1 h2 with h3 | h3
        · exact hOpsCaps r h3
        · rw [List.mem_singleton] at h3
          subst h3
          exact commitRec_caps tid
  have hWplain : ∀ r ∈ W, PlainRec r := fun r hr => (hW r hr).2
  have hWlen : (encItems (properItems W)).length = (encRecs W).length := by
    rw [encItems_properItems]
  constructor
  · -- part 1: crash strictly between TxnBegin and TxnCommit
    intro cut hge hlt
    have hfull : encRecs (W ++ txnBlockRecs tid ops) =
        encRecs W ++ ((newTxnBegin (encodeTxnId tid txnBeginKeyBytes)).encode ++
          encRecs (ops.map (opRecord tid) ++
            [newTxnCommit (encodeTxnId tid txnCommitKeyBytes)])) := by
      rw [encRecs_append, txnBlockRecs, encRecs]
    have hlt2 : cut - (encRecs W).length - 26 <
        (encRecs (ops.map (opRecord tid) ++
          [newTxnCommit (encodeTxnId tid txnCommitKeyBytes)])).length := by
      rw [hfull] at hlt
      simp only [List.length_append, hbeginlen] at hlt
      omega
    obtain ⟨rs1, r, rs2, p, hsplit2, htake2, q, hq, hqlt⟩ :=
      encRecs_take_decompose _ (cut - (encRecs W).length - 26) hlt2
    have hrs1len : rs1.length ≤ (ops.map (opRecord tid)).length := by
      have h := congrArg List.length hsplit2
      simp only [List.length_append, List.length_cons, List.length_nil] at h
      omega
    have hrs1 : ∀ x ∈ rs1, x ∈ ops.map (opRecord tid) := by
      have h1 : (rs1 ++ r :: rs2).take rs1.length = rs1 := List.take_left ..
      rw [← hsplit2, List.take_append_of_le_length hrs1len] at h1
      intro x hx
      rw [← h1] at hx
      exact List.take_subset _ _ hx
    have hrcaps : RecCaps r := by
      have hrmem : r ∈ ops.map (opRecord tid) ++
          [newTxnCommit (encodeTxnId tid txnCommitKeyBytes)] := by
        rw [hsplit2]
        exact List.mem_append_right _ (List.mem_cons_self _ _)
      rcases List.mem_append.1 hrmem with h | h
      · exact hOpsCaps r h
      · rw [List.mem_singleton] at h
        subst h
        exact commitRec_caps tid
    have hbufeq : (encRecs (W ++ txnBlockRecs tid ops)).take cut =
        encItems (properItems (W ++
          newTxnBegin (encodeTxnId tid txnBeginKeyBytes) :: rs1)) ++ p := by
      rw [hfull, List.take_append_eq_append_take,
        List.take_of_length_le (by omega),
        List.take_append_eq_append_take,
        List.take_of_length_le (by rw [hbeginlen]; omega), hbeginlen, htake2,
        encItems_properItems, encRecs_append, encRecs]
      simp [List.append_assoc]
    have hitemcaps : ∀ e ∈ properItems (W ++
        newTxnBegin (encodeTxnId tid txnBeginKeyBytes) :: rs1),
        RecCaps e.1 ∧ e.2.length = 4 := by
      intro e he
      refine ⟨?_, properItems_crcLen _ e he⟩
      obtain ⟨r2, c2⟩ := e
      have hmem := mem_properItems he
      rcases List.mem_append.1 hmem with h | h
      · exact (hW _ h).1
      · rcases List.mem_cons.1 h with rfl | h2
        · exact beginRec_caps tid
        · exact hOpsCaps _ (hrs1 _ h2)
    have htailp : tailStops p := tailStops_of_proper_prefix r hrcaps hq hqlt
    rw [hbufeq]
    rw [readAllLoop_aligned fid _ p _ 0 ⟨mem0, tx0, [], false, 0⟩ (by simp) (by simp)
      hitemcaps htailp]
    rw [replay_block_noCommit fid W rs1 hWplain tid htid
      (fun x hx => hOpsR x (hrs1 x hx)) mem0 tx0]
    exact ⟨_, _, rfl, rfl⟩
  · -- part 2: the complete commit block
    have hsplit : W ++ txnBlockRecs tid ops =
        (W ++ newTxnBegin (encodeTxnId tid txnBeginKeyBytes) ::
          ops.map (opRecord tid)) ++
          [newTxnCommit (encodeTxnId tid txnCommitKeyBytes)] := by
      rw [txnBlockRecs, List.append_assoc]
      rfl
    have hbytes : encRecs (W ++ txnBlockRecs tid ops) =
        encItems (properItems (W ++ txnBlockRecs tid ops)) :=
      (encItems_properItems _).symm
    have hitemcaps : ∀ e ∈ properItems (W ++ txnBlockRecs tid ops),
        RecCaps e.1 ∧ e.2.length = 4 := by
      intro e he
      obtain ⟨r2, c2⟩ := e
      exact ⟨hAllCaps _ (mem_properItems he), properItems_crcLen _ _ he⟩
    have hrun : replayRecs ⟨mem0, tx0, [], false, 0⟩
        (itemsWithPos fid 0 (properItems (W ++ txnBlockRecs tid ops))) =
        .ok ⟨applyTxnOps (plainReplay mem0 (itemsWithPos fid 0 (properItems W)))
            (batchGet tid
              ((itemsWithPos fid ((encItems (properItems W)).length + 26)
                (properItems (ops.map (opRecord tid)))).foldl
                (fun b e => batchAppend tid (stripEntry e) b) [])),
          tid,
          batchRemove tid
            ((itemsWithPos fid ((encItems (properItems W)).length + 26)
              (properItems (ops.map (opRecord tid)))).foldl
              (fun b e => batchAppend tid (stripEntry e) b) []),
          false, 0⟩ := by
      rw [show properItems (W ++ txnBlockRecs tid ops) =
        properItems (W ++ newTxnBegin (encodeTxnId tid txnBeginKeyBytes) ::
          ops.map (opRecord tid)) ++
          properItems [newTxnCommit (encodeTxnId tid txnCommitKeyBytes)] by
        rw [← properItems_append, ← hsplit]]
      rw [itemsWithPos_append fid 0 _ _ (properItems_crcLen _), replayRecs_append,
        replay_block_noCommit fid W (ops.map (opRecord tid)) hWplain tid htid
          hOpsR mem0 tx0]
      exact replay_commit_single fid _ tid htid txnCommitKeyBytes
        ⟨plainReplay mem0 (itemsWithPos fid 0 (properItems W)), tx0,
          (itemsWithPos fid ((encItems (properItems W)).length + 26)
            (properItems (ops.map (opRecord tid)))).foldl
            (fun b e => batchAppend tid (stripEntry e) b) [], true, tid⟩ rfl rfl
    rw [hbytes]
    rw [readAllLoop_aligned fid _ [] _ 0 ⟨mem0, tx0, [], false, 0⟩ (by simp) (by simp)
      hitemcaps (Or.inl (by decide))]
    rw [hrun, Nat.zero_add]
    refine ⟨_, rfl, ?_, ?_⟩
    · show applyTxnOps _ (batchGet tid _) = _
      rw [batchGet_foldl, show batchGet tid ([] : List (Nat × List (Record × Pos))) = []
        from rfl, List.nil_append, hWlen]
    · rfl

theorem c2_atomicity_witness :
    (∀ cut, (encRecs ([] : List Record)).length + 26 ≤ cut →
      cut < (encRecs (([] : List Record) ++ txnBlockRecs 1 [([7], some [8])])).length →
      ∃ st2 off, readAllLoop 0
          ((encRecs (([] : List Record) ++ txnBlockRecs 1 [([7], some [8])])).take cut)
          ((encRecs (([] : List Record) ++
            txnBlockRecs 1 [([7], some [8])])).take cut).length 0
          ⟨[], 0, [], false, 0⟩ = .ok (st2, off) ∧
        st2.mem = plainReplay [] (itemsWithPos 0 0 (properItems []))) ∧
    (∃ st2, readAllLoop 0 (encRecs (([] : List Record) ++ txnBlockRecs 1 [([7], some [8])]))
        (encRecs (([] : List Record) ++ txnBlockRecs 1 [([7], some [8])])).length 0
        ⟨[], 0, [], false, 0⟩ =
        .ok (st2, (encRecs (([] : List Record) ++ txnBlockRecs 1 [([7], some [8])])).length) ∧
      st2.mem = applyTxnOps (plainReplay [] (itemsWithPos 0 0 (properItems [])))
        ((itemsWithPos 0 ((encRecs ([] : List Record)).length + 26)
          (properItems ([([7], some [8])].map (opRecord 1)))).map stripEntry) ∧
      st2.txnId = 1) :=
  c2_atomicity 0 [] (fun r hr => absurd hr (List.not_mem_nil r)) 1 (by norm_num)
    [([7], some [8])]
    (by
      intro e he
      rw [List.mem_singleton] at he
      subst he
      refine ⟨by norm_num [maxKeyLen], ?_⟩
      intro v hv
      have hv8 : v = [8] := by simpa using hv.symm
      subst hv8
      norm_num [maxValueLen])
    [] 0

/-! ## Claim C9: range scan (Bitcask.ScanRangeOptimized) -/

inductive ScanErr where
  | fileNotFound (fid : Nat)   -- "file not found: fileId=%d" inside Scan
  | readFailed (e : ReadErr)   -- ReadPos failure inside Scan
  | reachLimit                 -- ErrReachLimit sentinel
  | exceedEndRange             -- ErrExceedEndRange sentinel
deriving DecidableEq, Repr

/-- `values[string(key)] = value`: Go map assignment (replace or add). -/
def valuesPut (k v : List Nat) : List (List Nat × List Nat) → List (List Nat × List Nat)
  | [] => [(k, v)]
  | (k2, v2) :: t => if k2 = k then (k, v) :: t else (k2, v2) :: valuesPut k v t

/-- `values[string(key)]`: Go map read (missing key reads as nil). -/
def valuesGet (k : List Nat) : List (List Nat × List Nat) → Option (List Nat)
  | [] => none
  | (k2, v) :: t => if k2 = k then some v else valuesGet k t

/-- Bitcask.Scan specialised to the collecting closure of
ScanRangeOptimized: ascend the index in order; for each entry resolve
the segment and read the record back; an in-range record key is
appended to `keys` and its value stored in the map; a record key
beyond the end key aborts the walk with ErrExceedEndRange; any real
failure aborts with that error.  The accumulated closure state is
returned alongside the error. -/
def scanRangeLoop (bc : Bitcask) (start stop : List Nat) :
    List (List Nat × Pos) → List (List Nat) → List (List Nat × List Nat) →
      Option ScanErr × List (List Nat) × List (List Nat × List Nat)
  | [], ks, vs => (none, ks, vs)
  | (_, pos) :: t, ks, vs =>
    match bc.walFor pos.fileId with
    | none => (some (.fileNotFound pos.fileId), ks, vs)
    | some w =>
      match w.readPos pos with
      | .error e => (some (.readFailed e), ks, vs)
      | .ok rec =>
        if kcInRange rec.key start stop then
          scanRangeLoop bc start stop t (ks ++ [rec.key]) (valuesPut rec.key rec.value vs)
        else if kcGreater rec.key stop then (some .exceedEndRange, ks, vs)
        else scanRangeLoop bc start stop t ks vs

/-- The sort.Slice predicate of ScanRangeOptimized: length first, then
bytes.Compare on equal lengths. -/
def goKeyLess (a b : List Nat) : Bool :=
  if a.length ≠ b.length then a.length < b.length
  else bytesCompare a b = Ordering.lt

theorem goKeyLess_eq_itemLess : goKeyLess = itemLess := rfl

def insertKey (k : List Nat) : List (List Nat) → List (List Nat)
  | [] => [k]
  | k2 :: t => if goKeyLess k k2 then k :: k2 :: t else k2 :: insertKey k t

/-- Sorting the collected keys by the sort.Slice predicate. -/
def sortKeys : List (List Nat) → List (List Nat)
  | [] => []
  | k :: t => insertKey k (sortKeys t)

/-- The output loop: walk the sorted keys, stop once `count` reaches a
positive limit, pair each key with its collected value. -/
def limitLoop (limit : Nat) (vs : List (List Nat × List Nat)) :
    List (List Nat) → Nat → List (List Nat × Option (List Nat))
  | [], _ => []
  | k :: t, count =>
    if 0 < limit ∧ limit ≤ count then []
    else (k, valuesGet k vs) :: limitLoop limit vs t (count + 1)

/-- Bitcask.ScanRangeOptimized: collect via Scan, swallow the two
sentinel errors, surface real ones, sort the keys, emit up to limit
results. -/
def Bitcask.scanRangeOptimized (bc : Bitcask) (start stop : List Nat) (limit : Nat) :
    Except ScanErr (List (List Nat × Option (List Nat))) :=
  match scanRangeLoop bc start stop bc.memTable [] [] with
  | (some e, ks, vs) =>
    if e ≠ .reachLimit ∧ e ≠ .exceedEndRange then .error e
    else .ok (limitLoop limit vs (sortKeys ks) 0)
  | (none, ks, vs) => .ok (limitLoop limit vs (sortKeys ks) 0)

theorem kcGreater_iff_itemLess (a b : List Nat) :
    kcGreater a b = true ↔ itemLess b a = true := by
  rw [kcGreater, itemLess]
  by_cases h : a.length = b.length
  · simp [h, bytesCompare_gt_iff_lt]
  · have h2 : b.length ≠ a.length := fun hc => h hc.symm
    simp [h, h2]

theorem kcEqual_eq (a b : List Nat) (h : kcEqual a b = true) : a = b := by
  rw [kcEqual, Bool.and_eq_true] at h
  exact of_decide_eq_true h.2

theorem kcGreater_false_of_lessOrEqual {a b : List Nat}
    (h : kcLessOrEqual a b = true) : kcGreater a b = false := by
  rw [Bool.eq_false_iff]
  intro hgt
  have hba : itemLess b a = true := (kcGreater_iff_itemLess a b).1 hgt
  rw [kcLessOrEqual, Bool.or_eq_true] at h
  rcases h with h | h
  · have : itemLess a b = true := h
    rw [itemLess_asymm this] at hba
    exact Bool.false_ne_true hba
  · have hab : a = b := kcEqual_eq a b h
    subst hab
    rw [itemLess_irrefl] at hba
    exact Bool.false_ne_true hba

theorem kcInRange_false_of_greater {k start stop : List Nat}
    (h : kcGreater k stop = true) : kcInRange k start stop = false := by
  rw [Bool.eq_false_iff]
  intro hin
  rw [kcInRange, Bool.and_eq_true] at hin
  rw [kcGreater_false_of_lessOrEqual hin.2] at h
  exact Bool.false_ne_true h

theorem kcGreater_of_greater_less {a b stop : List Nat}
    (hgt : kcGreater a stop = true) (hlt : itemLess a b = true) :
    kcGreater b stop = true :=
  (kcGreater_iff_itemLess b stop).2
    (itemLess_trans ((kcGreater_iff_itemLess a stop).1 hgt) hlt)

/-- The collecting walk, on an index whose entries read back as the
spec map says and whose spec keys ascend: it returns every in-range
spec pair in order, aborts with the range sentinel exactly when a key
beyond the end exists, and never hits a real error. -/
theorem scanRangeLoop_spec (bc : Bitcask) (start stop : List Nat)
    {l : List (List Nat × Pos)} {spec : List (List Nat × List Nat)}
    (hf : List.Forall₂ (EntryOk bc) l spec) :
    List.Pairwise (fun a b => itemLess a.1 b.1 = true) spec →
    ∀ ks vs, scanRangeLoop bc start stop l ks vs =
      ((if spec.any (fun s => kcGreater s.1 stop) then some ScanErr.exceedEndRange
          else none),
       ks ++ (spec.filter (fun s => kcInRange s.1 start stop)).map Prod.fst,
       (spec.filter (fun s => kcInRange s.1 start stop)).foldl
         (fun m s => valuesPut s.1 s.2 m) vs) := by
  induction hf with
  | nil =>
    intro _ ks vs
    simp [scanRangeLoop]
  | @cons e s l2 spec2 hE htail ih =>
    intro hs ks vs
    rw [List.pairwise_cons] at hs
    obtain ⟨hhead, htailsorted⟩ := hs
    obtain ⟨e1, pos⟩ := e
    obtain ⟨sk, sv⟩ := s
    obtain ⟨heq, hkcap, hvcap, w, hw, hb, hsl⟩ := hE
    have hdec : decodeRecord (Record.encode ⟨typePut, sk, sv⟩) = .ok ⟨typePut, sk, sv⟩ := by
      rw [decodeRecord_encode _ hkcap hvcap]
      norm_num [typePut, typeTxnPut, typeTxnDelete]
    have hread : w.readPos pos = .ok ⟨typePut, sk, sv⟩ := by
      rw [readPos_of_slice hb hsl, hdec]
    simp only [scanRangeLoop, hw, hread]
    by_cases hin : kcInRange sk start stop = true
    · have hgtfalse : kcGreater sk stop = false := by
        rw [kcInRange, Bool.and_eq_true] at hin
        exact kcGreater_false_of_lessOrEqual hin.2
      have h1 : ((sk, sv) :: spec2).any (fun s => kcGreater s.1 stop) =
          spec2.any (fun s => kcGreater s.1 stop) := by
        rw [List.any_cons]
        show (kcGreater sk stop || _) = _
        rw [hgtfalse, Bool.false_or]
      have h2 : ((sk, sv) :: spec2).filter (fun s => kcInRange s.1 start stop) =
          (sk, sv) :: spec2.filter (fun s => kcInRange s.1 start stop) :=
        List.filter_cons_of_pos hin
      rw [if_pos hin, ih htailsorted (ks ++ [sk]) (valuesPut sk sv vs),
        h1, h2, List.map_cons, List.foldl_cons]
      simp
    · have hinf : kcInRange sk start stop = false := Bool.eq_false_iff.2 hin
      have h2 : ((sk, sv) :: spec2).filter (fun s => kcInRange s.1 start stop) =
          spec2.filter (fun s => kcInRange s.1 start stop) :=
        List.filter_cons_of_neg (by simp [hinf])
      by_cases hgt : kcGreater sk stop = true
      · have h1 : ((sk, sv) :: spec2).any (fun s => kcGreater s.1 stop) = true := by
          rw [List.any_cons]
          show (kcGreater sk stop || _) = true
          rw [hgt, Bool.true_or]
        have h3 : spec2.filter (fun s => kcInRange s.1 start stop) = [] := by
          rw [List.filter_eq_nil]
          intro s2 hs2
          have hgt2 : kcGreater s2.1 stop = true :=
            kcGreater_of_greater_less hgt (hhead s2 hs2)
          simp [kcInRange_false_of_greater hgt2]
        rw [if_neg hin, if_pos hgt, h1, h2, h3]
        simp
      · have hgtf : kcGreater sk stop = false := Bool.eq_false_iff.2 hgt
        have h1 : ((sk, sv) :: spec2).any (fun s => kcGreater s.1 stop) =
            spec2.any (fun s => kcGreater s.1 stop) := by
          rw [List.any_cons]
          show (kcGreater sk stop || _) = _
          rw [hgtf, Bool.false_or]
        rw [if_neg hin, if_neg hgt, ih htailsorted ks vs, h1, h2]

theorem valuesGet_valuesPut_self (k v : List Nat) (m : List (List Nat × List Nat)) :
    valuesGet k (valuesPut k v m) = some v := by
  induction m with
  | nil => simp [valuesPut, valuesGet]
  | cons e t ih =>
    obtain ⟨k2, v2⟩ := e
    by_cases h : k2 = k
    · rw [valuesPut, if_pos h, valuesGet, if_pos rfl]
    · rw [valuesPut, if_neg h, valuesGet, if_neg h, ih]

theorem valuesGet_valuesPut_ne {k k2 : List Nat} (h : k2 ≠ k) (v : List Nat)
    (m : List (List Nat × List Nat)) :
    valuesGet k (valuesPut k2 v m) = valuesGet k m := by
  induction m with
  | nil => simp [valuesPut, valuesGet, h]
  | cons e t ih =>
    obtain ⟨k3, v3⟩ := e
    by_cases h3 : k3 = k2
    · subst h3
      rw [valuesPut, if_pos rfl, valuesGet, if_neg h, valuesGet, if_neg h]
    · rw [valuesPut, if_neg h3, valuesGet, valuesGet, ih]

theorem valuesGet_foldl_notin (k : List Nat) (L : List (List Nat × List Nat))
    (hk : ∀ s ∈ L, s.1 ≠ k) (m : List (List Nat × List Nat)) :
    valuesGet k (L.foldl (fun m s => valuesPut s.1 s.2 m) m) = valuesGet k m := by
  induction L generalizing m with
  | nil => rfl
  | cons s t ih =>
    rw [List.foldl_cons, ih (fun s2 hs2 => hk s2 (List.mem_cons_of_mem _ hs2)),
      valuesGet_valuesPut_ne (hk s (List.mem_cons_self _ _))]

theorem valuesGet_foldl_mem (L : List (List Nat × List Nat))
    (hdist : L.Pairwise (fun a b => a.1 ≠ b.1)) (m : List (List Nat × List Nat)) :
    ∀ s ∈ L, valuesGet s.1 (L.foldl (fun m s => valuesPut s.1 s.2 m) m) = some s.2 := by
  induction L generalizing m with
  | nil => intro s hs; exact absurd hs (List.not_mem_nil s)
  | cons s0 t ih =>
    rw [List.pairwise_cons] at hdist
    obtain ⟨hne, htd⟩ := hdist
    intro s hs
    rcases List.mem_cons.1 hs with rfl | hs2
    · rw [List.foldl_cons,
        valuesGet_foldl_notin _ _ (fun s2 hs2 => fun hc => hne s2 hs2 hc.symm) _,
        valuesGet_valuesPut_self]
    · exact ih htd _ s hs2

theorem insertKey_front (k : List Nat) (t : List (List Nat))
    (h : ∀ x ∈ t, itemLess k x = true) : insertKey k t = k :: t := by
  cases t with
  | nil => rfl
  | cons k2 t2 =>
    rw [insertKey, if_pos]
    rw [goKeyLess_eq_itemLess]
    exact h k2 (List.mem_cons_self _ _)

/-- Sorting by the sort.Slice predicate fixes an already-ascending
list (the collected keys arrive in index order, which is ascending). -/
theorem sortKeys_sorted_id (ks : List (List Nat))
    (h : ks.Pairwise (fun a b => itemLess a b = true)) : sortKeys ks = ks := by
  induction ks with
  | nil => rfl
  | cons k t ih =>
    rw [List.pairwise_cons] at h
    rw [sortKeys, ih h.2, insertKey_front k t h.1]

theorem limitLoop_eq (limit : Nat) (vs : List (List Nat × List Nat))
    (ks : List (List Nat)) : ∀ count, limitLoop limit vs ks count =
      (if 0 < limit then ks.take (limit - count) else ks).map
        (fun k => (k, valuesGet k vs)) := by
  induction ks with
  | nil =>
    intro count
    by_cases h : 0 < limit <;> simp [limitLoop, h]
  | cons k t ih =>
    intro count
    by_cases h : 0 < limit ∧ limit ≤ count
    · rw [limitLoop, if_pos h, if_pos h.1, show limit - count = 0 by omega,
        List.take_zero, List.map_nil]
    · rw [limitLoop, if_neg h, ih (count + 1)]
      by_cases hl : 0 < limit
      · rw [if_pos hl, if_pos hl, show limit - count = (limit - (count + 1)) + 1 by omega,
          List.take_succ_cons, List.map_cons]
      · rw [if_neg hl, if_neg hl, List.map_cons]

/-- The sort + output phase on the collected state of an ascending,
duplicate-free in-range list: exactly that list (with its values), cut
to the limit when positive. -/
theorem limitOut (limit : Nat) (L : List (List Nat × List Nat))
    (hL : L.Pairwise (fun a b => itemLess a.1 b.1 = true)) :
    limitLoop limit (L.foldl (fun m s => valuesPut s.1 s.2 m) []) (sortKeys (L.map Prod.fst)) 0 =
      if 0 < limit then (L.map (fun s => (s.1, some s.2))).take limit
      else L.map (fun s => (s.1, some s.2)) := by
  have hdist : L.Pairwise (fun a b => a.1 ≠ b.1) :=
    hL.imp (fun hab => fun hc => by
      rw [hc] at hab
      rw [itemLess_irrefl] at hab
      exact Bool.false_ne_true hab)
  have hget := valuesGet_foldl_mem L hdist []
  have hsortid : sortKeys (L.map Prod.fst) = L.map Prod.fst := by
    refine sortKeys_sorted_id _ ?_
    rw [List.pairwise_map]
    exact hL
  have hmap : ∀ M : List (List Nat × List Nat), (∀ s ∈ M, s ∈ L) →
      (M.map Prod.fst).map
        (fun k => (k, valuesGet k (L.foldl (fun m s => valuesPut s.1 s.2 m) []))) =
        M.map (fun s => (s.1, some s.2)) := by
    intro M hM
    rw [List.map_map]
    refine List.map_congr_left (fun s hs => ?_)
    show (s.1, valuesGet s.1 _) = (s.1, some s.2)
    rw [hget s (hM s hs)]
  rw [hsortid, limitLoop_eq, Nat.sub_zero]
  by_cases hl : 0 < limit
  · rw [if_pos hl, if_pos hl, ← List.map_take, ← List.map_take,
      hmap (L.take limit) (fun s hs => List.take_subset _ _ hs)]
  · rw [if_neg hl, if_neg hl, hmap L (fun s hs => hs)]

/-- Claim C9: on any history of capped put/delete operations,
ScanRangeOptimized(k1, k2, limit) succeeds — the two control sentinels
ErrReachLimit and ErrExceedEndRange are never surfaced — and returns,
in ascending comparator order, exactly the live keys k with
k1 ≤ k ≤ k2 paired with their current values; a positive limit
truncates the result to the first limit entries, and limit 0 returns
them all. -/
theorem c9_scan_range (conf : Config) (ops : List Op) (k1 k2 : List Nat) (limit : Nat)
    (hok : ∀ op ∈ ops, OpOk op) :
    (runOps conf ops).scanRangeOptimized k1 k2 limit =
      .ok (if 0 < limit
        then (((specIndex ops).filter (fun s => kcInRange s.1 k1 k2)).map
          (fun s => (s.1, some s.2))).take limit
        else ((specIndex ops).filter (fun s => kcInRange s.1 k1 k2)).map
          (fun s => (s.1, some s.2))) := by
  obtain ⟨hold, hwf, hrel⟩ := runOps_inv conf ops hok
  have hloop := scanRangeLoop_spec (runOps conf ops) k1 k2 hrel (specIndex_sorted ops) [] []
  have hfiltered : ((specIndex ops).filter (fun s => kcInRange s.1 k1 k2)).Pairwise
      (fun a b => itemLess a.1 b.1 = true) :=
    List.Pairwise.filter _ (specIndex_sorted ops)
  have hout := limitOut limit _ hfiltered
  by_cases hany : ((specIndex ops).any (fun s => kcGreater s.1 k2)) = true
  · rw [if_pos hany] at hloop
    rw [Bitcask.scanRangeOptimized, hloop, List.nil_append]
    show (if (ScanErr.exceedEndRange ≠ ScanErr.reachLimit ∧
        ScanErr.exceedEndRange ≠ ScanErr.exceedEndRange) then
        Except.error ScanErr.exceedEndRange
      else Except.ok (limitLoop limit
        (((specIndex ops).filter (fun s => kcInRange s.1 k1 k2)).foldl
          (fun m s => valuesPut s.1 s.2 m) [])
        (sortKeys (((specIndex ops).filter
          (fun s => kcInRange s.1 k1 k2)).map Prod.fst)) 0)) = _
    rw [if_neg (by simp), hout]
  · rw [if_neg hany] at hloop
    rw [Bitcask.scanRangeOptimized, hloop, List.nil_append]
    show Except.ok (limitLoop limit
        (((specIndex ops).filter (fun s => kcInRange s.1 k1 k2)).foldl
          (fun m s => valuesPut s.1 s.2 m) [])
        (sortKeys (((specIndex ops).filter
          (fun s => kcInRange s.1 k1 k2)).map Prod.fst)) 0) = _
    rw [hout]

/-- Claim C9 witness: a concrete one-put history scanned over a range
holding its key, with and without the hypotheses discharged. -/
theorem c9_scan_range_witness :
    (∀ op ∈ [Op.put [1] (some [2])], OpOk op) ∧
      (runOps ⟨1024, 200, true⟩ [Op.put [1] (some [2])]).scanRangeOptimized [0] [5] 0 =
        .ok (if 0 < 0
          then (((specIndex [Op.put [1] (some [2])]).filter
            (fun s => kcInRange s.1 [0] [5])).map (fun s => (s.1, some s.2))).take 0
          else ((specIndex [Op.put [1] (some [2])]).filter
            (fun s => kcInRange s.1 [0] [5])).map (fun s => (s.1, some s.2))) := by
  have h : ∀ op ∈ [Op.put [1] (some [2])], OpOk op := by
    intro op hop
    rw [List.mem_singleton] at hop
    subst hop
    exact ⟨by decide, [2], rfl, by decide⟩
  exact ⟨h, c9_scan_range _ _ _ _ _ h⟩

/-! ## Claim C10: Batch.Commit after a successful Commit -/

/-- A batch: buffered writes (`mp`, keyed by string(key); a nil value
marks a buffered delete), the insertion order (`keys`), and the
captured transaction id.  A consumed buffer (Go `mp = nil`,
`keys = nil`) reads as empty. -/
structure Batch where
  mp : List (List Nat × Option (List Nat))
  keys : List (List Nat)
  txnId : Nat
deriving DecidableEq, Repr

/-- `b.mp[string(key)]` with its presence bit. -/
def bmpGet (k : List Nat) : List (List Nat × Option (List Nat)) → Option (Option (List Nat))
  | [] => none
  | (k2, v) :: t => if k2 = k then some v else bmpGet k t

/-- Bitcask.putTxn: rotate if due, append a TxnPut record under the
txn-id-prefixed key, index the location under the user key. -/
def Bitcask.putTxn (bc : Bitcask) (key value : List Nat) (txnId : Nat) : Bitcask :=
  let bc1 := bc.tryRotate
  let wp := bc1.activeWal.write (newTxnRecord (encodeTxnId txnId key) (some value))
  { bc1 with activeWal := wp.1, memTable := memPut key wp.2 bc1.memTable }

/-- Bitcask.putTxnBegin: rotate if due, append a TxnBegin record; the
index is untouched. -/
def Bitcask.putTxnBegin (bc : Bitcask) (key : List Nat) (txnId : Nat) : Bitcask :=
  let bc1 := bc.tryRotate
  let wp := bc1.activeWal.write (newTxnBegin (encodeTxnId txnId key))
  { bc1 with activeWal := wp.1 }

/-- Bitcask.putTxnCommit: rotate if due, append a TxnCommit record. -/
def Bitcask.putTxnCommit (bc : Bitcask) (key : List Nat) (txnId : Nat) : Bitcask :=
  let bc1 := bc.tryRotate
  let wp := bc1.activeWal.write (newTxnCommit (encodeTxnId txnId key))
  { bc1 with activeWal := wp.1 }

/-- Bitcask.deleteTxn: an unindexed key is a no-op; otherwise rotate
if due, append a TxnDelete record (WriteTxn with nil value) and drop
the index entry. -/
def Bitcask.deleteTxn (bc : Bitcask) (key : List Nat) (txnId : Nat) : Bitcask :=
  match memGet key bc.memTable with
  | none => bc
  | some _ =>
    let bc1 := bc.tryRotate
    let wp := bc1.activeWal.write (newTxnRecord (encodeTxnId txnId key) none)
    { bc1 with activeWal := wp.1, memTable := memDelete key bc1.memTable }

/-- The Commit loop over b.keys: buffered nil values delete, buffered
values put, keys absent from the map are skipped. -/
def commitOps (bc : Bitcask) (mp : List (List Nat × Option (List Nat))) (tid : Nat) :
    List (List Nat) → Bitcask
  | [] => bc
  | k :: t =>
    match bmpGet k mp with
    | none => commitOps bc mp tid t
    | some none => commitOps (bc.deleteTxn k tid) mp tid t
    | some (some v) => commitOps (bc.putTxn k v tid) mp tid t

inductive CommitErr where
  | batchTooLarge   -- "批处理大小超过限制"
deriving DecidableEq, Repr

/-- Batch.Commit: reject a buffer at or beyond BatchSize; an empty
buffer succeeds untouched; otherwise write TxnBegin, the buffered
operations, TxnCommit, bump the engine's txn id and consume the
buffer (mp and keys become nil). -/
def Batch.commit (b : Batch) (db : Bitcask) : Except CommitErr (Batch × Bitcask) :=
  if db.conf.batchSize ≤ b.mp.length then .error .batchTooLarge
  else if b.mp.length = 0 then .ok (b, db)
  else
    let db1 := db.putTxnBegin txnBeginKeyBytes b.txnId
    let db2 := commitOps db1 b.mp b.txnId b.keys
    let db3 := db2.putTxnCommit txnCommitKeyBytes b.txnId
    .ok ({ b with mp := [], keys := [] }, { db3 with txnId := db3.txnId + 1 })

theorem tryRotate_conf (bc : Bitcask) : bc.tryRotate.conf = bc.conf := by
  rw [Bitcask.tryRotate]
  split <;> rfl

theorem putTxn_conf (bc : Bitcask) (k v : List Nat) (tid : Nat) :
    (bc.putTxn k v tid).conf = bc.conf := tryRotate_conf bc

theorem deleteTxn_conf (bc : Bitcask) (k : List Nat) (tid : Nat) :
    (bc.deleteTxn k tid).conf = bc.conf := by
  rw [Bitcask.deleteTxn]
  rcases memGet k bc.memTable with _ | p
  · rfl
  · exact tryRotate_conf bc

theorem commitOps_conf (mp : List (List Nat × Option (List Nat))) (tid : Nat)
    (ks : List (List Nat)) : ∀ bc : Bitcask, (commitOps bc mp tid ks).conf = bc.conf := by
  induction ks with
  | nil => intro bc; rfl
  | cons k t ih =>
    intro bc
    rw [commitOps]
    rcases bmpGet k mp with _ | v
    · exact ih bc
    · rcases v with _ | v2
      · rw [ih, deleteTxn_conf]
      · rw [ih, putTxn_conf]

/-- Claim C10: once a batch's Commit has succeeded, a second Commit
on the resulting batch and engine is a pure no-op: it succeeds and
returns the batch and the engine unchanged — nothing is appended to
any segment, and the index and last-committed transaction id stay as
they are (the first Commit consumed the buffer). -/
theorem c10_commit_idempotent (b : Batch) (db : Bitcask) (b2 : Batch) (db2 : Bitcask)
    (h : b.commit db = .ok (b2, db2)) : b2.commit db2 = .ok (b2, db2) := by
  rw [Batch.commit] at h
  by_cases h1 : db.conf.batchSize ≤ b.mp.length
  · rw [if_pos h1] at h
    exact absurd h (by simp)
  · rw [if_neg h1] at h
    by_cases h2 : b.mp.length = 0
    · rw [if_pos h2] at h
      have hpair : (b, db) = (b2, db2) := by
        injection h
      obtain ⟨rfl, rfl⟩ := Prod.mk.injEq .. ▸ hpair
      rw [Batch.commit, if_neg h1, if_pos h2]
    · rw [if_neg h2] at h
      have hpair : ({ b with mp := [], keys := [] },
          ({ (commitOps (db.putTxnBegin txnBeginKeyBytes b.txnId) b.mp b.txnId
              b.keys).putTxnCommit txnCommitKeyBytes b.txnId with
            txnId := ((commitOps (db.putTxnBegin txnBeginKeyBytes b.txnId) b.mp b.txnId
              b.keys).putTxnCommit txnCommitKeyBytes b.txnId).txnId + 1 } : Bitcask)) =
          (b2, db2) := by
        injection h
      obtain ⟨rfl, rfl⟩ := Prod.mk.injEq .. ▸ hpair
      have hconf : (({ (commitOps (db.putTxnBegin txnBeginKeyBytes b.txnId) b.mp b.txnId
          b.keys).putTxnCommit txnCommitKeyBytes b.txnId with
            txnId := ((commitOps (db.putTxnBegin txnBeginKeyBytes b.txnId) b.mp b.txnId
              b.keys).putTxnCommit txnCommitKeyBytes b.txnId).txnId + 1 } :
          Bitcask)).conf = db.conf := by
        show ((commitOps (db.putTxnBegin txnBeginKeyBytes b.txnId) b.mp b.txnId
          b.keys).putTxnCommit txnCommitKeyBytes b.txnId).conf = db.conf
        rw [show ∀ bc : Bitcask, ∀ k tid, (Bitcask.putTxnCommit bc k tid).conf = bc.conf
          from fun bc k tid => tryRotate_conf bc]
        rw [commitOps_conf]
        show (db.putTxnBegin txnBeginKeyBytes b.txnId).conf = db.conf
        exact tryRotate_conf db
      rw [Batch.commit, hconf]
      rw [if_neg (show ¬ db.conf.batchSize ≤
        (({ b with mp := [], keys := [] } : Batch)).mp.length by
          show ¬ db.conf.batchSize ≤ ([] : List (List Nat × Option (List Nat))).length
          simp
          omega)]
      have hz : (({ b with mp := [], keys := [] } : Batch)).mp.length = 0 := rfl
      rw [if_pos hz]

/-! ## Claim C3: what LoadHint gates at open -/

/-- The hint snapshot on disk: the stored last transaction id followed
by (key, fileId, offset, length) entries. -/
structure HintData where
  txnId : Nat
  entries : List (List Nat × Pos)
deriving DecidableEq, Repr

/-- A data directory: the wal-<id>.log files (id and bytes) and the
optional keys.hint snapshot. -/
structure Disk where
  walFiles : List (Nat × List Nat)
  hint : Option HintData
deriving DecidableEq, Repr

def insertByFid (e : Nat × List Nat) : List (Nat × List Nat) → List (Nat × List Nat)
  | [] => [e]
  | e2 :: t => if e.1 < e2.1 then e :: e2 :: t else e2 :: insertByFid e t

/-- loadWalFiles sorts the collected file ids ascending before
processing. -/
def sortByFid : List (Nat × List Nat) → List (Nat × List Nat)
  | [] => []
  | e :: t => insertByFid e (sortByFid t)

/-- The LoadHint entry loop: each entry is put into the index and
pushes the next file id past the entry's file id. -/
def loadHintFold : List (List Nat × Pos) → Index × Nat → Index × Nat
  | [], st => st
  | (k, p) :: t, (m, fid) =>
    loadHintFold t (memPut k p m, if fid ≤ p.fileId then p.fileId + 1 else fid)

/-- The loadWalFiles per-file loop.  Each file is opened (fresh write
cursor 0); only under `conf.loadHint` is it replayed into the index
(ReadAll) and its cursor set to the file size (UpdateOffset); the last
file becomes the active WAL, the others go to the sealed map. -/
def loadWalLoop (conf : Config) : List (Nat × List Nat) → Bitcask → Except ReplayErr Bitcask
  | [], bc => .ok bc
  | (fid, content) :: t, bc =>
    match ((if conf.loadHint then
        match readAllLoop fid content content.length 0
            ⟨bc.memTable, bc.txnId, [], false, 0⟩ with
        | .error e => .error e
        | .ok (st, _) => .ok (st.mem, st.txnId, (⟨fid, content, 0⟩ : Wal).updateOffset)
      else .ok (bc.memTable, bc.txnId, (⟨fid, content, 0⟩ : Wal))) :
        Except ReplayErr (Index × Nat × Wal)) with
    | .error e => .error e
    | .ok (mem, tx, cur) =>
      match t with
      | [] => .ok { bc with memTable := mem, txnId := tx, activeWal := cur, fileId := fid }
      | _ :: _ => loadWalLoop conf t
          { bc with memTable := mem, txnId := tx, oldWal := bc.oldWal ++ [(fid, cur)] }

/-- NewBitcask on an existing directory: LoadHint runs
unconditionally (seeding index, txn id and next file id from the
snapshot when present), then loadWalFiles, then a fresh active WAL if
no segment existed, then the txn id bump when it is nonzero. -/
def openBitcask (conf : Config) (disk : Disk) : Except ReplayErr Bitcask :=
  let hs := match disk.hint with
    | none => (([] : Index), 0, 0)
    | some hd =>
      let f := loadHintFold hd.entries ([], 0)
      (f.1, hd.txnId, f.2)
  let files := sortByFid disk.walFiles
  let bc1 : Bitcask := ⟨conf, ⟨0, [], 0⟩, [], hs.1, hs.2.2, files.map Prod.fst, hs.2.1⟩
  match loadWalLoop conf files bc1 with
  | .error e => .error e
  | .ok bc2 =>
    let bc3 := if files.isEmpty then { bc2 with activeWal := ⟨bc2.fileId, [], 0⟩ } else bc2
    .ok (if bc3.txnId ≠ 0 then { bc3 with txnId := bc3.txnId + 1 } else bc3)

/-- Claim C3: the claim says load_hint only controls the hint phase
and segments are always replayed.  The code does the opposite: with
load_hint=false a directory whose single segment holds put([1],[2])
opens with an EMPTY index (the segment is opened but never replayed,
ReadAll being inside `if bc.conf.LoadHint`), losing the key; with
load_hint=true the same directory replays and serves the key; and the
hint snapshot is consulted even with load_hint=false (its stored
transaction id seeds the engine and is bumped at open). -/
theorem c3_loadhint_gates_replay :
    openBitcask ⟨1024, 200, false⟩ ⟨[(0, Record.encode ⟨typePut, [1], [2]⟩)], none⟩ =
      .ok ⟨⟨1024, 200, false⟩, ⟨0, Record.encode ⟨typePut, [1], [2]⟩, 0⟩, [],
        [], 0, [0], 0⟩ ∧
    (⟨⟨1024, 200, false⟩, ⟨0, Record.encode ⟨typePut, [1], [2]⟩, 0⟩, [],
        [], 0, [0], 0⟩ : Bitcask).Get [1] = (none, false) ∧
    openBitcask ⟨1024, 200, true⟩ ⟨[(0, Record.encode ⟨typePut, [1], [2]⟩)], none⟩ =
      .ok ⟨⟨1024, 200, true⟩, ⟨0, Record.encode ⟨typePut, [1], [2]⟩, 15⟩, [],
        [([1], ⟨0, 0, 15⟩)], 0, [0], 0⟩ ∧
    (⟨⟨1024, 200, true⟩, ⟨0, Record.encode ⟨typePut, [1], [2]⟩, 15⟩, [],
        [([1], ⟨0, 0, 15⟩)], 0, [0], 0⟩ : Bitcask).Get [1] = (some [2], true) ∧
    openBitcask ⟨1024, 200, false⟩ ⟨[], some ⟨7, []⟩⟩ =
      .ok ⟨⟨1024, 200, false⟩, ⟨0, [], 0⟩, [], [], 0, [], 8⟩ := by
  have hloop : readAllLoop 0 (Record.encode ⟨typePut, [1], [2]⟩)
      (Record.encode ⟨typePut, [1], [2]⟩).length 0 ⟨[], 0, [], false, 0⟩ =
      .ok (⟨[([1], ⟨0, 0, 15⟩)], 0, [], false, 0⟩, 15) := by
    rw [readAllLoop_aligned 0 (properItems [⟨typePut, [1], [2]⟩]) []
      (Record.encode ⟨typePut, [1], [2]⟩) 0 ⟨[], 0, [], false, 0⟩ (by rfl)
      (Nat.zero_le _) (by
        intro e he
        rw [show properItems [⟨typePut, [1], [2]⟩] =
          [(⟨typePut, [1], [2]⟩, be32 (crc32 (Record.body ⟨typePut, [1], [2]⟩)))]
          from rfl, List.mem_singleton] at he
        subst he
        exact ⟨⟨by norm_num [maxKeyLen], by norm_num [maxValueLen],
          by norm_num [typePut]⟩, rfl⟩) (Or.inl (by decide))]
    rfl
  refine ⟨rfl, rfl, ?_, rfl, rfl⟩
  simp only [openBitcask, loadWalLoop, sortByFid, insertByFid, Wal.updateOffset, hloop]
  rfl

/-! ## Claim C6: lock exclusivity at open -/

/-- The process-level file-lock state: the set of lock-file paths some
live engine holds exclusively. -/
structure LockWorld where
  held : List (List Nat)
deriving DecidableEq, Repr

/-- The lock-file path of a data directory (dir + "/bitcask.lock"). -/
def lockPath (dir : List Nat) : List Nat :=
  dir ++ [47, 98, 105, 116, 99, 97, 115, 107, 46, 108, 111, 99, 107]

/-- NewBitcask's entire interaction with the lock: `flock.New(path)`
allocates a handle and nothing else — no Lock or TryLock call exists
anywhere in the open path, so open always succeeds with respect to
locking and the lock state is untouched. -/
def openLock (w : LockWorld) (dir : List Nat) : Bool × LockWorld :=
  (true, w)

/-- Close calls `bc.flock.Unlock()`; unlocking a never-acquired flock
releases the path if held and is a no-op otherwise. -/
def closeLock (w : LockWorld) (dir : List Nat) : LockWorld :=
  ⟨w.held.filter (fun p => p ≠ lockPath dir)⟩

/-- What the spec's words demand of open: take the directory's
exclusive lock, failing fast if another live engine holds it. -/
def specOpenLock (w : LockWorld) (dir : List Nat) : Bool × LockWorld :=
  if lockPath dir ∈ w.held then (false, w)
  else (true, ⟨lockPath dir :: w.held⟩)

/-- Claim C6: the spec demands that a second open of the same data
directory fail fast while the first engine is live.  In the code the
flock is only ever constructed (flock.New) and never acquired, so two
sequential opens of the same directory both succeed and the lock
state never changes — while under the spec's own lock semantics the
second open would be refused. -/
theorem c6_no_lock_at_open (w : LockWorld) (dir : List Nat) :
    (openLock w dir).1 = true ∧
    (openLock (openLock w dir).2 dir).1 = true ∧
    (openLock (openLock w dir).2 dir).2 = w ∧
    closeLock (⟨[]⟩ : LockWorld) dir = ⟨[]⟩ ∧
    (specOpenLock (specOpenLock (⟨[]⟩ : LockWorld) dir).2 dir).1 = false := by
  refine ⟨rfl, rfl, rfl, rfl, ?_⟩
  have h1 : specOpenLock (⟨[]⟩ : LockWorld) dir = (true, ⟨[lockPath dir]⟩) := by
    rw [specOpenLock, if_neg (List.not_mem_nil _)]
  rw [h1, specOpenLock, if_pos (List.mem_cons_self _ _)]

/-- Claim C6 witness: the lock-free open evaluated on a concrete
directory and world. -/
theorem c6_no_lock_at_open_witness :
    (openLock ⟨[[1]]⟩ [2]).1 = true ∧
    (openLock (openLock ⟨[[1]]⟩ [2]).2 [2]).1 = true ∧
    (openLock (openLock ⟨[[1]]⟩ [2]).2 [2]).2 = ⟨[[1]]⟩ ∧
    closeLock (⟨[]⟩ : LockWorld) [2] = ⟨[]⟩ ∧
    (specOpenLock (specOpenLock (⟨[]⟩ : LockWorld) [2]).2 [2]).1 = false :=
  c6_no_lock_at_open ⟨[[1]]⟩ [2]

/-! ## Claim C4: the index-entry invariant -/

/-- Rotated file ids stay below the engine's current file id. -/
def FileIdsLt (bc : Bitcask) : Prop := ∀ i ∈ bc.fileIds, i < bc.fileId

/-- The per-entry invariant: the entry's location stores either a
plain Put record of the entry's key, or a TxnPut record whose key is
the entry's key under its 4-byte txn-id prefix (a batch-committed
write); either way within the codec caps, so the location reads back
as a non-tombstone record carrying the entry's key. -/
def C4Entry (bc : Bitcask) (e : List Nat × Pos) : Prop :=
  (∃ v, e.1.length ≤ maxKeyLen ∧ v.length ≤ maxValueLen ∧
    PosVal bc e.2 ⟨typePut, e.1, v⟩) ∨
  (∃ tid v, 4 + e.1.length ≤ maxKeyLen ∧ v.length ≤ maxValueLen ∧
    PosVal bc e.2 ⟨typeTxnPut, encodeTxnId tid e.1, v⟩)

/-- The reachable-state invariant behind claim C4. -/
def C4Inv (bc : Bitcask) : Prop :=
  OldIdsLt bc ∧ ActiveWf bc ∧ FileIdsLt bc ∧ IndexSorted bc.memTable ∧
    ∀ e ∈ bc.memTable, C4Entry bc e

/-- The Merge traversal: for each index entry resolve its segment,
read the record back, and re-Put the key with the read value; a
missing segment or failed read aborts the traversal (Merge returns
the error), leaving the partially merged engine. -/
def mergeFold : List (List Nat × Pos) → Bitcask → Bitcask × Bool
  | [], bc => (bc, true)
  | (k, pos) :: t, bc =>
    match bc.walFor pos.fileId with
    | none => (bc, false)
    | some w =>
      match w.readPos pos with
      | .error _ => (bc, false)
      | .ok rec => mergeFold t (bc.put k (some rec.value))

/-- Bitcask.Merge: stash and clear fileIds, force a rotation, rewrite
every index entry through the normal Put path, then — only when the
traversal succeeded — delete the stashed old segment files from the
sealed map. -/
def Bitcask.mergeOp (bc : Bitcask) : Bitcask :=
  let oldFileIds := bc.fileIds
  let bc1 := ({ bc with fileIds := ([] : List Nat) } : Bitcask).mustRotate
  match mergeFold bc1.memTable bc1 with
  | (bc2, false) => bc2
  | (bc2, true) =>
    { bc2 with oldWal := bc2.oldWal.filter (fun e => decide (¬ e.1 ∈ oldFileIds)) }

/-- The engine operations of claim C4 as runnable history steps: put,
delete, a batch Commit of a buffered map in its insertion order (the
batch captures the engine's txn id, as NewBatch does), and Merge. -/
inductive EngOp where
  | put (k : List Nat) (v : Option (List Nat))
  | del (k : List Nat)
  | commit (mp : List (List Nat × Option (List Nat))) (keys : List (List Nat))
  | merge

def applyEngOp (bc : Bitcask) : EngOp → Bitcask
  | .put k v => bc.put k v
  | .del k => bc.delete k
  | .commit mp keys =>
    match Batch.commit ⟨mp, keys, bc.txnId⟩ bc with
    | .error _ => bc
    | .ok (_, db2) => db2
  | .merge => bc.mergeOp

def runEngOps (conf : Config) (ops : List EngOp) : Bitcask :=
  ops.foldl applyEngOp (freshBitcask conf)

/-- Side conditions: puts carry non-nil values within the caps, and
batch buffers hold capped entries (their keys gain the 4-byte txn-id
prefix on disk). -/
def EngOpOk : EngOp → Prop
  | .put k v => k.length ≤ maxKeyLen ∧ ∃ w, v = some w ∧ w.length ≤ maxValueLen
  | .del _ => True
  | .commit mp _ => ∀ e ∈ mp, OpEntryCaps e
  | .merge => True

theorem C4Entry_mono {b1 b2 : Bitcask} (hext : walExtends b1 b2) {e}
    (h : C4Entry b1 e) : C4Entry b2 e := by
  rcases h with ⟨v, hk, hv, hp⟩ | ⟨tid, v, hk, hv, hp⟩
  · exact Or.inl ⟨v, hk, hv, PosVal_mono hext hp⟩
  · exact Or.inr ⟨tid, v, hk, hv, PosVal_mono hext hp⟩

/-- memPut on a sorted table: every resulting entry is the new pair or
an old entry with a different key. -/
theorem mem_memPut_sorted {A : Type} {m : List (List Nat × A)} (hs : IndexSorted m)
    (k : List Nat) (p : A) :
    ∀ e ∈ memPut k p m, e = (k, p) ∨ (e ∈ m ∧ ¬ e.1 = k) := by
  induction m with
  | nil =>
    intro e he
    rw [memPut, List.mem_singleton] at he
    exact Or.inl he
  | cons hd t ih =>
    obtain ⟨k2, p2⟩ := hd
    rw [IndexSorted, List.pairwise_cons] at hs
    obtain ⟨hhead, htail⟩ := hs
    intro e he
    rw [memPut] at he
    by_cases h1 : itemLess k k2 = true
    · rw [if_pos h1] at he
      rcases List.mem_cons.1 he with rfl | he2
      · exact Or.inl rfl
      · refine Or.inr ⟨he2, ?_⟩
        have hlt : itemLess k e.1 = true := by
          rcases List.mem_cons.1 he2 with rfl | he3
          · exact h1
          · exact itemLess_trans h1 (hhead e he3)
        intro hc
        rw [hc, itemLess_irrefl] at hlt
        exact Bool.false_ne_true hlt
    · rw [if_neg h1] at he
      by_cases h2 : itemLess k2 k = true
      · rw [if_pos h2] at he
        rcases List.mem_cons.1 he with rfl | he2
        · refine Or.inr ⟨List.mem_cons_self _ _, ?_⟩
          intro hc
          rw [show (k2, p2).1 = k2 from rfl] at hc
          rw [hc, itemLess_irrefl] at h2
          exact Bool.false_ne_true h2
        · rcases ih htail e he2 with h | ⟨hm, hne⟩
          · exact Or.inl h
          · exact Or.inr ⟨List.mem_cons_of_mem _ hm, hne⟩
      · rw [if_neg h2] at he
        have hk2 : k = k2 :=
          itemLess_total (Bool.eq_false_iff.2 h1) (Bool.eq_false_iff.2 h2)
        rcases List.mem_cons.1 he with rfl | he2
        · exact Or.inl rfl
        · refine Or.inr ⟨List.mem_cons_of_mem _ he2, ?_⟩
          have hgt := hhead e he2
          intro hc
          rw [hc, show ((k2, p2).1 : List Nat) = k2 from rfl, ← hk2,
            itemLess_irrefl] at hgt
          exact Bool.false_ne_true hgt

theorem bmpGet_mem {k : List Nat} {v : Option (List Nat)}
    {mp : List (List Nat × Option (List Nat))}
    (h : bmpGet k mp = some v) : (k, v) ∈ mp := by
  induction mp with
  | nil => simp [bmpGet] at h
  | cons hd t ih =>
    obtain ⟨k2, v2⟩ := hd
    rw [bmpGet] at h
    by_cases hk : k2 = k
    · rw [if_pos hk] at h
      subst hk
      rw [Option.some.injEq] at h
      subst h
      exact List.mem_cons_self _ _
    · rw [if_neg hk] at h
      exact List.mem_cons_of_mem _ (ih h)

theorem assocFind_filter {fid : Nat} (p : Nat × Wal → Bool)
    (hp : ∀ w : Wal, p (fid, w) = true) :
    ∀ l : List (Nat × Wal), assocFind fid (l.filter p) = assocFind fid l := by
  intro l
  induction l with
  | nil => rfl
  | cons hd t ih =>
    obtain ⟨i, w⟩ := hd
    by_cases hkeep : p (i, w) = true
    · rw [List.filter_cons_of_pos hkeep, assocFind, assocFind, ih]
    · have hne : i ≠ fid := by
        intro hc
        subst hc
        exact hkeep (hp w)
      rw [List.filter_cons_of_neg (by simp [hkeep]), assocFind, if_neg hne, ih]

theorem tryRotate_fileId_ge (bc : Bitcask) : bc.fileId ≤ bc.tryRotate.fileId := by
  rw [Bitcask.tryRotate]
  split
  · exact le_rfl
  · exact Nat.le_succ _

theorem mustRotate_fileIdsLt {bc : Bitcask} (h : FileIdsLt bc) :
    FileIdsLt bc.mustRotate := by
  intro i hi
  rw [Bitcask.mustRotate] at hi ⊢
  rcases List.mem_append.1 hi with h2 | h2
  · exact Nat.lt_succ_of_lt (h i h2)
  · rw [List.mem_singleton] at h2
    subst h2
    exact Nat.lt_succ_self _

theorem tryRotate_fileIdsLt {bc : Bitcask} (h : FileIdsLt bc) :
    FileIdsLt bc.tryRotate := by
  rw [Bitcask.tryRotate]
  split
  · exact h
  · exact mustRotate_fileIdsLt h

theorem c4_mustRotate {bc : Bitcask} (h : C4Inv bc) : C4Inv bc.mustRotate := by
  obtain ⟨ho, hw, hf, hsrt, hent⟩ := h
  refine ⟨mustRotate_oldIdsLt ho, mustRotate_activeWf bc, mustRotate_fileIdsLt hf,
    hsrt, ?_⟩
  intro e he
  exact C4Entry_mono (mustRotate_walExtends ho) (hent e he)

theorem c4_tryRotate {bc : Bitcask} (h : C4Inv bc) : C4Inv bc.tryRotate := by
  rw [Bitcask.tryRotate]
  split
  · exact h
  · exact c4_mustRotate h

theorem decode_put (k v : List Nat) (hk : k.length ≤ maxKeyLen)
    (hv : v.length ≤ maxValueLen) :
    decodeRecord (Record.encode ⟨typePut, k, v⟩) = .ok ⟨typePut, k, v⟩ := by
  rw [decodeRecord_encode _ hk hv]
  norm_num [typePut, typeTxnPut, typeTxnDelete]

theorem decode_txnPut (tid : Nat) (k v : List Nat)
    (hk : 4 + k.length ≤ maxKeyLen) (hv : v.length ≤ maxValueLen) :
    decodeRecord (Record.encode ⟨typeTxnPut, encodeTxnId tid k, v⟩) =
      .ok ⟨typeTxnPut, k, v⟩ := by
  have hklen : (⟨typeTxnPut, encodeTxnId tid k, v⟩ : Record).key.length ≤ maxKeyLen := by
    show (encodeTxnId tid k).length ≤ maxKeyLen
    rw [encodeTxnId, List.length_append, be32_length]
    omega
  rw [decodeRecord_encode _ hklen hv]
  rw [if_pos (Or.inl (show (typeTxnPut : Nat) % 256 = typeTxnPut from rfl))]
  rw [if_neg (show ¬ (⟨typeTxnPut, encodeTxnId tid k, v⟩ : Record).key.length < 4 by
    show ¬ (encodeTxnId tid k).length < 4
    rw [encodeTxnId, List.length_append, be32_length]
    omega)]
  have hdrop : (⟨typeTxnPut, encodeTxnId tid k, v⟩ : Record).key.drop 4 = k := by
    show (encodeTxnId tid k).drop 4 = k
    rw [encodeTxnId, show (4 : Nat) = (be32 tid).length from (be32_length tid).symm,
      List.drop_left]
  rw [hdrop]
  rfl

/-- Put with a non-nil capped value: the invariant is preserved, the
segments only grow, the file id never shrinks, and every resulting
entry is the freshly written one (referencing the current active
file) or an untouched entry of another key. -/
theorem put_step {bc : Bitcask} (hI : C4Inv bc) (k v : List Nat)
    (hk : k.length ≤ maxKeyLen) (hv : v.length ≤ maxValueLen) :
    C4Inv (bc.put k (some v)) ∧ walExtends bc (bc.put k (some v)) ∧
      bc.fileId ≤ (bc.put k (some v)).fileId ∧
      ∀ e ∈ (bc.put k (some v)).memTable,
        (e.1 = k ∧ e.2.fileId = (bc.put k (some v)).fileId) ∨
          (e ∈ bc.memTable ∧ ¬ e.1 = k) := by
  obtain ⟨ho, hw, hf, hsrt, hent⟩ := hI
  have ho1 := tryRotate_oldIdsLt ho
  have hw1 := tryRotate_activeWf hw
  have hf1 := tryRotate_fileIdsLt hf
  have hext1 : walExtends bc bc.tryRotate := tryRotate_walExtends ho
  have hsrt1 : IndexSorted bc.tryRotate.memTable := by
    rw [tryRotate_memTable]
    exact hsrt
  have hextw : walExtends bc.tryRotate (bc.put k (some v)) :=
    write_walExtends bc.tryRotate (newRecord k (some v))
      (memPut k (bc.tryRotate.activeWal.write (newRecord k (some v))).2
        bc.tryRotate.memTable)
  have hext : walExtends bc (bc.put k (some v)) := walExtends_trans hext1 hextw
  have hdesc : ∀ e ∈ (bc.put k (some v)).memTable,
      (e.1 = k ∧ e.2.fileId = (bc.put k (some v)).fileId) ∨
        (e ∈ bc.memTable ∧ ¬ e.1 = k) := by
    intro e he
    rcases mem_memPut_sorted hsrt1 k
      ((bc.tryRotate.activeWal.write (newRecord k (some v))).2) e he with rfl | ⟨hm, hne⟩
    · exact Or.inl ⟨rfl, hw1.1⟩
    · rw [tryRotate_memTable] at hm
      exact Or.inr ⟨hm, hne⟩
  refine ⟨⟨?_, ?_, ?_, ?_, ?_⟩, hext, ?_, hdesc⟩
  · exact write_oldIdsLt ho1 (newRecord k (some v)) _
  · exact write_activeWf hw1 (newRecord k (some v)) _
  · exact hf1
  · exact memPut_sorted k _ hsrt1
  · intro e he
    rcases mem_memPut_sorted hsrt1 k
      ((bc.tryRotate.activeWal.write (newRecord k (some v))).2) e he with rfl | ⟨hm, hne⟩
    · exact Or.inl ⟨v, hk, hv, write_posVal hw1 (newRecord k (some v)) _⟩
    · rw [tryRotate_memTable] at hm
      exact C4Entry_mono hext (hent e hm)
  · exact tryRotate_fileId_ge bc

/-- Delete preserves the invariant: an absent key is a no-op, a
present key appends a tombstone and only removes the entry. -/
theorem delete_step {bc : Bitcask} (hI : C4Inv bc) (k : List Nat) :
    C4Inv (bc.delete k) ∧ walExtends bc (bc.delete k) := by
  obtain ⟨ho, hw, hf, hsrt, hent⟩ := hI
  rcases hmg : memGet k bc.memTable with _ | pos
  · have hdel : bc.delete k = bc := by rw [Bitcask.delete, hmg]
    rw [hdel]
    exact ⟨⟨ho, hw, hf, hsrt, hent⟩, walExtends_refl bc⟩
  · have hdel : bc.delete k = { bc.tryRotate with
        activeWal := (bc.tryRotate.activeWal.write (newRecord k none)).1,
        memTable := memDelete k bc.tryRotate.memTable } := by
      rw [Bitcask.delete, hmg]
    rw [hdel]
    have ho1 := tryRotate_oldIdsLt ho
    have hw1 := tryRotate_activeWf hw
    have hf1 := tryRotate_fileIdsLt hf
    have hsrt1 : IndexSorted bc.tryRotate.memTable := by
      rw [tryRotate_memTable]
      exact hsrt
    have hext : walExtends bc { bc.tryRotate with
        activeWal := (bc.tryRotate.activeWal.write (newRecord k none)).1,
        memTable := memDelete k bc.tryRotate.memTable } :=
      walExtends_trans (tryRotate_walExtends ho) (write_walExtends _ _ _)
    refine ⟨⟨write_oldIdsLt ho1 _ _, write_activeWf hw1 _ _, hf1,
      memDelete_sorted hsrt1, ?_⟩, hext⟩
    intro e he
    have hm : e ∈ bc.tryRotate.memTable := (memDelete_sublist k _).subset he
    rw [tryRotate_memTable] at hm
    exact C4Entry_mono hext (hent e hm)

/-- A transactional put inside Commit: the new entry references the
TxnPut record whose key carries the txn-id prefix. -/
theorem putTxn_step {bc : Bitcask} (hI : C4Inv bc) (k v : List Nat) (tid : Nat)
    (hk : 4 + k.length ≤ maxKeyLen) (hv : v.length ≤ maxValueLen) :
    C4Inv (bc.putTxn k v tid) ∧ walExtends bc (bc.putTxn k v tid) := by
  obtain ⟨ho, hw, hf, hsrt, hent⟩ := hI
  have ho1 := tryRotate_oldIdsLt ho
  have hw1 := tryRotate_activeWf hw
  have hf1 := tryRotate_fileIdsLt hf
  have hsrt1 : IndexSorted bc.tryRotate.memTable := by
    rw [tryRotate_memTable]
    exact hsrt
  have hext : walExtends bc (bc.putTxn k v tid) :=
    walExtends_trans (tryRotate_walExtends ho)
      (write_walExtends bc.tryRotate (newTxnRecord (encodeTxnId tid k) (some v))
        (memPut k
          (bc.tryRotate.activeWal.write (newTxnRecord (encodeTxnId tid k) (some v))).2
          bc.tryRotate.memTable))
  refine ⟨⟨write_oldIdsLt ho1 _ _, write_activeWf hw1 _ _, hf1,
    memPut_sorted k _ hsrt1, ?_⟩, hext⟩
  intro e he
  rcases mem_memPut_sorted hsrt1 k
    ((bc.tryRotate.activeWal.write (newTxnRecord (encodeTxnId tid k) (some v))).2)
    e he with rfl | ⟨hm, hne⟩
  · exact Or.inr ⟨tid, v, hk, hv,
      write_posVal hw1 (newTxnRecord (encodeTxnId tid k) (some v)) _⟩
  · rw [tryRotate_memTable] at hm
    exact C4Entry_mono hext (hent e hm)

/-- A transactional delete inside Commit: no-op on an absent key,
otherwise a TxnDelete append plus entry removal. -/
theorem deleteTxn_step {bc : Bitcask} (hI : C4Inv bc) (k : List Nat) (tid : Nat) :
    C4Inv (bc.deleteTxn k tid) ∧ walExtends bc (bc.deleteTxn k tid) := by
  obtain ⟨ho, hw, hf, hsrt, hent⟩ := hI
  rcases hmg : memGet k bc.memTable with _ | pos
  · have hdel : bc.deleteTxn k tid = bc := by rw [Bitcask.deleteTxn, hmg]
    rw [hdel]
    exact ⟨⟨ho, hw, hf, hsrt, hent⟩, walExtends_refl bc⟩
  · have hdel : bc.deleteTxn k tid = { bc.tryRotate with
        activeWal :=
          (bc.tryRotate.activeWal.write (newTxnRecord (encodeTxnId tid k) none)).1,
        memTable := memDelete k bc.tryRotate.memTable } := by
      rw [Bitcask.deleteTxn, hmg]
    rw [hdel]
    have ho1 := tryRotate_oldIdsLt ho
    have hw1 := tryRotate_activeWf hw
    have hf1 := tryRotate_fileIdsLt hf
    have hsrt1 : IndexSorted bc.tryRotate.memTable := by
      rw [tryRotate_memTable]
      exact hsrt
    have hext : walExtends bc { bc.tryRotate with
        activeWal :=
          (bc.tryRotate.activeWal.write (newTxnRecord (encodeTxnId tid k) none)).1,
        memTable := memDelete k bc.tryRotate.memTable } :=
      walExtends_trans (tryRotate_walExtends ho) (write_walExtends _ _ _)
    refine ⟨⟨write_oldIdsLt ho1 _ _, write_activeWf hw1 _ _, hf1,
      memDelete_sorted hsrt1, ?_⟩, hext⟩
    intro e he
    have hm : e ∈ bc.tryRotate.memTable := (memDelete_sublist k _).subset he
    rw [tryRotate_memTable] at hm
    exact C4Entry_mono hext (hent e hm)

/-- TxnBegin marker append: the index is untouched. -/
theorem putTxnBegin_step {bc : Bitcask} (hI : C4Inv bc) (kb : List Nat) (tid : Nat) :
    C4Inv (bc.putTxnBegin kb tid) ∧ walExtends bc (bc.putTxnBegin kb tid) := by
  obtain ⟨ho, hw, hf, hsrt, hent⟩ := hI
  have ho1 := tryRotate_oldIdsLt ho
  have hw1 := tryRotate_activeWf hw
  have hf1 := tryRotate_fileIdsLt hf
  have hsrt1 : IndexSorted bc.tryRotate.memTable := by
    rw [tryRotate_memTable]
    exact hsrt
  have hext : walExtends bc (bc.putTxnBegin kb tid) :=
    walExtends_trans (tryRotate_walExtends ho)
      (write_walExtends bc.tryRotate (newTxnBegin (encodeTxnId tid kb))
        bc.tryRotate.memTable)
  refine ⟨⟨write_oldIdsLt ho1 _ _, write_activeWf hw1 _ _, hf1, hsrt1, ?_⟩, hext⟩
  intro e he
  have hm : e ∈ bc.tryRotate.memTable := he
  rw [tryRotate_memTable] at hm
  exact C4Entry_mono hext (hent e hm)

/-- TxnCommit marker append: the index is untouched. -/
theorem putTxnCommit_step {bc : Bitcask} (hI : C4Inv bc) (kb : List Nat) (tid : Nat) :
    C4Inv (bc.putTxnCommit kb tid) ∧ walExtends bc (bc.putTxnCommit kb tid) := by
  obtain ⟨ho, hw, hf, hsrt, hent⟩ := hI
  have ho1 := tryRotate_oldIdsLt ho
  have hw1 := tryRotate_activeWf hw
  have hf1 := tryRotate_fileIdsLt hf
  have hsrt1 : IndexSorted bc.tryRotate.memTable := by
    rw [tryRotate_memTable]
    exact hsrt
  have hext : walExtends bc (bc.putTxnCommit kb tid) :=
    walExtends_trans (tryRotate_walExtends ho)
      (write_walExtends bc.tryRotate (newTxnCommit (encodeTxnId tid kb))
        bc.tryRotate.memTable)
  refine ⟨⟨write_oldIdsLt ho1 _ _, write_activeWf hw1 _ _, hf1, hsrt1, ?_⟩, hext⟩
  intro e he
  have hm : e ∈ bc.tryRotate.memTable := he
  rw [tryRotate_memTable] at hm
  exact C4Entry_mono hext (hent e hm)

/-- The last-committed-txn-id bump touches nothing the invariant
speaks about. -/
theorem c4_txnId {bc : Bitcask} (h : C4Inv bc) (n : Nat) :
    C4Inv { bc with txnId := n } := by
  obtain ⟨ho, hw, hf, hsrt, hent⟩ := h
  refine ⟨ho, hw, hf, hsrt, ?_⟩
  intro e he
  rcases hent e he with ⟨v, hk, hv, w, hwal, hb, hsl⟩ | ⟨tid, v, hk, hv, w, hwal, hb, hsl⟩
  · exact Or.inl ⟨v, hk, hv, w, hwal, hb, hsl⟩
  · exact Or.inr ⟨tid, v, hk, hv, w, hwal, hb, hsl⟩

/-- The Commit loop over the buffered keys preserves the invariant. -/
theorem commitOps_step (mp : List (List Nat × Option (List Nat)))
    (hmp : ∀ e ∈ mp, OpEntryCaps e) (tid : Nat) (ks : List (List Nat)) :
    ∀ bc : Bitcask, C4Inv bc → C4Inv (commitOps bc mp tid ks) := by
  induction ks with
  | nil =>
    intro bc h
    exact h
  | cons k t ih =>
    intro bc h
    rcases hbg : bmpGet k mp with _ | v
    · have hco : commitOps bc mp tid (k :: t) = commitOps bc mp tid t := by
        rw [commitOps, hbg]
      rw [hco]
      exact ih bc h
    · rcases v with _ | v2
      · have hco : commitOps bc mp tid (k :: t) =
            commitOps (bc.deleteTxn k tid) mp tid t := by
          rw [commitOps, hbg]
        rw [hco]
        exact ih _ (deleteTxn_step h k tid).1
      · have hmem := bmpGet_mem hbg
        have hcaps := hmp _ hmem
        have hco : commitOps bc mp tid (k :: t) =
            commitOps (bc.putTxn k v2 tid) mp tid t := by
          rw [commitOps, hbg]
        rw [hco]
        exact ih _ (putTxn_step h k v2 tid hcaps.1 (hcaps.2 v2 rfl)).1

/-- A successful Batch.Commit preserves the invariant: TxnBegin, one
capped buffered operation per key, TxnCommit, txn-id bump. -/
theorem c4_commit {bc : Bitcask} (hI : C4Inv bc)
    {mp : List (List Nat × Option (List Nat))} {keys : List (List Nat)} {tid : Nat}
    {b2 : Batch} {db2 : Bitcask}
    (h : Batch.commit ⟨mp, keys, tid⟩ bc = .ok (b2, db2))
    (hmp : ∀ e ∈ mp, OpEntryCaps e) : C4Inv db2 := by
  rw [Batch.commit] at h
  by_cases h1 : bc.conf.batchSize ≤ mp.length
  · rw [if_pos h1] at h
    exact absurd h (by simp)
  · rw [if_neg h1] at h
    by_cases h2 : mp.length = 0
    · rw [if_pos h2] at h
      have hpair : ((⟨mp, keys, tid⟩ : Batch), bc) = (b2, db2) := by
        injection h
      obtain ⟨-, rfl⟩ := Prod.mk.injEq .. ▸ hpair
      exact hI
    · rw [if_neg h2] at h
      have hpair : ((⟨[], [], tid⟩ : Batch),
          ({ (commitOps (bc.putTxnBegin txnBeginKeyBytes tid) mp tid
              keys).putTxnCommit txnCommitKeyBytes tid with
            txnId := ((commitOps (bc.putTxnBegin txnBeginKeyBytes tid) mp tid
              keys).putTxnCommit txnCommitKeyBytes tid).txnId + 1 } : Bitcask)) =
          (b2, db2) := by
        injection h
      obtain ⟨-, rfl⟩ := Prod.mk.injEq .. ▸ hpair
      exact c4_txnId
        (putTxnCommit_step
          (commitOps_step mp hmp tid keys _ (putTxnBegin_step hI txnBeginKeyBytes tid).1)
          txnCommitKeyBytes tid).1 _

/-- Resolving a segment id that the old-map filter keeps is unchanged
by the filter. -/
theorem walFor_filter_oldWal (bc : Bitcask) (p : Nat × Wal → Bool) (fid : Nat)
    (hp : ∀ w : Wal, p (fid, w) = true) :
    ({ bc with oldWal := bc.oldWal.filter p } : Bitcask).walFor fid = bc.walFor fid := by
  rw [Bitcask.walFor, Bitcask.walFor]
  by_cases hfid : fid = bc.fileId
  · rw [if_pos hfid, if_pos hfid]
  · rw [if_neg hfid, if_neg hfid]
    exact assocFind_filter p hp bc.oldWal

/-- The Merge traversal preserves the invariant, never lowers the file
id, and — when it completes — leaves every index entry referencing a
segment at or above the starting file id (each entry was re-put into
the then-active segment). -/
theorem mergeFold_inv (id0 : Nat) (L : List (List Nat × Pos)) :
    ∀ bc : Bitcask, C4Inv bc → id0 ≤ bc.fileId →
      (∀ e ∈ L, C4Entry bc e) →
      (∀ e ∈ bc.memTable, id0 ≤ e.2.fileId ∨ ∃ p, (e.1, p) ∈ L) →
      C4Inv (mergeFold L bc).1 ∧ id0 ≤ (mergeFold L bc).1.fileId ∧
        ((mergeFold L bc).2 = true →
          ∀ e ∈ (mergeFold L bc).1.memTable, id0 ≤ e.2.fileId) := by
  induction L with
  | nil =>
    intro bc hI hid hsnap hfresh
    refine ⟨hI, hid, ?_⟩
    intro _ e he
    rcases hfresh e he with h | ⟨p, hp⟩
    · exact h
    · exact absurd hp (List.not_mem_nil _)
  | cons hd t ih =>
    obtain ⟨k, pos⟩ := hd
    intro bc hI hid hsnap hfresh
    have hC : C4Entry bc (k, pos) := hsnap (k, pos) (List.mem_cons_self _ _)
    rcases hC with ⟨v, hk, hv, hpv⟩ | ⟨tid, v, hk4, hv, hpv⟩
    · have hk2 : k.length ≤ maxKeyLen := hk
      have hv2 : v.length ≤ maxValueLen := hv
      have hpv2 : PosVal bc pos ⟨typePut, k, v⟩ := hpv
      obtain ⟨w, hwal, hb, hsl⟩ := hpv2
      have hrp : w.readPos pos = .ok ⟨typePut, k, v⟩ := by
        rw [readPos_of_slice hb hsl, decode_put k v hk2 hv2]
      have hstep : mergeFold ((k, pos) :: t) bc = mergeFold t (bc.put k (some v)) := by
        simp only [mergeFold, hwal, hrp]
      rw [hstep]
      obtain ⟨hI', hext', hfid', hdesc⟩ := put_step hI k v hk2 hv2
      refine ih (bc.put k (some v)) hI' (le_trans hid hfid')
        (fun e he2 => C4Entry_mono hext' (hsnap e (List.mem_cons_of_mem _ he2)))
        (fun e he2 => ?_)
      rcases hdesc e he2 with ⟨hek, hef⟩ | ⟨hm, hne⟩
      · exact Or.inl (by rw [hef]; exact le_trans hid hfid')
      · rcases hfresh e hm with hfr | ⟨p, hp⟩
        · exact Or.inl hfr
        · refine Or.inr ⟨p, ?_⟩
          rcases List.mem_cons.1 hp with hpe | hpt
          · have hke : e.1 = k := congrArg Prod.fst hpe
            exact absurd hke hne
          · exact hpt
    · have hk2 : k.length ≤ maxKeyLen := by
        have h4 : 4 + k.length ≤ maxKeyLen := hk4
        omega
      have hv2 : v.length ≤ maxValueLen := hv
      have hk42 : 4 + k.length ≤ maxKeyLen := hk4
      have hpv2 : PosVal bc pos ⟨typeTxnPut, encodeTxnId tid k, v⟩ := hpv
      obtain ⟨w, hwal, hb, hsl⟩ := hpv2
      have hrp : w.readPos pos = .ok ⟨typeTxnPut, k, v⟩ := by
        rw [readPos_of_slice hb hsl, decode_txnPut tid k v hk42 hv2]
      have hstep : mergeFold ((k, pos) :: t) bc = mergeFold t (bc.put k (some v)) := by
        simp only [mergeFold, hwal, hrp]
      rw [hstep]
      obtain ⟨hI', hext', hfid', hdesc⟩ := put_step hI k v hk2 hv2
      refine ih (bc.put k (some v)) hI' (le_trans hid hfid')
        (fun e he2 => C4Entry_mono hext' (hsnap e (List.mem_cons_of_mem _ he2)))
        (fun e he2 => ?_)
      rcases hdesc e he2 with ⟨hek, hef⟩ | ⟨hm, hne⟩
      · exact Or.inl (by rw [hef]; exact le_trans hid hfid')
      · rcases hfresh e hm with hfr | ⟨p, hp⟩
        · exact Or.inl hfr
        · refine Or.inr ⟨p, ?_⟩
          rcases List.mem_cons.1 hp with hpe | hpt
          · have hke : e.1 = k := congrArg Prod.fst hpe
            exact absurd hke hne
          · exact hpt

theorem merge_core (bc1 : Bitcask) (hI1 : C4Inv bc1) (oldIds : List Nat)
    (hids : ∀ i ∈ oldIds, i < bc1.fileId) :
    C4Inv (match mergeFold bc1.memTable bc1 with
      | (bc2, false) => bc2
      | (bc2, true) =>
        { bc2 with oldWal := bc2.oldWal.filter (fun e => decide (¬ e.1 ∈ oldIds)) }) := by
  obtain ⟨hI2, hid2, hfr2⟩ := mergeFold_inv bc1.fileId bc1.memTable bc1 hI1 le_rfl
    hI1.2.2.2.2 (fun e he => Or.inr ⟨e.2, he⟩)
  rcases hmf : mergeFold bc1.memTable bc1 with ⟨bc2, flag⟩
  rw [hmf] at hI2 hid2 hfr2
  cases flag with
  | false => exact hI2
  | true =>
    have hfr := hfr2 rfl
    obtain ⟨ho2, hw2, hf2, hsrt2, hent2⟩ := hI2
    refine ⟨?_, hw2, hf2, hsrt2, ?_⟩
    · intro p hp
      exact ho2 p (List.mem_of_mem_filter hp)
    · intro e he
      have hfid : bc1.fileId ≤ e.2.fileId := hfr e he
      have hnot : ∀ w' : Wal,
          (fun e2 : Nat × Wal => decide (¬ e2.1 ∈ oldIds)) (e.2.fileId, w') = true := by
        intro w'
        rw [decide_eq_true_eq]
        intro hin
        have := hids _ hin
        omega
      rcases hent2 e he with ⟨v, hk, hv, w, hwal, hb, hsl⟩ |
        ⟨tid, v, hk, hv, w, hwal, hb, hsl⟩
      · refine Or.inl ⟨v, hk, hv, w, ?_, hb, hsl⟩
        rw [walFor_filter_oldWal bc2 _ e.2.fileId hnot]
        exact hwal
      · refine Or.inr ⟨tid, v, hk, hv, w, ?_, hb, hsl⟩
        rw [walFor_filter_oldWal bc2 _ e.2.fileId hnot]
        exact hwal

/-- Merge preserves the invariant: every entry is rewritten through the
normal Put path into fresh segments before the stashed old segment
files are deleted; an aborted traversal deletes nothing. -/
theorem merge_step {bc : Bitcask} (hI : C4Inv bc) : C4Inv bc.mergeOp := by
  obtain ⟨ho, hw, hf, hsrt, hent⟩ := hI
  have hI0 : C4Inv ({ bc with fileIds := ([] : List Nat) } : Bitcask) := by
    refine ⟨ho, hw, ?_, hsrt, ?_⟩
    · intro i hi
      exact absurd hi (List.not_mem_nil i)
    · intro e he
      rcases hent e he with ⟨v, hk, hv, hpv⟩ | ⟨tid, v, hk, hv, hpv⟩
      · exact Or.inl ⟨v, hk, hv, hpv⟩
      · exact Or.inr ⟨tid, v, hk, hv, hpv⟩
  have hI1 : C4Inv ({ bc with fileIds := ([] : List Nat) } : Bitcask).mustRotate :=
    c4_mustRotate hI0
  have hids : ∀ i ∈ bc.fileIds,
      i < ({ bc with fileIds := ([] : List Nat) } : Bitcask).mustRotate.fileId := by
    intro i hi
    have h1 : i < bc.fileId := hf i hi
    have h2 : ({ bc with fileIds := ([] : List Nat) } : Bitcask).mustRotate.fileId =
        bc.fileId + 1 := rfl
    omega
  exact merge_core _ hI1 bc.fileIds hids

theorem runEngOps_append (conf : Config) (ops : List EngOp) (op : EngOp) :
    runEngOps conf (ops ++ [op]) = applyEngOp (runEngOps conf ops) op := by
  rw [runEngOps, runEngOps, List.foldl_append, List.foldl_cons, List.foldl_nil]

/-- Every reachable state of a put/delete/commit/merge history with
capped inputs satisfies the index-entry invariant. -/
theorem c4_inv (conf : Config) (ops : List EngOp)
    (hok : ∀ op ∈ ops, EngOpOk op) : C4Inv (runEngOps conf ops) := by
  induction ops using List.reverseRecOn with
  | nil =>
    refine ⟨?_, ⟨rfl, rfl⟩, ?_, List.Pairwise.nil, ?_⟩
    · intro p hp
      exact absurd hp (List.not_mem_nil p)
    · intro i hi
      exact absurd hi (List.not_mem_nil i)
    · intro e he
      exact absurd he (List.not_mem_nil e)
  | append_singleton ops op ih =>
    have hI := ih (fun o ho => hok o (List.mem_append_left _ ho))
    have hop : EngOpOk op := hok op (List.mem_append_right _ (List.mem_cons_self _ _))
    rw [runEngOps_append]
    match op with
    | .put k v =>
      obtain ⟨hk, w2, rfl, hw2⟩ := hop
      exact (put_step hI k w2 hk hw2).1
    | .del k => exact (delete_step hI k).1
    | .commit mp keys =>
      show C4Inv (match Batch.commit ⟨mp, keys, (runEngOps conf ops).txnId⟩
          (runEngOps conf ops) with
        | .error _ => runEngOps conf ops
        | .ok (_, db2) => db2)
      cases hcm : Batch.commit ⟨mp, keys, (runEngOps conf ops).txnId⟩
          (runEngOps conf ops) with
      | error e => exact hI
      | ok p =>
        obtain ⟨b2, db2⟩ := p
        exact c4_commit hI hcm hop
    | .merge => exact merge_step hI

/-- Claim C4 counterexample: the claim covers put(key, value) for
every value including nil, but put([0], nil) on a fresh store appends
a Delete-typed (tombstone) record and still inserts an index entry
pointing at it — the entry's record is a tombstone, violating the
non-tombstone part of the invariant (get reports ErrKeyHasDeleted). -/
theorem c4_counterexample :
    memGet [0] (runEngOps ⟨1024, 200, true⟩ [EngOp.put [0] none]).memTable =
      some ⟨0, 0, 14⟩ ∧
    (runEngOps ⟨1024, 200, true⟩ [EngOp.put [0] none]).walFor 0 =
      some (runEngOps ⟨1024, 200, true⟩ [EngOp.put [0] none]).activeWal ∧
    (runEngOps ⟨1024, 200, true⟩ [EngOp.put [0] none]).activeWal.readPos ⟨0, 0, 14⟩ =
      .ok ⟨typeDelete, [0], []⟩ ∧
    (⟨typeDelete, [0], []⟩ : Record).recordType = typeDelete :=
  ⟨rfl, rfl, rfl, rfl⟩

/-- Claim C4 (amended): after every history of engine operations —
put with a non-nil value within the codec caps, delete, batch Commit
with capped buffered entries, and Merge — every index entry
references a location inside an existing segment that reads back as a
Put- or TxnPut-typed (hence non-tombstone) record whose key equals
the index key.  A put with a nil value breaks the invariant by
indexing a tombstone (see the counterexample); open is outside this
statement because LoadHint seeds the index from the hint snapshot
without validating it against the segments (claim C5's engine shape). -/
theorem c4_amended (conf : Config) (ops : List EngOp)
    (hok : ∀ op ∈ ops, EngOpOk op) :
    ∀ e ∈ (runEngOps conf ops).memTable,
      ∃ w r, (runEngOps conf ops).walFor e.2.fileId = some w ∧
        e.2.offset + e.2.length ≤ w.content.length ∧
        w.readPos e.2 = .ok r ∧ r.key = e.1 ∧
        (r.recordType = typePut ∨ r.recordType = typeTxnPut) ∧
        ¬ r.recordType = typeDelete := by
  obtain ⟨-, -, -, -, hent⟩ := c4_inv conf ops hok
  intro e he
  rcases hent e he with ⟨v, hk, hv, w, hw, hb, hsl⟩ | ⟨tid, v, hk, hv, w, hw, hb, hsl⟩
  · refine ⟨w, ⟨typePut, e.1, v⟩, hw, hb, ?_, rfl, Or.inl rfl, by
      show ¬ typePut = typeDelete
      decide⟩
    rw [readPos_of_slice hb hsl, decode_put e.1 v hk hv]
  · refine ⟨w, ⟨typeTxnPut, e.1, v⟩, hw, hb, ?_, rfl, Or.inr rfl, by
      show ¬ typeTxnPut = typeDelete
      decide⟩
    rw [readPos_of_slice hb hsl, decode_txnPut tid e.1 v hk hv]

/-- Claim C4 witness: a history exercising a put, a batch commit and a
merge, with the hypotheses discharged concretely. -/
theorem c4_amended_witness :
    (∀ op ∈ [EngOp.put [1] (some [2]),
        EngOp.commit [([3], some [4])] [[3]], EngOp.merge], EngOpOk op) ∧
      (∀ e ∈ (runEngOps ⟨1024, 200, true⟩ [EngOp.put [1] (some [2]),
          EngOp.commit [([3], some [4])] [[3]], EngOp.merge]).memTable,
        ∃ w r, (runEngOps ⟨1024, 200, true⟩ [EngOp.put [1] (some [2]),
            EngOp.commit [([3], some [4])] [[3]], EngOp.merge]).walFor e.2.fileId =
            some w ∧
          e.2.offset + e.2.length ≤ w.content.length ∧
          w.readPos e.2 = .ok r ∧ r.key = e.1 ∧
          (r.recordType = typePut ∨ r.recordType = typeTxnPut) ∧
          ¬ r.recordType = typeDelete) := by
  have h : ∀ op ∈ [EngOp.put [1] (some [2]),
      EngOp.commit [([3], some [4])] [[3]], EngOp.merge], EngOpOk op := by
    intro op hop
    rcases List.mem_cons.1 hop with rfl | hop2
    · exact ⟨by decide, [2], rfl, by decide⟩
    rcases List.mem_cons.1 hop2 with rfl | hop3
    · show ∀ e ∈ [([3], some [4])], OpEntryCaps e
      intro e he
      rw [List.mem_singleton] at he
      subst he
      refine ⟨by norm_num [maxKeyLen], ?_⟩
      intro v hv
      have hv4 : v = [4] := by simpa using hv.symm
      subst hv4
      norm_num [maxValueLen]
    rw [List.mem_singleton] at hop3
    subst hop3
    trivial
  exact ⟨h, c4_amended _ _ h⟩

/-- Claim C10 witness: a concrete one-entry batch committed on a fresh
engine; the second Commit returns the same pair. -/
theorem c10_commit_idempotent_witness :
    ∃ p : Batch × Bitcask,
      (⟨[([1], some [2])], [[1]], 0⟩ : Batch).commit (freshBitcask ⟨1024, 200, true⟩) =
        .ok p ∧ p.1.commit p.2 = .ok p :=
  ⟨_, rfl, c10_commit_idempotent ⟨[([1], some [2])], [[1]], 0⟩
    (freshBitcask ⟨1024, 200, true⟩) _ _ rfl⟩

end Bitcask
